import Mathlib

/-!
# HashMap (multi-candidate chaining hash table): embedding of `hash_map.h`

The class template `HashMap<KeyType, ValueType, Hasher>` is embedded as a record of its
data members and its member functions as functions on that record.

* `size_t` values that can wrap are taken modulo `2 ^ 64`: the product in `GetHash`,
  `++size_` and `--size_`.
* `bucket_` (a `std::vector<std::list<PairType>>`) is a list of lists; `bucket_[i]` is
  `bucketAt`, `push_front` is `pushFront`.  The length of a `std::list` and the length of
  the vector are the exact number of live elements, so `capacity_ * 2` (the length of a
  vector that is then allocated) is not reduced.
* A `std::list` iterator is a pair (index of the list it belongs to, offset in that list);
  the past-the-end iterator of list `b` is `(b, length of b)`.
-/

set_option autoImplicit false
set_option linter.unusedSectionVars false

namespace HashMapModel

/-- Modulus of `size_t` arithmetic. -/
def wordSize : Nat := 2 ^ 64

/-- Member `kDefaultCapacity`. -/
def kDefaultCapacity : Nat := 4

/-- Member `kInfinity` (`1e12` converted to `size_t`). -/
def kInfinity : Nat := 1000000000000

/-- Member `primes_`. -/
def primes_ : List Nat := [1, 2, 3, 5]

/-- Error thrown by `at`. -/
inductive Error where
  | out_of_range
  deriving DecidableEq, Repr

/-- Data members of `HashMap`. -/
structure HashMap (K V : Type) where
  size_ : Nat
  capacity_ : Nat
  need_rebuild_ : Bool
  bucket_ : List (List (K × V))
  hasher_ : K → Nat

/-- A `std::list<PairType>::iterator`: the list it walks and the offset in it. -/
abbrev ListIt := Nat × Nat

/-- Data members of `HashMap::iterator` (the pointer `it_bucket_` is the table argument of
the functions below). -/
structure iterator where
  it_i_ : Nat
  it_capacity_ : Nat
  it_ : ListIt
  deriving DecidableEq, Repr

section Defs

variable {K V : Type}

/-- The list `bs[i]`. -/
def bucketAt (bs : List (List (K × V))) (i : Nat) : List (K × V) :=
  bs.getD i []

/-- The call `bs[i].push_front(e)`. -/
def pushFront (bs : List (List (K × V))) (i : Nat) (e : K × V) : List (List (K × V)) :=
  bs.set i (e :: bucketAt bs i)

/-- The iterator `bs[i].end()`. -/
def listEnd (bs : List (List (K × V))) (i : Nat) : ListIt :=
  (i, (bucketAt bs i).length)

/-- The comparison `operator==` of `iterator`: only `it_` is compared. -/
def iterator.eq (a b : iterator) : Bool :=
  decide (a.it_ = b.it_)

/-- The function `GetHash`: `hasher_(key) * k % capacity` on `size_t`. -/
def GetHash (t : HashMap K V) (key : K) (capacity k : Nat) : Nat :=
  t.hasher_ key * k % wordSize % capacity

/-- The function `BuildEmptyHashMap`. -/
def BuildEmptyHashMap (t : HashMap K V) (capacity : Nat) : HashMap K V :=
  { t with
    size_ := 0
    capacity_ := capacity
    need_rebuild_ := false
    bucket_ := List.replicate capacity [] }

/-- The constructor `HashMap(Hasher hasher)`. -/
def construct (hasher : K → Nat) : HashMap K V :=
  BuildEmptyHashMap
    { size_ := 0, capacity_ := kDefaultCapacity, need_rebuild_ := false,
      bucket_ := [], hasher_ := hasher } 4

/-- The member `size()`. -/
def HashMap.size (t : HashMap K V) : Nat := t.size_

/-- The member `empty()`. -/
def HashMap.empty (t : HashMap K V) : Bool := decide (t.size_ = 0)

/-- The member `clear()`. -/
def HashMap.clear (t : HashMap K V) : HashMap K V := BuildEmptyHashMap t 4

/-- The member `end()`. -/
def HashMap.end_ (t : HashMap K V) : iterator :=
  { it_i_ := t.capacity_ - 1, it_capacity_ := t.bucket_.length,
    it_ := listEnd t.bucket_ (t.capacity_ - 1) }

/-- The dereference `operator*` of an iterator into the table. -/
def HashMap.deref (t : HashMap K V) (it : iterator) : Option (K × V) :=
  (bucketAt t.bucket_ it.it_.1).get? it.it_.2

/-- The entry designated by a list iterator into the table (what a reference obtained from
it refers to). -/
def HashMap.entryAt (t : HashMap K V) (it : ListIt) : Option (K × V) :=
  (bucketAt t.bucket_ it.1).get? it.2

/-- The loop of `begin` over the bucket indices. -/
def beginLoop (t : HashMap K V) : List Nat → iterator
  | [] => t.end_
  | i :: is =>
    if (bucketAt t.bucket_ i).isEmpty = false then
      { it_i_ := i, it_capacity_ := t.bucket_.length, it_ := (i, 0) }
    else beginLoop t is

/-- The member `begin()`. -/
def HashMap.begin (t : HashMap K V) : iterator :=
  beginLoop t (List.range t.capacity_)

/-- The `while` part of the `do`/`while` of `GetNext`, with the number of remaining
buckets as fuel: `while (it_i_ < it_capacity_ && bucket[it_i_].empty()) ++it_i_`. -/
def skipEmpty (t : HashMap K V) (it_capacity_ : Nat) : Nat → Nat → Nat
  | 0, i => i
  | fuel + 1, i =>
    if i < it_capacity_ ∧ (bucketAt t.bucket_ i).isEmpty = true then
      skipEmpty t it_capacity_ fuel (i + 1)
    else i

/-- The function `iterator::GetNext` (`operator++`). -/
def GetNext (t : HashMap K V) (it : iterator) : iterator :=
  let it1 : ListIt :=
    if it.it_ ≠ listEnd t.bucket_ it.it_i_ then (it.it_.1, it.it_.2 + 1) else it.it_
  if it1 = listEnd t.bucket_ it.it_i_ then
    let i := skipEmpty t it.it_capacity_ (it.it_capacity_ - it.it_i_) (it.it_i_ + 1)
    if i < it.it_capacity_ then { it with it_i_ := i, it_ := (i, 0) }
    else { it with it_i_ := i, it_ := listEnd t.bucket_ (it.it_capacity_ - 1) }
  else { it with it_ := it1 }

/-- The loop `for (it = begin(); it != end(); ++it) visit(*it)`, bounded by `fuel` steps:
the entries visited, or `none` when `end()` is not met within `fuel` steps or an iterator
that designates no entry is dereferenced. -/
def traverseFrom (t : HashMap K V) : Nat → iterator → Option (List (K × V))
  | 0, _ => none
  | fuel + 1, it =>
    if it.eq t.end_ = true then some []
    else
      match t.deref it with
      | none => none
      | some e => (traverseFrom t fuel (GetNext t it)).map (fun l => e :: l)

/-- The traversal from `begin()` to `end()`. -/
def HashMap.traverse (t : HashMap K V) (fuel : Nat) : Option (List (K × V)) :=
  traverseFrom t fuel t.begin

/-- All entries of the table, bucket after bucket. -/
def HashMap.entries (t : HashMap K V) : List (K × V) := t.bucket_.flatten

/-- All keys of the table, bucket after bucket. -/
def HashMap.keys (t : HashMap K V) : List K := t.entries.map Prod.fst

/-- The candidate bucket indices of `key` for capacity `capacity`, in probe order. -/
def candidates (t : HashMap K V) (key : K) (capacity : Nat) : List Nat :=
  primes_.map (GetHash t key capacity)

variable [DecidableEq K]

/-- The functions `Find` and `FindConst`: the first position of `bucket_[hash]` holding
`key`, or `bucket_[hash].end()`. -/
def Find (t : HashMap K V) (key : K) (hash : Nat) : ListIt :=
  (hash, (bucketAt t.bucket_ hash).findIdx (fun e => decide (e.1 = key)))

/-- The loop of `find` over the probe multipliers. -/
def findLoop (t : HashMap K V) (key : K) : List Nat → iterator
  | [] => t.end_
  | p :: ps =>
    let hash := GetHash t key t.capacity_ p
    let it := Find t key hash
    if it ≠ listEnd t.bucket_ hash then
      { it_i_ := hash, it_capacity_ := t.bucket_.length, it_ := it }
    else findLoop t key ps

/-- The member `find`. -/
def HashMap.find (t : HashMap K V) (key : K) : iterator :=
  findLoop t key primes_

/-- The loop of `at` over the probe multipliers; the table is threaded through. -/
def atLoop (t : HashMap K V) (key : K) : List Nat → Except Error V × HashMap K V
  | [] => (Except.error Error.out_of_range, t)
  | p :: ps =>
    let hash := GetHash t key t.capacity_ p
    let it := Find t key hash
    if it ≠ listEnd t.bucket_ hash then
      match (bucketAt t.bucket_ hash).get? it.2 with
      | some e => (Except.ok e.2, t)
      | none => (Except.error Error.out_of_range, t)
    else atLoop t key ps

/-- The member `at`: the result and the table after the call. -/
def HashMap.at_ (t : HashMap K V) (key : K) : Except Error V × HashMap K V :=
  atLoop t key primes_

/-- The selection loop of `RebuildIfNeed` for one entry: the least loaded candidate bucket
of `new_bucket`, as `(min_hash, min_size)`. -/
def rebuildLoop (t : HashMap K V) (new_bucket : List (List (K × V))) (key : K)
    (new_capacity : Nat) : List Nat → Nat → Nat → Nat × Nat
  | [], min_hash, min_size => (min_hash, min_size)
  | p :: ps, min_hash, min_size =>
    let hash := GetHash t key new_capacity p
    let cur_size := (bucketAt new_bucket hash).length
    if cur_size < min_size then rebuildLoop t new_bucket key new_capacity ps hash cur_size
    else rebuildLoop t new_bucket key new_capacity ps min_hash min_size

/-- The body of the inner `for` of `RebuildIfNeed`: one entry is moved to `new_bucket`. -/
def rebuildEntry (t : HashMap K V) (new_capacity : Nat) (new_bucket : List (List (K × V)))
    (e : K × V) : List (List (K × V)) :=
  pushFront new_bucket (rebuildLoop t new_bucket e.1 new_capacity primes_ 0 kInfinity).1 e

/-- The function `RebuildIfNeed`. -/
def RebuildIfNeed (t : HashMap K V) : HashMap K V :=
  if t.need_rebuild_ = false then t
  else
    let new_capacity := t.capacity_ * 2
    let new_bucket :=
      (List.range t.capacity_).foldl
        (fun nb i => (bucketAt t.bucket_ i).foldl (rebuildEntry t new_capacity) nb)
        (List.replicate new_capacity [])
    { t with need_rebuild_ := false, capacity_ := new_capacity, bucket_ := new_bucket }

/-- The loop of `insert` and `operator[]` over the probe multipliers: the position of the
key when it is found (`Sum.inl`), else `(min_hash, min_size)`. -/
def insertLoop (t : HashMap K V) (key : K) : List Nat → Nat → Nat → ListIt ⊕ (Nat × Nat)
  | [], min_hash, min_size => Sum.inr (min_hash, min_size)
  | p :: ps, min_hash, min_size =>
    let hash := GetHash t key t.capacity_ p
    let it := Find t key hash
    if it ≠ listEnd t.bucket_ hash then Sum.inl it
    else
      let cur_size := (bucketAt t.bucket_ hash).length
      if cur_size < min_size then insertLoop t key ps hash cur_size
      else insertLoop t key ps min_hash min_size

/-- The member `insert`. -/
def HashMap.insert (t : HashMap K V) (pair : K × V) : HashMap K V :=
  let t1 := RebuildIfNeed t
  match insertLoop t1 pair.1 primes_ 0 kInfinity with
  | Sum.inl _ => t1
  | Sum.inr (min_hash, _) =>
    let size1 := (t1.size_ + 1) % wordSize
    { t1 with
      size_ := size1
      bucket_ := pushFront t1.bucket_ min_hash pair
      need_rebuild_ := if size1 = t1.capacity_ then true else t1.need_rebuild_ }

/-- The loop of `erase` over the probe multipliers. -/
def eraseLoop (t : HashMap K V) (key : K) : List Nat → HashMap K V
  | [] => t
  | p :: ps =>
    let hash := GetHash t key t.capacity_ p
    let it := Find t key hash
    if it ≠ listEnd t.bucket_ hash then
      { t with
        size_ := (t.size_ + wordSize - 1) % wordSize
        bucket_ := t.bucket_.set hash ((bucketAt t.bucket_ hash).eraseIdx it.2) }
    else eraseLoop t key ps

/-- The member `erase`. -/
def HashMap.erase (t : HashMap K V) (key : K) : HashMap K V :=
  eraseLoop t key primes_

/-- The member `operator[]`: the table after the call and the position of the value the
returned reference designates. -/
def HashMap.index [Inhabited V] (t : HashMap K V) (key : K) : HashMap K V × ListIt :=
  let t1 := RebuildIfNeed t
  match insertLoop t1 key primes_ 0 kInfinity with
  | Sum.inl it => (t1, it)
  | Sum.inr (min_hash, _) =>
    let size1 := (t1.size_ + 1) % wordSize
    ({ t1 with
       bucket_ := pushFront t1.bucket_ min_hash (key, default)
       size_ := size1
       need_rebuild_ := if size1 = t1.capacity_ then true else t1.need_rebuild_ },
     (min_hash, 0))

/-- The function `CopyHashMap`. -/
def CopyHashMap (self other : HashMap K V) : HashMap K V :=
  let t1 := BuildEmptyHashMap self other.capacity_
  let t2 := { t1 with hasher_ := other.hasher_ }
  { t2 with
    bucket_ :=
      (List.range t2.capacity_).foldl
        (fun bs i => (bucketAt other.bucket_ i).foldl (fun bs1 e => pushFront bs1 i e) bs)
        t2.bucket_ }

/-- The copy constructor: the members take their default initialisers (`default_hasher`
is the default-constructed `Hasher`), then `CopyHashMap(other)` runs. -/
def copyConstruct (default_hasher : K → Nat) (other : HashMap K V) : HashMap K V :=
  CopyHashMap
    { size_ := 0, capacity_ := kDefaultCapacity, need_rebuild_ := false, bucket_ := [],
      hasher_ := default_hasher } other

/-- The copy assignment `operator=`; `same_object` is the test `this == &other`. -/
def HashMap.assign (self other : HashMap K V) (same_object : Bool) : HashMap K V :=
  if same_object then self else CopyHashMap self other

/-- A call of `insert` or `erase`. -/
inductive Call (K V : Type) where
  | insert (pair : K × V)
  | erase (key : K)

/-- The effect of one call. -/
def applyCall (t : HashMap K V) : Call K V → HashMap K V
  | Call.insert pair => t.insert pair
  | Call.erase key => t.erase key

/-- The table reached from the empty table with hasher `hasher` by the calls `cs`. -/
def runCalls (hasher : K → Nat) (cs : List (Call K V)) : HashMap K V :=
  cs.foldl applyCall (construct hasher)

/-- The representation invariant of a table: one list per bucket index, every entry in one
of the candidate buckets of its key, no key stored twice, `size_` the number of stored
entries and at most `kInfinity`. -/
structure Inv (t : HashMap K V) : Prop where
  len : t.bucket_.length = t.capacity_
  cap_pos : 0 < t.capacity_
  placed : ∀ i e, e ∈ bucketAt t.bucket_ i → i ∈ candidates t e.1 t.capacity_
  nodup : t.keys.Nodup
  size_eq : t.size_ = t.entries.length
  size_le : t.size_ ≤ kInfinity

/-- The calls `insert` of `cs` are made while `size()` is below `kInfinity`, starting from
the table `t`. -/
def boundedFrom (t : HashMap K V) : List (Call K V) → Prop
  | [] => True
  | Call.insert pair :: cs => t.size_ < kInfinity ∧ boundedFrom (t.insert pair) cs
  | Call.erase key :: cs => boundedFrom (t.erase key) cs

/-- The calls `insert` of `cs` are made while `size()` is below `kInfinity`, starting from
the empty table. -/
def callsBounded (hasher : K → Nat) (cs : List (Call K V)) : Prop :=
  boundedFrom (construct hasher) cs

/-- The call is `erase(key)`. -/
def Call.isEraseOf (key : K) : Call K V → Bool
  | Call.erase k => decide (k = key)
  | Call.insert _ => false

/-- The value passed when the call is an `insert` of `key`. -/
def Call.insertedValue (key : K) : Call K V → Option V
  | Call.insert pair => if pair.1 = key then some pair.2 else none
  | Call.erase _ => none

/-- The key passed when the call is an `insert`. -/
def Call.insertedKey : Call K V → Option K
  | Call.insert pair => some pair.1
  | Call.erase _ => none

/-- The calls of `cs` that follow the last `erase(key)` (all of `cs` when there is none). -/
def sinceLastErase (key : K) (cs : List (Call K V)) : List (Call K V) :=
  (cs.reverse.takeWhile (fun c => !Call.isEraseOf key c)).reverse

/-- The value passed by the earliest `insert` of `key` that follows the last `erase(key)`,
or `none` when `key` was not inserted since. -/
def specValue (key : K) (cs : List (Call K V)) : Option V :=
  (sinceLastErase key cs).findSome? (Call.insertedValue key)

/-- The distinct keys that were inserted by `cs` and not erased since. -/
def liveKeys (cs : List (Call K V)) : List K :=
  (cs.filterMap Call.insertedKey).dedup.filter (fun k => (specValue k cs).isSome)

/-- The tables reached from the empty table with hasher `hasher` by calls of `insert`,
`erase` and `operator[]`, the calls that can add an entry being made while `size()` is
below `kInfinity`. -/
inductive Reach [Inhabited V] (hasher : K → Nat) : HashMap K V → Prop
  | empty : Reach hasher (construct hasher)
  | insert (t : HashMap K V) (pair : K × V) :
      Reach hasher t → t.size_ < kInfinity → Reach hasher (t.insert pair)
  | erase (t : HashMap K V) (key : K) : Reach hasher t → Reach hasher (t.erase key)
  | index (t : HashMap K V) (key : K) :
      Reach hasher t → t.size_ < kInfinity → Reach hasher (t.index key).1

/-- A hasher that sends every key to 1. -/
def oneHasher : Nat → Nat := fun _ => 1

/-- The calls `insert((0, 0))`, ..., `insert((n - 1, 0))`. -/
def fillCalls (n : Nat) : List (Call Nat Nat) :=
  (List.range n).map (fun i => Call.insert (i, 0))

/-- The load of the buckets after `m` placements of keys whose candidate buckets are
1, 2, 3 and 5: these four are filled in turn up to `kInfinity` entries each, and what
follows goes to bucket 0. -/
def RoundRobin (bs : List (List (Nat × Nat))) (m : Nat) : Prop :=
  (bucketAt bs 1).length = (min m (4 * kInfinity) + 3) / 4 ∧
    (bucketAt bs 2).length = (min m (4 * kInfinity) + 2) / 4 ∧
    (bucketAt bs 3).length = (min m (4 * kInfinity) + 1) / 4 ∧
    (bucketAt bs 5).length = min m (4 * kInfinity) / 4 ∧
    (bucketAt bs 0).length = m - 4 * kInfinity

/-- A table with hasher `oneHasher` that holds `n` entries with keys below `b`, placed as
`n` successive placements leave them, with the capacity that `n` successive insertions
give. -/
structure Filled (t : HashMap Nat Nat) (n b : Nat) : Prop where
  hasher : t.hasher_ = oneHasher
  len : t.bucket_.length = t.capacity_
  cap_ge : 8 ≤ t.capacity_
  cap_pow : ∃ j, t.capacity_ = 2 ^ j
  cap_lt : t.capacity_ < 2 * n
  le_cap : n ≤ t.capacity_
  balanced : RoundRobin t.bucket_ n
  count : t.entries.length = n
  size : t.size_ = n
  flag : t.need_rebuild_ = decide (n = t.capacity_)
  keys_lt : ∀ e ∈ t.entries, e.1 < b

/-- The bucket that receives the placement made after `m` placements of keys whose
candidate buckets are 1, 2, 3 and 5. -/
def selected (m : Nat) : Nat :=
  if 4 * kInfinity ≤ m then 0
  else if m % 4 = 0 then 1 else if m % 4 = 1 then 2 else if m % 4 = 2 then 3 else 5

/-- The number of entries that fills buckets 1, 2, 3 and 5 up to `kInfinity` each. -/
def fullLoad : Nat := 4 * kInfinity

/-- The table reached from the empty table with hasher `oneHasher` by the calls
`insert((0, 0))`, ..., `insert((fullLoad - 1, 0))`. -/
def fullTable : HashMap Nat Nat := runCalls oneHasher (fillCalls fullLoad)

/-- The capacity `2 ^ 42` reached while more than `fullLoad` entries are inserted. -/
def tripLoad : Nat := 4398046511104

/-- The table reached from the empty table with hasher `oneHasher` by the calls
`insert((0, 0))`, ..., `insert((tripLoad - 1, 0))`: it holds `tripLoad` entries, its
capacity is `tripLoad` and its threshold is tripped. -/
def tripTable : HashMap Nat Nat := runCalls oneHasher (fillCalls tripLoad)

/-- The functions `BuildWithIterators` and `BuildWithInitializerList`: the table is
emptied, then the pairs of the range are inserted in order. -/
def BuildWithIterators (t : HashMap K V) (range : List (K × V)) : HashMap K V :=
  range.foldl (fun t1 it => t1.insert it) (BuildEmptyHashMap t 4)

/-- The constructor `HashMap(std::initializer_list<PairType> list, Hasher hasher)`, whose
member initialiser is `hasher_(hasher)`. -/
def constructListHasher (list : List (K × V)) (hasher : K → Nat) : HashMap K V :=
  BuildWithIterators
    { size_ := 0, capacity_ := kDefaultCapacity, need_rebuild_ := false, bucket_ := [],
      hasher_ := hasher } list

/-- The constructor `HashMap(IteratorType begin, IteratorType end, Hasher hasher)`.  Its
member initialiser is `hasher_(hasher_)`: the member is copy-initialised from itself, that
is from the content `indeterminate` that its storage has before the initialisation; the
parameter `hasher` is not read. -/
def constructRangeHasher (range : List (K × V)) (_hasher : K → Nat)
    (indeterminate : K → Nat) : HashMap K V :=
  BuildWithIterators
    { size_ := 0, capacity_ := kDefaultCapacity, need_rebuild_ := false, bucket_ := [],
      hasher_ := indeterminate } range

/-- The table reached from the empty table with the identity hasher by the calls
`insert((0, 0))`, ..., `insert((3, 0))`: capacity 4, size 4, threshold tripped. -/
def trippedFour : HashMap Nat Nat := runCalls (fun k => k) (fillCalls 4)

/-- The tables reached from a constructed empty table by calls of `insert`, `erase`,
`operator[]`, `clear`, the copy constructor and the copy assignment. -/
inductive ReachAll [Inhabited V] : HashMap K V → Prop
  | empty (hasher : K → Nat) : ReachAll (construct hasher)
  | insert (t : HashMap K V) (pair : K × V) : ReachAll t → ReachAll (t.insert pair)
  | erase (t : HashMap K V) (key : K) : ReachAll t → ReachAll (t.erase key)
  | index (t : HashMap K V) (key : K) : ReachAll t → ReachAll (t.index key).1
  | clear (t : HashMap K V) : ReachAll t → ReachAll t.clear
  | copy (default_hasher : K → Nat) (other : HashMap K V) :
      ReachAll other → ReachAll (copyConstruct default_hasher other)
  | assign (self other : HashMap K V) (same_object : Bool) :
      ReachAll self → ReachAll other → ReachAll (self.assign other same_object)

/-- The tables reached from a constructed empty table by calls of `insert`, `erase`,
`operator[]` and `clear`. -/
inductive ReachPlain [Inhabited V] : HashMap K V → Prop
  | empty (hasher : K → Nat) : ReachPlain (construct hasher)
  | insert (t : HashMap K V) (pair : K × V) : ReachPlain t → ReachPlain (t.insert pair)
  | erase (t : HashMap K V) (key : K) : ReachPlain t → ReachPlain (t.erase key)
  | index (t : HashMap K V) (key : K) : ReachPlain t → ReachPlain (t.index key).1
  | clear (t : HashMap K V) : ReachPlain t → ReachPlain t.clear

/-- No bucket of the table holds `kInfinity` entries or more. -/
def Small (t : HashMap K V) : Prop :=
  ∀ b ∈ t.bucket_, b.length < kInfinity

/-- The tables reached from a constructed empty table by calls of `insert`, `erase`,
`operator[]`, `clear`, the copy constructor and the copy assignment, no bucket having
reached `kInfinity` entries on the way: the table left by every call that can add an entry
is `Small`. -/
inductive ReachSmall [Inhabited V] : HashMap K V → Prop
  | empty (hasher : K → Nat) : ReachSmall (construct hasher)
  | insert (t : HashMap K V) (pair : K × V) :
      ReachSmall t → Small (t.insert pair) → ReachSmall (t.insert pair)
  | erase (t : HashMap K V) (key : K) : ReachSmall t → ReachSmall (t.erase key)
  | index (t : HashMap K V) (key : K) :
      ReachSmall t → Small (t.index key).1 → ReachSmall (t.index key).1
  | clear (t : HashMap K V) : ReachSmall t → ReachSmall t.clear
  | copy (default_hasher : K → Nat) (other : HashMap K V) :
      ReachSmall other → ReachSmall (copyConstruct default_hasher other)
  | assign (self other : HashMap K V) (same_object : Bool) :
      ReachSmall self → ReachSmall other → ReachSmall (self.assign other same_object)

/-- The selection rule in the words of the specification: the first index of `cands` whose
bucket has the smallest entry count among the buckets of `cands` (0 when `cands` is
empty). -/
def leastLoaded (bs : List (List (K × V))) (cands : List Nat) : Nat :=
  (cands.find? (fun c =>
    cands.all (fun d => decide ((bucketAt bs c).length ≤ (bucketAt bs d).length)))).getD 0

/-- The placement of one entry in the words of the specification: the entry goes to the
front of the least loaded candidate bucket of its key for capacity `capacity`. -/
def placeLeast (t : HashMap K V) (capacity : Nat) (bs : List (List (K × V))) (e : K × V) :
    List (List (K × V)) :=
  pushFront bs (leastLoaded bs (candidates t e.1 capacity)) e

/-- The table reached from the empty table with the identity hasher by the calls
`insert((0, 0))`, ..., `insert((8, 0))`: capacity 16, size 9. -/
def nineTable : HashMap Nat Nat := runCalls (fun k => k) (fillCalls 9)

/-- The number of insertions after which five more fill the capacity `2 ^ 42`. -/
def dupBase : Nat := 4398046511099

/-- The table reached from the empty table with hasher `oneHasher` by the calls
`insert((0, 0))`, ..., `insert((dupBase - 1, 0))`, then `insert((dupBase, 7))`, three
insertions of the fresh keys `dupBase + 1`, `dupBase + 2`, `dupBase + 3`,
`insert((dupBase, 8))` and `insert((dupBase, 9))`; the last call performs the rehash. -/
def dupTable : HashMap Nat Nat :=
  runCalls oneHasher
    (fillCalls dupBase ++
      [Call.insert (dupBase, 7), Call.insert (dupBase + 1, 0), Call.insert (dupBase + 2, 0),
        Call.insert (dupBase + 3, 0), Call.insert (dupBase, 8), Call.insert (dupBase, 9)])

end Defs

section Theory

variable {K V : Type}

theorem bucketAt_eq_nil_of_le (bs : List (List (K × V))) (i : Nat) (h : bs.length ≤ i) :
    bucketAt bs i = [] := by
  rw [bucketAt, List.getD_eq_default _ _ h]

theorem mem_flatten_of_mem_bucketAt (bs : List (List (K × V))) (i : Nat) (e : K × V)
    (h : e ∈ bucketAt bs i) : e ∈ bs.flatten := by
  by_cases hi : i < bs.length
  · rw [bucketAt, List.getD_eq_getElem _ _ hi] at h
    exact List.mem_flatten.mpr ⟨bs[i], List.getElem_mem _, h⟩
  · rw [bucketAt_eq_nil_of_le bs i (by omega)] at h
    simp at h

theorem exists_bucketAt_of_mem_flatten (bs : List (List (K × V))) (e : K × V)
    (h : e ∈ bs.flatten) : ∃ i, i < bs.length ∧ e ∈ bucketAt bs i := by
  obtain ⟨b, hb, he⟩ := List.mem_flatten.mp h
  obtain ⟨i, hi, rfl⟩ := List.getElem_of_mem hb
  exact ⟨i, hi, by rw [bucketAt, List.getD_eq_getElem _ _ hi]; exact he⟩

theorem bucketAt_set (bs : List (List (K × V))) (i j : Nat) (b : List (K × V))
    (hi : i < bs.length) :
    bucketAt (bs.set i b) j = if j = i then b else bucketAt bs j := by
  unfold bucketAt
  by_cases h : j = i
  · subst h; simp [hi]
  · simp [h, List.getElem?_set_ne (Ne.symm h)]

/-- Splitting the flattened buckets around bucket `i`. -/
theorem flatten_set_perm (bs : List (List (K × V))) (i : Nat) (hi : i < bs.length) :
    ∃ rest : List (K × V), bs.flatten.Perm (bucketAt bs i ++ rest) ∧
      ∀ b, (bs.set i b).flatten.Perm (b ++ rest) := by
  induction bs generalizing i with
  | nil => simp at hi
  | cons a bs ih =>
    cases i with
    | zero =>
      exact ⟨bs.flatten, by simp [bucketAt], fun b => by simp⟩
    | succ i =>
      obtain ⟨rest, h1, h2⟩ := ih i (by simpa using hi)
      refine ⟨a ++ rest, ?_, fun b => ?_⟩
      · simp only [List.flatten_cons]
        have : bucketAt (a :: bs) (i + 1) = bucketAt bs i := by simp [bucketAt]
        rw [this]
        exact (List.Perm.append_left a h1).trans (by
          rw [← List.append_assoc, ← List.append_assoc]
          exact List.Perm.append_right rest List.perm_append_comm)
      · simp only [List.set_cons_succ, List.flatten_cons]
        exact (List.Perm.append_left a (h2 b)).trans (by
          rw [← List.append_assoc, ← List.append_assoc]
          exact List.Perm.append_right rest List.perm_append_comm)

theorem flatten_pushFront_perm (bs : List (List (K × V))) (i : Nat) (e : K × V)
    (hi : i < bs.length) : (pushFront bs i e).flatten.Perm (e :: bs.flatten) := by
  obtain ⟨rest, h1, h2⟩ := flatten_set_perm bs i hi
  exact (h2 _).trans (List.Perm.cons e h1.symm)

theorem length_pushFront (bs : List (List (K × V))) (i : Nat) (e : K × V) :
    (pushFront bs i e).length = bs.length := by
  simp [pushFront]

theorem bucketAt_pushFront (bs : List (List (K × V))) (i j : Nat) (e : K × V)
    (hi : i < bs.length) :
    bucketAt (pushFront bs i e) j = if j = i then e :: bucketAt bs i else bucketAt bs j := by
  simp [pushFront, bucketAt_set bs i j _ hi]

theorem get?_findIdx {α : Type} (p : α → Bool) (l : List α) :
    l.get? (l.findIdx p) = l.find? p := by
  induction l with
  | nil => simp
  | cons a l ih =>
    by_cases h : p a = true
    · simp [List.findIdx_cons, h]
    · simpa [List.findIdx_cons, h] using ih

theorem findIdx_ne_length_iff {α : Type} (p : α → Bool) (l : List α) :
    l.findIdx p ≠ l.length ↔ ∃ x ∈ l, p x = true := by
  constructor
  · intro h
    by_contra hc
    apply h
    apply List.findIdx_eq_length.mpr
    intro x hx
    by_contra hp
    exact hc ⟨x, hx, by simpa using hp⟩
  · intro h
    exact Nat.ne_of_lt (List.findIdx_lt_length_of_exists h)

variable [DecidableEq K]

theorem Find_ne_end_iff (t : HashMap K V) (key : K) (hash : Nat) :
    Find t key hash ≠ listEnd t.bucket_ hash ↔ ∃ e ∈ bucketAt t.bucket_ hash, e.1 = key := by
  unfold Find listEnd
  rw [Ne, Prod.mk.injEq, not_and]
  constructor
  · intro h
    obtain ⟨x, hx, hp⟩ := (findIdx_ne_length_iff _ _).mp (h rfl)
    exact ⟨x, hx, by simpa using hp⟩
  · rintro ⟨x, hx, hp⟩ _
    exact (findIdx_ne_length_iff _ _).mpr ⟨x, hx, by simpa using hp⟩

theorem Find_eq_end_iff (t : HashMap K V) (key : K) (hash : Nat) :
    Find t key hash = listEnd t.bucket_ hash ↔ ∀ e ∈ bucketAt t.bucket_ hash, e.1 ≠ key := by
  rw [← not_iff_not, ← Ne, Find_ne_end_iff]
  push_neg
  rfl

theorem atLoop_snd (t : HashMap K V) (key : K) (ps : List Nat) : (atLoop t key ps).2 = t := by
  induction ps with
  | nil => rfl
  | cons p ps ih =>
    simp only [atLoop]
    split
    · split <;> rfl
    · exact ih

/-- A miss of `at`: no probed bucket holds the key. -/
theorem atLoop_error_iff (t : HashMap K V) (key : K) (ps : List Nat) :
    (atLoop t key ps).1 = Except.error Error.out_of_range ↔
      ∀ p ∈ ps, ∀ e ∈ bucketAt t.bucket_ (GetHash t key t.capacity_ p), e.1 ≠ key := by
  induction ps with
  | nil => simp [atLoop]
  | cons p ps ih =>
    simp only [atLoop, List.mem_cons, forall_eq_or_imp]
    split
    · rename_i h
      have h2 := (Find_ne_end_iff _ _ _).mp h
      obtain ⟨e, he, hk⟩ := h2
      have : (bucketAt t.bucket_ (GetHash t key t.capacity_ p)).get?
          (Find t key (GetHash t key t.capacity_ p)).2 =
          (bucketAt t.bucket_ (GetHash t key t.capacity_ p)).find? (fun e => decide (e.1 = key)) :=
        get?_findIdx _ _
      rw [this]
      have hs : ((bucketAt t.bucket_ (GetHash t key t.capacity_ p)).find?
          (fun e => decide (e.1 = key))).isSome := by
        rw [List.find?_isSome]
        exact ⟨e, he, by simpa using hk⟩
      obtain ⟨x, hx⟩ := Option.isSome_iff_exists.mp hs
      rw [hx]
      simp only [false_iff, not_and, reduceCtorEq]
      intro h3
      exact absurd hk (h3 e he)
    · rename_i h
      rw [ne_eq, not_not, Find_eq_end_iff] at h
      rw [ih]
      exact ⟨fun h3 => ⟨h, h3⟩, fun h3 => h3.2⟩

/-- A hit of `at`: the value of an entry with that key in a probed bucket. -/
theorem atLoop_ok (t : HashMap K V) (key : K) (ps : List Nat) (v : V)
    (h : (atLoop t key ps).1 = Except.ok v) :
    ∃ p ∈ ps, (key, v) ∈ bucketAt t.bucket_ (GetHash t key t.capacity_ p) := by
  induction ps with
  | nil => simp [atLoop] at h
  | cons p ps ih =>
    simp only [atLoop] at h
    split at h
    · have : (bucketAt t.bucket_ (GetHash t key t.capacity_ p)).get?
          (Find t key (GetHash t key t.capacity_ p)).2 =
          (bucketAt t.bucket_ (GetHash t key t.capacity_ p)).find? (fun e => decide (e.1 = key)) :=
        get?_findIdx _ _
      rw [this] at h
      split at h
      · rename_i e he
        have h1 := List.find?_some he
        have h2 := List.mem_of_find?_eq_some he
        simp only [Except.ok.injEq] at h
        simp only [decide_eq_true_eq] at h1
        have he2 : e = (key, v) := Prod.ext h1 h
        rw [he2] at h2
        exact ⟨p, List.mem_cons_self _ _, h2⟩
      · simp at h
    · obtain ⟨q, hq, hm⟩ := ih h
      exact ⟨q, List.mem_cons_of_mem _ hq, hm⟩

theorem eq_of_mem_of_nodup_keys (l : List (K × V)) (h : (l.map Prod.fst).Nodup)
    (k : K) (v w : V) (hv : (k, v) ∈ l) (hw : (k, w) ∈ l) : v = w := by
  have := List.inj_on_of_nodup_map h hv hw rfl
  exact (Prod.mk.inj this).2

theorem mem_candidates_iff (t : HashMap K V) (key : K) (c i : Nat) :
    i ∈ candidates t key c ↔ ∃ p ∈ primes_, GetHash t key c p = i := by
  simp [candidates, List.mem_map]

theorem candidates_lt (t : HashMap K V) (key : K) (c i : Nat) (hc : 0 < c)
    (h : i ∈ candidates t key c) : i < c := by
  obtain ⟨p, _, rfl⟩ := (mem_candidates_iff t key c i).mp h
  exact Nat.mod_lt _ hc

variable [DecidableEq K]

theorem at_snd (t : HashMap K V) (key : K) : (t.at_ key).2 = t := atLoop_snd t key primes_

theorem at_ok_mem (t : HashMap K V) (key : K) (v : V) (h : (t.at_ key).1 = Except.ok v) :
    (key, v) ∈ t.entries := by
  obtain ⟨p, _, hm⟩ := atLoop_ok t key primes_ v h
  exact mem_flatten_of_mem_bucketAt _ _ _ hm

theorem at_error_of_not_mem (t : HashMap K V) (key : K) (h : key ∉ t.keys) :
    (t.at_ key).1 = Except.error Error.out_of_range := by
  apply (atLoop_error_iff t key primes_).mpr
  intro p _ e he hk
  apply h
  rw [← hk]
  exact List.mem_map_of_mem _ (mem_flatten_of_mem_bucketAt _ _ _ he)

theorem at_ok_of_mem (t : HashMap K V) (hI : Inv t) (key : K) (v : V)
    (h : (key, v) ∈ t.entries) : (t.at_ key).1 = Except.ok v := by
  obtain ⟨i, _, hi⟩ := exists_bucketAt_of_mem_flatten _ _ h
  obtain ⟨p, hp, hpi⟩ := (mem_candidates_iff _ _ _ _).mp (hI.placed i _ hi)
  have hne : (t.at_ key).1 ≠ Except.error Error.out_of_range := by
    intro hc
    have := (atLoop_error_iff t key primes_).mp hc p hp (key, v) (by rw [hpi]; exact hi)
    exact this rfl
  cases hr : (t.at_ key).1 with
  | error err => cases err; exact absurd hr hne
  | ok w =>
    have hw := at_ok_mem t key w hr
    rw [eq_of_mem_of_nodup_keys t.entries hI.nodup key w v hw h]

theorem at_ok_iff (t : HashMap K V) (hI : Inv t) (key : K) (v : V) :
    (t.at_ key).1 = Except.ok v ↔ (key, v) ∈ t.entries :=
  ⟨at_ok_mem t key v, at_ok_of_mem t hI key v⟩

theorem at_error_iff (t : HashMap K V) (hI : Inv t) (key : K) :
    (t.at_ key).1 = Except.error Error.out_of_range ↔ key ∉ t.keys := by
  constructor
  · intro h hk
    obtain ⟨e, he, hek⟩ := List.mem_map.mp hk
    have := at_ok_of_mem t hI key e.2 (by rw [← hek]; exact he)
    rw [h] at this
    cases this
  · exact at_error_of_not_mem t key

section Loop
variable (t : HashMap K V) (nb : List (List (K × V))) (key : K) (c : Nat)

theorem rebuildLoop_le (ps : List Nat) (mh ms : Nat) :
    (rebuildLoop t nb key c ps mh ms).2 ≤ ms ∧
      ∀ p ∈ ps, (rebuildLoop t nb key c ps mh ms).2 ≤ (bucketAt nb (GetHash t key c p)).length := by
  induction ps generalizing mh ms with
  | nil => simp [rebuildLoop]
  | cons p ps ih =>
    simp only [rebuildLoop, List.mem_cons, forall_eq_or_imp]
    split
    · rename_i h
      obtain ⟨h1, h2⟩ := ih (GetHash t key c p) (bucketAt nb (GetHash t key c p)).length
      exact ⟨by omega, h1, h2⟩
    · rename_i h
      obtain ⟨h1, h2⟩ := ih mh ms
      exact ⟨h1, by omega, h2⟩

theorem rebuildLoop_cases (ps : List Nat) (mh ms : Nat) :
    ((rebuildLoop t nb key c ps mh ms).1 = mh ∧ (rebuildLoop t nb key c ps mh ms).2 = ms) ∨
      (rebuildLoop t nb key c ps mh ms).1 ∈ ps.map (GetHash t key c) := by
  induction ps generalizing mh ms with
  | nil => simp [rebuildLoop]
  | cons p ps ih =>
    simp only [rebuildLoop, List.map_cons, List.mem_cons]
    split
    · rcases ih (GetHash t key c p) (bucketAt nb (GetHash t key c p)).length with h | h
      · exact Or.inr (Or.inl h.1)
      · exact Or.inr (Or.inr h)
    · rcases ih mh ms with h | h
      · exact Or.inl h
      · exact Or.inr (Or.inr h)

/-- When a candidate bucket is shorter than `kInfinity`, the selected bucket is a
candidate bucket. -/
theorem rebuildLoop_mem (ps : List Nat) (mh ms : Nat)
    (h : ∃ p ∈ ps, (bucketAt nb (GetHash t key c p)).length < ms) :
    (rebuildLoop t nb key c ps mh ms).1 ∈ ps.map (GetHash t key c) := by
  rcases rebuildLoop_cases t nb key c ps mh ms with h1 | h1
  · obtain ⟨p, hp, hlt⟩ := h
    have := (rebuildLoop_le t nb key c ps mh ms).2 p hp
    omega
  · exact h1

theorem insertLoop_miss (ps : List Nat) (mh ms : Nat)
    (h : ∀ p ∈ ps, ∀ e ∈ bucketAt t.bucket_ (GetHash t key t.capacity_ p), e.1 ≠ key) :
    insertLoop t key ps mh ms = Sum.inr (rebuildLoop t t.bucket_ key t.capacity_ ps mh ms) := by
  induction ps generalizing mh ms with
  | nil => rfl
  | cons p ps ih =>
    have h1 := (Find_eq_end_iff t key _).mpr (h p (List.mem_cons_self _ _))
    have h2 : ∀ q ∈ ps, ∀ e ∈ bucketAt t.bucket_ (GetHash t key t.capacity_ q), e.1 ≠ key :=
      fun q hq => h q (List.mem_cons_of_mem _ hq)
    simp only [insertLoop, rebuildLoop, h1, ne_eq, not_true_eq_false, if_false]
    split
    · exact ih _ _ h2
    · exact ih _ _ h2

theorem insertLoop_hit (ps : List Nat) (mh ms : Nat)
    (h : ∃ p ∈ ps, ∃ e ∈ bucketAt t.bucket_ (GetHash t key t.capacity_ p), e.1 = key) :
    ∃ p ∈ ps, insertLoop t key ps mh ms = Sum.inl (Find t key (GetHash t key t.capacity_ p)) ∧
      Find t key (GetHash t key t.capacity_ p) ≠ listEnd t.bucket_ (GetHash t key t.capacity_ p) := by
  induction ps generalizing mh ms with
  | nil => simp at h
  | cons p ps ih =>
    by_cases h1 : Find t key (GetHash t key t.capacity_ p) ≠ listEnd t.bucket_ (GetHash t key t.capacity_ p)
    · exact ⟨p, List.mem_cons_self _ _, by simp only [insertLoop]; rw [if_pos h1], h1⟩
    · have h3 : ∃ q ∈ ps, ∃ e ∈ bucketAt t.bucket_ (GetHash t key t.capacity_ q), e.1 = key := by
        obtain ⟨q, hq, e, he, hk⟩ := h
        rcases List.mem_cons.mp hq with rfl | hq
        · exact absurd ((Find_ne_end_iff t key _).mpr ⟨e, he, hk⟩) h1
        · exact ⟨q, hq, e, he, hk⟩
      simp only [insertLoop]
      rw [if_neg h1]
      split
      · obtain ⟨q, hq, h4⟩ := ih _ _ h3
        exact ⟨q, List.mem_cons_of_mem _ hq, h4⟩
      · obtain ⟨q, hq, h4⟩ := ih _ _ h3
        exact ⟨q, List.mem_cons_of_mem _ hq, h4⟩

end Loop

theorem foldl_range_buckets {β : Type} (bs : List (List (K × V))) (f : β → K × V → β)
    (init : β) (n : Nat) (hn : n ≤ bs.length) :
    (List.range n).foldl (fun nb i => (bucketAt bs i).foldl f nb) init =
      (bs.take n).flatten.foldl f init := by
  induction n with
  | zero => simp
  | succ n ih =>
    have hlt : n < bs.length := by omega
    rw [List.range_succ, List.foldl_append, ih (by omega), List.take_succ,
      List.getElem?_eq_getElem hlt]
    simp only [List.foldl_cons, List.foldl_nil, Option.toList_some, List.flatten_append,
      List.flatten_cons, List.flatten_nil, List.append_nil, List.foldl_append]
    rw [bucketAt, List.getD_eq_getElem _ _ hlt]

theorem length_bucketAt_le (bs : List (List (K × V))) (i : Nat) :
    (bucketAt bs i).length ≤ bs.flatten.length := by
  by_cases hi : i < bs.length
  · obtain ⟨rest, h1, _⟩ := flatten_set_perm bs i hi
    rw [h1.length_eq, List.length_append]
    omega
  · rw [bucketAt_eq_nil_of_le bs i (by omega)]
    simp

theorem GetHash_congr (t t1 : HashMap K V) (h : t1.hasher_ = t.hasher_) (key : K) (c p : Nat) :
    GetHash t1 key c p = GetHash t key c p := by
  simp [GetHash, h]

theorem candidates_congr (t t1 : HashMap K V) (h : t1.hasher_ = t.hasher_) (key : K) (c : Nat) :
    candidates t1 key c = candidates t key c := by
  simp [candidates, GetHash, h]

variable [DecidableEq K]

theorem rebuildLoop_lt (t : HashMap K V) (nb : List (List (K × V))) (key : K) (c : Nat)
    (hc : 0 < c) : (rebuildLoop t nb key c primes_ 0 kInfinity).1 < c := by
  rcases rebuildLoop_cases t nb key c primes_ 0 kInfinity with h | h
  · omega
  · obtain ⟨p, _, hp⟩ := List.mem_map.mp h
    rw [← hp]
    exact Nat.mod_lt _ hc

theorem length_foldl_rebuildEntry (t : HashMap K V) (c : Nat) (es : List (K × V))
    (nb : List (List (K × V))) : (es.foldl (rebuildEntry t c) nb).length = nb.length := by
  induction es generalizing nb with
  | nil => rfl
  | cons e es ih => rw [List.foldl_cons, ih, rebuildEntry, length_pushFront]

/-- The rehash loop keeps every entry: the new buckets hold the old content of the new
buckets and the moved entries. -/
theorem flatten_foldl_rebuildEntry (t : HashMap K V) (c : Nat) (hc : 0 < c)
    (es : List (K × V)) (nb : List (List (K × V))) (hn : nb.length = c) :
    (es.foldl (rebuildEntry t c) nb).flatten.Perm (es ++ nb.flatten) := by
  induction es generalizing nb with
  | nil => simp
  | cons e es ih =>
    rw [List.foldl_cons]
    have h1 := ih (rebuildEntry t c nb e) (by rw [rebuildEntry, length_pushFront, hn])
    have h2 : (rebuildEntry t c nb e).flatten.Perm (e :: nb.flatten) :=
      flatten_pushFront_perm nb _ e (by rw [hn]; exact rebuildLoop_lt t nb e.1 c hc)
    exact h1.trans ((List.Perm.append_left es h2).trans (by
      simp))

/-- The rehash loop puts every entry in a candidate bucket of its key, as long as fewer
than `kInfinity` entries are in the new buckets when an entry is moved. -/
theorem placed_foldl_rebuildEntry (t : HashMap K V) (c : Nat) (hc : 0 < c)
    (es : List (K × V)) (nb : List (List (K × V))) (hn : nb.length = c)
    (hb : nb.flatten.length + es.length ≤ kInfinity)
    (hp : ∀ i e, e ∈ bucketAt nb i → i ∈ candidates t e.1 c) :
    ∀ i e, e ∈ bucketAt (es.foldl (rebuildEntry t c) nb) i → i ∈ candidates t e.1 c := by
  induction es generalizing nb with
  | nil => exact hp
  | cons e es ih =>
    rw [List.foldl_cons]
    have hlt := rebuildLoop_lt t nb e.1 c hc
    have hmem : (rebuildLoop t nb e.1 c primes_ 0 kInfinity).1 ∈ candidates t e.1 c := by
      apply rebuildLoop_mem
      refine ⟨1, by simp [primes_], ?_⟩
      have := length_bucketAt_le nb (GetHash t e.1 c 1)
      simp only [List.length_cons] at hb
      omega
    have h2 : (rebuildEntry t c nb e).flatten.Perm (e :: nb.flatten) :=
      flatten_pushFront_perm nb _ e (by rw [hn]; exact hlt)
    apply ih (rebuildEntry t c nb e) (by rw [rebuildEntry, length_pushFront, hn])
    · rw [h2.length_eq]
      simp only [List.length_cons] at hb ⊢
      omega
    · intro i x hx
      rw [rebuildEntry, bucketAt_pushFront nb _ i e (by rw [hn]; exact hlt)] at hx
      split at hx
      · rename_i hi
        rcases List.mem_cons.mp hx with rfl | hx
        · rw [hi]; exact hmem
        · rw [hi]; exact hp _ x hx
      · exact hp i x hx

theorem bucketAt_replicate (c i : Nat) :
    bucketAt (List.replicate c ([] : List (K × V))) i = [] := by
  by_cases h : i < c
  · rw [bucketAt, List.getD_eq_getElem _ _ (by simpa using h)]
    simp
  · exact bucketAt_eq_nil_of_le _ _ (by simpa using h)

theorem flatten_replicate_nil (c : Nat) :
    (List.replicate c ([] : List (K × V))).flatten = [] := by
  induction c with
  | zero => rfl
  | succ c ih => simp [List.replicate_succ, ih]

variable [DecidableEq K]

theorem RebuildIfNeed_of_false (t : HashMap K V) (h : t.need_rebuild_ = false) :
    RebuildIfNeed t = t := by
  simp [RebuildIfNeed, h]

theorem RebuildIfNeed_of_true (t : HashMap K V) (h : t.need_rebuild_ = true)
    (hl : t.bucket_.length = t.capacity_) :
    RebuildIfNeed t =
      { t with
        need_rebuild_ := false
        capacity_ := t.capacity_ * 2
        bucket_ := t.entries.foldl (rebuildEntry t (t.capacity_ * 2))
          (List.replicate (t.capacity_ * 2) []) } := by
  simp only [RebuildIfNeed, h, Bool.true_eq_false, if_false]
  rw [foldl_range_buckets t.bucket_ _ _ t.capacity_ (by omega), ← hl, List.take_length]
  rfl

theorem RebuildIfNeed_hasher (t : HashMap K V) : (RebuildIfNeed t).hasher_ = t.hasher_ := by
  unfold RebuildIfNeed
  split <;> rfl

theorem RebuildIfNeed_size (t : HashMap K V) : (RebuildIfNeed t).size_ = t.size_ := by
  unfold RebuildIfNeed
  split <;> rfl

theorem RebuildIfNeed_flag (t : HashMap K V) : (RebuildIfNeed t).need_rebuild_ = false := by
  unfold RebuildIfNeed
  split
  · assumption
  · rfl

theorem RebuildIfNeed_capacity (t : HashMap K V) :
    (RebuildIfNeed t).capacity_ = if t.need_rebuild_ = true then t.capacity_ * 2 else t.capacity_ := by
  unfold RebuildIfNeed
  split
  · rename_i h; simp [h]
  · rename_i h; simp at h; simp [h]

/-- The rehash keeps the stored entries (in another order). -/
theorem RebuildIfNeed_entries (t : HashMap K V) (hl : t.bucket_.length = t.capacity_)
    (hc : 0 < t.capacity_) : (RebuildIfNeed t).entries.Perm t.entries := by
  cases h : t.need_rebuild_ with
  | false => rw [RebuildIfNeed_of_false t h]
  | true =>
    rw [RebuildIfNeed_of_true t h hl]
    have := flatten_foldl_rebuildEntry t (t.capacity_ * 2) (by omega) t.entries
      (List.replicate (t.capacity_ * 2) []) (by simp)
    rw [flatten_replicate_nil, List.append_nil] at this
    exact this

/-- The rehash keeps the representation invariant. -/
theorem RebuildIfNeed_inv (t : HashMap K V) (hI : Inv t) : Inv (RebuildIfNeed t) := by
  have hperm := RebuildIfNeed_entries t hI.len hI.cap_pos
  cases h : t.need_rebuild_ with
  | false => rw [RebuildIfNeed_of_false t h]; exact hI
  | true =>
    have hsz := RebuildIfNeed_size t
    rw [RebuildIfNeed_of_true t h hI.len] at hperm hsz ⊢
    refine ⟨?_, ?_, ?_, ?_, ?_, ?_⟩
    · simp [length_foldl_rebuildEntry]
    · have := hI.cap_pos
      show 0 < t.capacity_ * 2
      omega
    · intro i e he
      have := placed_foldl_rebuildEntry t (t.capacity_ * 2) (by have := hI.cap_pos; omega)
        t.entries (List.replicate (t.capacity_ * 2) []) (by simp)
        (by rw [flatten_replicate_nil]; have := hI.size_le; have := hI.size_eq; simp; omega)
        (by intro i e he; rw [bucketAt_replicate] at he; simp at he) i e he
      exact this
    · exact (List.Perm.nodup_iff (List.Perm.map Prod.fst hperm)).mpr hI.nodup
    · rw [hperm.length_eq]; exact hI.size_eq
    · exact hI.size_le

variable [DecidableEq K]

theorem not_mem_bucket_of_not_mem_keys (t : HashMap K V) (key : K) (h : key ∉ t.keys)
    (i : Nat) : ∀ e ∈ bucketAt t.bucket_ i, e.1 ≠ key := by
  intro e he hk
  apply h
  rw [← hk]
  exact List.mem_map_of_mem _ (mem_flatten_of_mem_bucketAt _ _ _ he)

theorem exists_probe_of_mem_keys (t : HashMap K V) (hI : Inv t) (key : K) (h : key ∈ t.keys) :
    ∃ p ∈ primes_, ∃ e ∈ bucketAt t.bucket_ (GetHash t key t.capacity_ p), e.1 = key := by
  obtain ⟨e, he, hek⟩ := List.mem_map.mp h
  obtain ⟨i, _, hi⟩ := exists_bucketAt_of_mem_flatten _ _ he
  obtain ⟨p, hp, hpi⟩ := (mem_candidates_iff _ _ _ _).mp (hI.placed i _ hi)
  rw [hek] at hpi
  exact ⟨p, hp, e, by rw [hpi]; exact hi, hek⟩

theorem keys_perm_of_entries_perm (t t1 : HashMap K V) (h : t1.entries.Perm t.entries) :
    t1.keys.Perm t.keys := List.Perm.map Prod.fst h

/-- The call `insert` with a key that is stored: only the deferred rehash is done. -/
theorem insert_of_mem (t : HashMap K V) (hI : Inv t) (pair : K × V) (h : pair.1 ∈ t.keys) :
    t.insert pair = RebuildIfNeed t := by
  have hI1 := RebuildIfNeed_inv t hI
  have hperm := RebuildIfNeed_entries t hI.len hI.cap_pos
  have h1 : pair.1 ∈ (RebuildIfNeed t).keys :=
    (keys_perm_of_entries_perm _ _ hperm).symm.subset h
  obtain ⟨p, _, h2, _⟩ := insertLoop_hit (RebuildIfNeed t) pair.1 primes_ 0 kInfinity
    (exists_probe_of_mem_keys _ hI1 pair.1 h1)
  simp only [HashMap.insert, h2]

/-- The call `insert` with a key that is not stored: the pair goes to the front of the
selected bucket of the table left by `RebuildIfNeed`. -/
theorem insert_of_not_mem (t : HashMap K V) (hl : t.bucket_.length = t.capacity_)
    (hc : 0 < t.capacity_) (pair : K × V) (h : pair.1 ∉ t.keys) :
    t.insert pair =
      { RebuildIfNeed t with
        size_ := ((RebuildIfNeed t).size_ + 1) % wordSize
        bucket_ := pushFront (RebuildIfNeed t).bucket_
          (rebuildLoop (RebuildIfNeed t) (RebuildIfNeed t).bucket_ pair.1
            (RebuildIfNeed t).capacity_ primes_ 0 kInfinity).1 pair
        need_rebuild_ :=
          if ((RebuildIfNeed t).size_ + 1) % wordSize = (RebuildIfNeed t).capacity_ then true
          else (RebuildIfNeed t).need_rebuild_ } := by
  have hperm := RebuildIfNeed_entries t hl hc
  have h1 : pair.1 ∉ (RebuildIfNeed t).keys :=
    fun hm => h ((keys_perm_of_entries_perm _ _ hperm).subset hm)
  have h2 := insertLoop_miss (RebuildIfNeed t) pair.1 primes_ 0 kInfinity
    (fun p _ => not_mem_bucket_of_not_mem_keys _ _ h1 _)
  rcases hr : rebuildLoop (RebuildIfNeed t) (RebuildIfNeed t).bucket_ pair.1
    (RebuildIfNeed t).capacity_ primes_ 0 kInfinity with ⟨mh, ms⟩
  rw [hr] at h2
  simp only [HashMap.insert, h2]

/-- Placing a new key in a table that satisfies the invariant and holds fewer than
`kInfinity` entries. -/
theorem place_inv (t : HashMap K V) (hI : Inv t) (hb : t.size_ < kInfinity) (pair : K × V)
    (h : pair.1 ∉ t.keys) (flag : Bool) :
    Inv { t with
      size_ := (t.size_ + 1) % wordSize
      bucket_ := pushFront t.bucket_
        (rebuildLoop t t.bucket_ pair.1 t.capacity_ primes_ 0 kInfinity).1 pair
      need_rebuild_ := flag } := by
  have hlt := rebuildLoop_lt t t.bucket_ pair.1 t.capacity_ hI.cap_pos
  have hlt2 : (rebuildLoop t t.bucket_ pair.1 t.capacity_ primes_ 0 kInfinity).1 <
      t.bucket_.length := by rw [hI.len]; exact hlt
  have hperm := flatten_pushFront_perm t.bucket_ _ pair hlt2
  have hmem : (rebuildLoop t t.bucket_ pair.1 t.capacity_ primes_ 0 kInfinity).1 ∈
      candidates t pair.1 t.capacity_ := by
    apply rebuildLoop_mem
    refine ⟨1, by simp [primes_], ?_⟩
    have := length_bucketAt_le t.bucket_ (GetHash t pair.1 t.capacity_ 1)
    have := hI.size_eq
    unfold HashMap.entries at this
    omega
  have hsz : (t.size_ + 1) % wordSize = t.size_ + 1 := by
    apply Nat.mod_eq_of_lt
    unfold wordSize
    unfold kInfinity at hb
    omega
  refine ⟨?_, hI.cap_pos, ?_, ?_, ?_, ?_⟩
  · simp only [length_pushFront]; exact hI.len
  · intro i e he
    simp only at he
    rw [bucketAt_pushFront _ _ i pair hlt2] at he
    show i ∈ candidates t e.1 t.capacity_
    split at he
    · rename_i hi
      rcases List.mem_cons.mp he with rfl | he
      · rw [hi]; exact hmem
      · rw [hi]; exact hI.placed _ e he
    · exact hI.placed i e he
  · show (List.map Prod.fst (pushFront t.bucket_ _ pair).flatten).Nodup
    rw [(List.Perm.map Prod.fst hperm).nodup_iff]
    exact List.nodup_cons.mpr ⟨h, hI.nodup⟩
  · show (t.size_ + 1) % wordSize = (pushFront t.bucket_ _ pair).flatten.length
    rw [hsz, hperm.length_eq, List.length_cons, hI.size_eq]
    rfl
  · show (t.size_ + 1) % wordSize ≤ kInfinity
    rw [hsz]; omega

theorem insert_inv (t : HashMap K V) (hI : Inv t) (hb : t.size_ < kInfinity) (pair : K × V) :
    Inv (t.insert pair) := by
  by_cases h : pair.1 ∈ t.keys
  · rw [insert_of_mem t hI pair h]; exact RebuildIfNeed_inv t hI
  · rw [insert_of_not_mem t hI.len hI.cap_pos pair h]
    have hperm := RebuildIfNeed_entries t hI.len hI.cap_pos
    exact place_inv (RebuildIfNeed t) (RebuildIfNeed_inv t hI)
      (by rw [RebuildIfNeed_size]; exact hb) pair
      (fun hm => h ((keys_perm_of_entries_perm _ _ hperm).subset hm)) _

theorem insert_entries_of_mem (t : HashMap K V) (hI : Inv t) (pair : K × V)
    (h : pair.1 ∈ t.keys) : (t.insert pair).entries.Perm t.entries := by
  rw [insert_of_mem t hI pair h]; exact RebuildIfNeed_entries t hI.len hI.cap_pos

theorem insert_entries_of_not_mem (t : HashMap K V) (hl : t.bucket_.length = t.capacity_)
    (hc : 0 < t.capacity_) (pair : K × V)
    (h : pair.1 ∉ t.keys) : (t.insert pair).entries.Perm (pair :: t.entries) := by
  rw [insert_of_not_mem t hl hc pair h]
  have hperm := RebuildIfNeed_entries t hl hc
  have hl1 : (RebuildIfNeed t).bucket_.length = (RebuildIfNeed t).capacity_ := by
    cases hf : t.need_rebuild_ with
    | false => rw [RebuildIfNeed_of_false t hf]; exact hl
    | true => rw [RebuildIfNeed_of_true t hf hl]; simp [length_foldl_rebuildEntry]
  have hc1 : 0 < (RebuildIfNeed t).capacity_ := by
    rw [RebuildIfNeed_capacity]; split <;> omega
  have hlt := rebuildLoop_lt (RebuildIfNeed t) (RebuildIfNeed t).bucket_ pair.1
    (RebuildIfNeed t).capacity_ hc1
  exact (flatten_pushFront_perm _ _ pair (by rw [hl1]; exact hlt)).trans
    (List.Perm.cons pair hperm)

theorem index_fst [Inhabited V] (t : HashMap K V) (key : K) :
    (t.index key).1 = t.insert (key, default) := by
  simp only [HashMap.index, HashMap.insert]
  split <;> rfl

variable [DecidableEq K]

theorem eraseIdx_findIdx_eq_filter (l : List (K × V)) (key : K)
    (h : (l.map Prod.fst).Nodup) :
    l.eraseIdx (l.findIdx (fun e => decide (e.1 = key))) =
      l.filter (fun e => !decide (e.1 = key)) := by
  induction l with
  | nil => rfl
  | cons a l ih =>
    rw [List.map_cons, List.nodup_cons] at h
    by_cases ha : a.1 = key
    · have hf : l.filter (fun e => !decide (e.1 = key)) = l := by
        apply List.filter_eq_self.mpr
        intro e he
        have : e.1 ≠ key := by
          intro hk
          apply h.1
          rw [ha, ← hk]
          exact List.mem_map_of_mem _ he
        simpa using this
      simp [List.findIdx_cons, ha, hf]
    · simp only [List.findIdx_cons, ha, decide_False, cond_false, List.eraseIdx_cons_succ,
        Bool.not_false, List.filter_cons_of_pos]
      rw [ih h.2]

theorem kInfinity_lt_wordSize : kInfinity < wordSize := by
  unfold kInfinity wordSize
  norm_num

theorem size_dec (n : Nat) (h1 : 0 < n) (h2 : n ≤ kInfinity) :
    (n + wordSize - 1) % wordSize = n - 1 := by
  have h3 := kInfinity_lt_wordSize
  have h4 : n + wordSize - 1 = (n - 1) + wordSize := by omega
  rw [h4, Nat.add_mod_right]
  exact Nat.mod_eq_of_lt (by omega)

theorem eraseLoop_miss (t : HashMap K V) (key : K) (ps : List Nat)
    (h : ∀ p ∈ ps, ∀ e ∈ bucketAt t.bucket_ (GetHash t key t.capacity_ p), e.1 ≠ key) :
    eraseLoop t key ps = t := by
  induction ps with
  | nil => rfl
  | cons p ps ih =>
    have h1 := (Find_eq_end_iff t key _).mpr (h p (List.mem_cons_self _ _))
    simp only [eraseLoop]
    rw [if_neg (by rw [h1]; simp)]
    exact ih (fun q hq => h q (List.mem_cons_of_mem _ hq))

theorem eraseLoop_hit (t : HashMap K V) (key : K) (ps : List Nat)
    (h : ∃ p ∈ ps, ∃ e ∈ bucketAt t.bucket_ (GetHash t key t.capacity_ p), e.1 = key) :
    ∃ p ∈ ps, (∃ e ∈ bucketAt t.bucket_ (GetHash t key t.capacity_ p), e.1 = key) ∧
      eraseLoop t key ps =
        { t with
          size_ := (t.size_ + wordSize - 1) % wordSize
          bucket_ := t.bucket_.set (GetHash t key t.capacity_ p)
            ((bucketAt t.bucket_ (GetHash t key t.capacity_ p)).eraseIdx
              ((bucketAt t.bucket_ (GetHash t key t.capacity_ p)).findIdx
                (fun e => decide (e.1 = key)))) } := by
  induction ps with
  | nil => simp at h
  | cons p ps ih =>
    by_cases h1 : Find t key (GetHash t key t.capacity_ p) ≠
        listEnd t.bucket_ (GetHash t key t.capacity_ p)
    · refine ⟨p, List.mem_cons_self _ _, (Find_ne_end_iff t key _).mp h1, ?_⟩
      simp only [eraseLoop]
      rw [if_pos h1]
      rfl
    · have h3 : ∃ q ∈ ps, ∃ e ∈ bucketAt t.bucket_ (GetHash t key t.capacity_ q), e.1 = key := by
        obtain ⟨q, hq, e, he, hk⟩ := h
        rcases List.mem_cons.mp hq with rfl | hq
        · exact absurd ((Find_ne_end_iff t key _).mpr ⟨e, he, hk⟩) h1
        · exact ⟨q, hq, e, he, hk⟩
      obtain ⟨q, hq, h4, h5⟩ := ih h3
      refine ⟨q, List.mem_cons_of_mem _ hq, h4, ?_⟩
      simp only [eraseLoop]
      rw [if_neg h1]
      exact h5

theorem erase_of_not_mem (t : HashMap K V) (key : K) (h : key ∉ t.keys) : t.erase key = t :=
  eraseLoop_miss t key primes_ (fun _ _ => not_mem_bucket_of_not_mem_keys t key h _)

/-- The call `erase` on a table that satisfies the invariant: the entries with that key
are removed; the invariant is kept. -/
theorem erase_spec (t : HashMap K V) (hI : Inv t) (key : K) :
    Inv (t.erase key) ∧
      (t.erase key).entries.Perm (t.entries.filter (fun e => !decide (e.1 = key))) ∧
      (t.erase key).capacity_ = t.capacity_ ∧ (t.erase key).hasher_ = t.hasher_ ∧
      (t.erase key).need_rebuild_ = t.need_rebuild_ := by
  by_cases h : key ∈ t.keys
  · obtain ⟨p, _, ⟨e, he, hek⟩, heq⟩ := eraseLoop_hit t key primes_
      (exists_probe_of_mem_keys t hI key h)
    have hlt : GetHash t key t.capacity_ p < t.bucket_.length := by
      rw [hI.len]; exact Nat.mod_lt _ hI.cap_pos
    obtain ⟨rest, hr1, hr2⟩ := flatten_set_perm t.bucket_ _ hlt
    have hnd : ((bucketAt t.bucket_ (GetHash t key t.capacity_ p) ++ rest).map Prod.fst).Nodup :=
      (List.Perm.map Prod.fst hr1).nodup_iff.mp hI.nodup
    rw [List.map_append] at hnd
    have hnd1 := (List.nodup_append.mp hnd).1
    have hdisj := (List.nodup_append.mp hnd).2.2
    have hrest : rest.filter (fun e => !decide (e.1 = key)) = rest := by
      apply List.filter_eq_self.mpr
      intro x hx
      have : x.1 ≠ key := by
        intro hk
        exact hdisj (List.mem_map_of_mem Prod.fst he) (by rw [hek, ← hk]; exact List.mem_map_of_mem _ hx)
      simpa using this
    have hbk : (t.erase key).bucket_ = t.bucket_.set (GetHash t key t.capacity_ p)
        ((bucketAt t.bucket_ (GetHash t key t.capacity_ p)).eraseIdx
          ((bucketAt t.bucket_ (GetHash t key t.capacity_ p)).findIdx
            (fun e => decide (e.1 = key)))) := by
      unfold HashMap.erase; rw [heq]
    have hcap : (t.erase key).capacity_ = t.capacity_ := by unfold HashMap.erase; rw [heq]
    have hhs : (t.erase key).hasher_ = t.hasher_ := by unfold HashMap.erase; rw [heq]
    have hfg : (t.erase key).need_rebuild_ = t.need_rebuild_ := by
      unfold HashMap.erase; rw [heq]
    have hsz : (t.erase key).size_ = (t.size_ + wordSize - 1) % wordSize := by
      unfold HashMap.erase; rw [heq]
    have hperm : (t.erase key).entries.Perm (t.entries.filter (fun e => !decide (e.1 = key))) := by
      unfold HashMap.entries
      rw [hbk, eraseIdx_findIdx_eq_filter _ key hnd1]
      refine (hr2 _).trans ?_
      have h5 := List.Perm.filter (fun e : K × V => !decide (e.1 = key)) hr1
      rw [List.filter_append, hrest] at h5
      exact h5.symm
    have hsub : ((t.entries.filter (fun e => !decide (e.1 = key))).map Prod.fst).Nodup :=
      hI.nodup.sublist (List.Sublist.map _ (List.filter_sublist _))
    have hlen : (t.erase key).entries.length + 1 = t.entries.length := by
      unfold HashMap.entries
      rw [hbk, (hr2 _).length_eq, hr1.length_eq, List.length_append, List.length_append,
        List.length_eraseIdx]
      have hfl : (bucketAt t.bucket_ (GetHash t key t.capacity_ p)).findIdx
          (fun e => decide (e.1 = key)) <
          (bucketAt t.bucket_ (GetHash t key t.capacity_ p)).length :=
        List.findIdx_lt_length_of_exists ⟨e, he, by simpa using hek⟩
      rw [if_pos hfl]
      omega
    have h1 := hI.size_eq
    have h2 := hI.size_le
    refine ⟨⟨?_, ?_, ?_, ?_, ?_, ?_⟩, hperm, hcap, hhs, hfg⟩
    · rw [hbk, hcap, List.length_set]; exact hI.len
    · rw [hcap]; exact hI.cap_pos
    · intro i x hx
      rw [hbk, bucketAt_set _ _ i _ hlt] at hx
      rw [candidates_congr t _ hhs, hcap]
      split at hx
      · rename_i hi
        rw [hi]
        exact hI.placed _ x (List.mem_of_mem_eraseIdx hx)
      · exact hI.placed i x hx
    · exact (List.Perm.map Prod.fst hperm).nodup_iff.mpr hsub
    · rw [hsz, size_dec _ (by omega) h2]
      omega
    · rw [hsz, size_dec _ (by omega) h2]
      omega
  · rw [erase_of_not_mem t key h]
    refine ⟨hI, ?_, rfl, rfl, rfl⟩
    have : t.entries.filter (fun e => !decide (e.1 = key)) = t.entries := by
      apply List.filter_eq_self.mpr
      intro x hx
      have : x.1 ≠ key := by
        intro hk
        exact h (by rw [← hk]; exact List.mem_map_of_mem _ hx)
      simpa using this
    rw [this]

variable [DecidableEq K]

theorem findLoop_of_error (t : HashMap K V) (key : K) (ps : List Nat)
    (h : (atLoop t key ps).1 = Except.error Error.out_of_range) :
    findLoop t key ps = t.end_ := by
  induction ps with
  | nil => rfl
  | cons p ps ih =>
    have h1 := (atLoop_error_iff t key (p :: ps)).mp h
    have h2 := (Find_eq_end_iff t key _).mpr (h1 p (List.mem_cons_self _ _))
    simp only [findLoop]
    rw [if_neg (by rw [h2]; simp)]
    apply ih
    apply (atLoop_error_iff t key ps).mpr
    exact fun q hq => h1 q (List.mem_cons_of_mem _ hq)

theorem findLoop_of_ok (t : HashMap K V) (key : K) (ps : List Nat) (v : V)
    (h : (atLoop t key ps).1 = Except.ok v) :
    t.deref (findLoop t key ps) = some (key, v) ∧ (findLoop t key ps).eq t.end_ = false := by
  induction ps with
  | nil => simp [atLoop] at h
  | cons p ps ih =>
    simp only [atLoop] at h
    simp only [findLoop]
    split at h
    · rename_i hne
      rw [if_pos hne]
      have hg : (bucketAt t.bucket_ (GetHash t key t.capacity_ p)).get?
          (Find t key (GetHash t key t.capacity_ p)).2 =
          (bucketAt t.bucket_ (GetHash t key t.capacity_ p)).find? (fun e => decide (e.1 = key)) :=
        get?_findIdx _ _
      split at h
      · rename_i e he
        have he' := he
        rw [hg] at he
        have h1 := List.find?_some he
        simp only [decide_eq_true_eq] at h1
        simp only [Except.ok.injEq] at h
        have he2 : e = (key, v) := Prod.ext h1 h
        refine ⟨?_, ?_⟩
        · simp only [HashMap.deref]
          rw [← he2]
          exact he'
        · simp only [iterator.eq, HashMap.end_, decide_eq_false_iff_not]
          intro hc
          have hidx : (bucketAt t.bucket_ (GetHash t key t.capacity_ p)).findIdx
              (fun e => decide (e.1 = key)) <
              (bucketAt t.bucket_ (GetHash t key t.capacity_ p)).length :=
            List.findIdx_lt_length_of_exists
              ⟨e, List.mem_of_find?_eq_some he, by simpa using h1⟩
          simp only [Find, listEnd, Prod.mk.injEq] at hc
          rw [← hc.1] at hc
          omega
      · simp at h
    · rename_i hne
      rw [if_neg hne]
      exact ih h

/-- The iterator `find(key)` equals `end()` exactly when `at(key)` throws. -/
theorem find_eq_end_iff (t : HashMap K V) (key : K) :
    (t.find key).eq t.end_ = true ↔ (t.at_ key).1 = Except.error Error.out_of_range := by
  constructor
  · intro h
    cases hr : (t.at_ key).1 with
    | error err => cases err; rfl
    | ok v =>
      have := (findLoop_of_ok t key primes_ v hr).2
      unfold HashMap.find at h
      rw [h] at this
      cases this
  · intro h
    unfold HashMap.find
    rw [findLoop_of_error t key primes_ h]
    simp [iterator.eq]

theorem deref_find_of_ok (t : HashMap K V) (key : K) (v : V)
    (h : (t.at_ key).1 = Except.ok v) : t.deref (t.find key) = some (key, v) :=
  (findLoop_of_ok t key primes_ v h).1

variable [DecidableEq K]

theorem construct_inv (hasher : K → Nat) : Inv (construct hasher : HashMap K V) := by
  refine ⟨rfl, (by show 0 < 4; omega), ?_, ?_, rfl, Nat.zero_le _⟩
  · intro i e he
    have : bucketAt (construct hasher : HashMap K V).bucket_ i = [] := bucketAt_replicate 4 i
    rw [this] at he
    simp at he
  · show (List.map Prod.fst (List.replicate 4 ([] : List (K × V))).flatten).Nodup
    rw [flatten_replicate_nil]
    exact List.nodup_nil

theorem runCalls_snoc (hasher : K → Nat) (cs : List (Call K V)) (c : Call K V) :
    runCalls hasher (cs ++ [c]) = applyCall (runCalls hasher cs) c := by
  simp [runCalls, List.foldl_append]

theorem boundedFrom_snoc (t : HashMap K V) (cs : List (Call K V)) (c : Call K V) :
    boundedFrom t (cs ++ [c]) ↔
      boundedFrom t cs ∧ boundedFrom (cs.foldl applyCall t) [c] := by
  induction cs generalizing t with
  | nil => simp [boundedFrom]
  | cons a cs ih =>
    cases a with
    | insert pair =>
      rw [List.cons_append]
      simp only [boundedFrom, List.foldl_cons, applyCall]
      rw [ih]
      exact and_assoc.symm
    | erase key =>
      rw [List.cons_append]
      simp only [boundedFrom, List.foldl_cons, applyCall]
      rw [ih]

theorem sinceLastErase_snoc (key : K) (cs : List (Call K V)) (c : Call K V) :
    sinceLastErase key (cs ++ [c]) =
      if Call.isEraseOf key c = true then [] else sinceLastErase key cs ++ [c] := by
  unfold sinceLastErase
  rw [List.reverse_append, List.reverse_singleton, List.singleton_append, List.takeWhile_cons]
  by_cases h : Call.isEraseOf key c = true
  · simp [h]
  · simp [h]

theorem specValue_snoc_insert (key : K) (cs : List (Call K V)) (pair : K × V) :
    specValue key (cs ++ [Call.insert pair]) =
      (specValue key cs).or (if pair.1 = key then some pair.2 else none) := by
  unfold specValue
  rw [sinceLastErase_snoc]
  by_cases h : pair.1 = key
  · simp [Call.isEraseOf, List.findSome?_append, List.findSome?_cons, Call.insertedValue, h]
  · simp [Call.isEraseOf, List.findSome?_append, List.findSome?_cons, Call.insertedValue, h]

theorem specValue_snoc_erase (key : K) (cs : List (Call K V)) (k : K) :
    specValue key (cs ++ [Call.erase k]) = if k = key then none else specValue key cs := by
  unfold specValue
  rw [sinceLastErase_snoc]
  by_cases h : k = key
  · simp [Call.isEraseOf, h]
  · simp [Call.isEraseOf, h, List.findSome?_append, List.findSome?_cons, Call.insertedValue]

theorem mem_keys_iff (t : HashMap K V) (key : K) :
    key ∈ t.keys ↔ ∃ v, (key, v) ∈ t.entries := by
  unfold HashMap.keys
  rw [List.mem_map]
  constructor
  · rintro ⟨e, he, rfl⟩; exact ⟨e.2, he⟩
  · rintro ⟨v, hv⟩; exact ⟨(key, v), hv, rfl⟩

/-- The table reached by a bounded sequence of calls satisfies the invariant and stores,
for each key, the value required by the call history. -/
theorem runCalls_spec (hasher : K → Nat) (cs : List (Call K V)) (hb : callsBounded hasher cs) :
    Inv (runCalls hasher cs) ∧
      ∀ k v, (k, v) ∈ (runCalls hasher cs).entries ↔ specValue k cs = some v := by
  induction cs using List.reverseRecOn with
  | nil =>
    refine ⟨construct_inv hasher, fun k v => ?_⟩
    have : (runCalls hasher ([] : List (Call K V))).entries = [] :=
      flatten_replicate_nil 4
    rw [this]
    simp [specValue, sinceLastErase]
  | append_singleton cs c ih =>
    obtain ⟨hb1, hb2⟩ := (boundedFrom_snoc _ cs c).mp hb
    obtain ⟨hI, hE⟩ := ih hb1
    rw [runCalls_snoc]
    cases c with
    | insert pair =>
      have hlt : (runCalls hasher cs).size_ < kInfinity := hb2.1
      refine ⟨insert_inv _ hI hlt pair, fun k v => ?_⟩
      rw [specValue_snoc_insert]
      show (k, v) ∈ ((runCalls hasher cs).insert pair).entries ↔ _
      by_cases hm : pair.1 ∈ (runCalls hasher cs).keys
      · rw [(insert_entries_of_mem _ hI pair hm).mem_iff, hE]
        by_cases hk : pair.1 = k
        · obtain ⟨w, hw⟩ := (mem_keys_iff _ _).mp hm
          rw [hk] at hw
          rw [(hE k w).mp hw]
          simp
        · simp [hk]
      · rw [(insert_entries_of_not_mem _ hI.len hI.cap_pos pair hm).mem_iff, List.mem_cons, hE]
        by_cases hk : pair.1 = k
        · have hn : specValue k cs = none := by
            cases hs : specValue k cs with
            | none => rfl
            | some w =>
              exact absurd ((mem_keys_iff _ _).mpr ⟨w, by rw [hk]; exact (hE k w).mpr hs⟩) hm
          rw [hn]
          simp only [hk, if_true, Option.or, Option.some.injEq]
          constructor
          · rintro (h | h)
            · rw [← h]
            · cases h
          · intro h
            left
            rw [← h, ← hk]
        · have : (k, v) ≠ pair := fun h => hk (by rw [← h])
          simp [hk, this]
    | erase key =>
      obtain ⟨hI2, hperm, _⟩ := erase_spec _ hI key
      refine ⟨hI2, fun k v => ?_⟩
      rw [specValue_snoc_erase]
      show (k, v) ∈ ((runCalls hasher cs).erase key).entries ↔ _
      rw [hperm.mem_iff, List.mem_filter, hE]
      by_cases hk : key = k
      · simp [hk]
      · have : ¬ k = key := fun h => hk h.symm
        simp [hk, this]

theorem reach_inv [Inhabited V] (hasher : K → Nat) (t : HashMap K V) (h : Reach hasher t) :
    Inv t := by
  induction h with
  | empty => exact construct_inv hasher
  | insert t pair _ hb ih => exact insert_inv t ih hb pair
  | erase t key _ ih => exact (erase_spec t ih key).1
  | index t key _ hb ih => rw [index_fst]; exact insert_inv t ih hb _

variable [DecidableEq K]

theorem mem_sinceLastErase (key : K) (cs : List (Call K V)) (c : Call K V)
    (h : c ∈ sinceLastErase key cs) : c ∈ cs := by
  unfold sinceLastErase at h
  rw [List.mem_reverse] at h
  exact List.mem_reverse.mp (List.takeWhile_subset _ h)

theorem keys_perm_liveKeys (hasher : K → Nat) (cs : List (Call K V))
    (hb : callsBounded hasher cs) : (runCalls hasher cs).keys.Perm (liveKeys cs) := by
  obtain ⟨hI, hE⟩ := runCalls_spec hasher cs hb
  apply (List.perm_ext_iff_of_nodup hI.nodup ?_).mpr
  · intro k
    rw [mem_keys_iff]
    unfold liveKeys
    rw [List.mem_filter, List.mem_dedup, List.mem_filterMap]
    constructor
    · rintro ⟨v, hv⟩
      have hs := (hE k v).mp hv
      refine ⟨?_, by rw [hs]; rfl⟩
      obtain ⟨c, hc, hcv⟩ := List.exists_of_findSome?_eq_some hs
      refine ⟨c, mem_sinceLastErase k cs c hc, ?_⟩
      cases c with
      | insert pair =>
        simp only [Call.insertedValue] at hcv
        split at hcv
        · rename_i hp; simp [Call.insertedKey, hp]
        · cases hcv
      | erase key => simp [Call.insertedValue] at hcv
    · rintro ⟨_, hs⟩
      obtain ⟨v, hv⟩ := Option.isSome_iff_exists.mp hs
      exact ⟨v, (hE k v).mpr hv⟩
  · unfold liveKeys
    exact (List.nodup_dedup _).filter _

/-- C1, amended: in the table reached from the empty table by a sequence of `insert` and
`erase` calls whose `insert` calls are each made while `size()` is below `kInfinity`
(10^12), no key is stored twice in the buckets taken together, and `size()` is the number
of distinct keys that were inserted and not erased since. -/
theorem C1_unique_keys_and_size (hasher : K → Nat) (cs : List (Call K V))
    (hb : callsBounded hasher cs) :
    (runCalls hasher cs).keys.Nodup ∧ (runCalls hasher cs).size = (liveKeys cs).length := by
  obtain ⟨hI, _⟩ := runCalls_spec hasher cs hb
  refine ⟨hI.nodup, ?_⟩
  rw [← (keys_perm_liveKeys hasher cs hb).length_eq]
  unfold HashMap.size HashMap.keys
  rw [List.length_map]
  exact hI.size_eq

theorem C1_unique_keys_and_size_witness :
    callsBounded (fun k : Nat => k)
        [Call.insert (1, 10), Call.insert (5, 50), Call.insert (1, 20), Call.erase 5,
          Call.insert (9, 90)] ∧
      (runCalls (fun k : Nat => k)
        [Call.insert (1, 10), Call.insert (5, 50), Call.insert (1, 20), Call.erase 5,
          Call.insert (9, 90)]).keys.Nodup ∧
      (runCalls (fun k : Nat => k)
        [Call.insert (1, 10), Call.insert (5, 50), Call.insert (1, 20), Call.erase 5,
          Call.insert (9, 90)]).size =
        (liveKeys ([Call.insert (1, 10), Call.insert (5, 50), Call.insert (1, 20),
          Call.erase 5, Call.insert (9, 90)] : List (Call Nat Nat))).length :=
  ⟨by unfold callsBounded; simp only [boundedFrom]; decide,
    C1_unique_keys_and_size _ _ (by unfold callsBounded; simp only [boundedFrom]; decide)⟩

/-- C2, amended: in the table reached from the empty table by a sequence of `insert` and
`erase` calls whose `insert` calls are each made while `size()` is below `kInfinity`
(10^12), for every key `k` that was inserted and not erased afterwards, `v` being the value
passed by the earliest `insert` of `k` after the last `erase(k)`: `at(k)` returns `v`, and
`find(k)` differs from `end()` and points at the entry `(k, v)`. -/
theorem C2_round_trip (hasher : K → Nat) (cs : List (Call K V))
    (hb : callsBounded hasher cs) (k : K) (v : V) (hv : specValue k cs = some v) :
    ((runCalls hasher cs).at_ k).1 = Except.ok v ∧
      ((runCalls hasher cs).find k).eq (runCalls hasher cs).end_ = false ∧
      (runCalls hasher cs).deref ((runCalls hasher cs).find k) = some (k, v) := by
  obtain ⟨hI, hE⟩ := runCalls_spec hasher cs hb
  have h1 := at_ok_of_mem _ hI k v ((hE k v).mpr hv)
  exact ⟨h1, (findLoop_of_ok _ k primes_ v h1).2, deref_find_of_ok _ k v h1⟩

theorem C2_round_trip_witness :
    callsBounded (fun k : Nat => k)
        [Call.insert (1, 10), Call.erase 1, Call.insert (1, 20), Call.insert (1, 30)] ∧
      specValue 1 ([Call.insert (1, 10), Call.erase 1, Call.insert (1, 20),
        Call.insert (1, 30)] : List (Call Nat Nat)) = some 20 ∧
      ((runCalls (fun k : Nat => k)
        [Call.insert (1, 10), Call.erase 1, Call.insert (1, 20), Call.insert (1, 30)]).at_ 1).1
        = Except.ok 20 :=
  ⟨by unfold callsBounded; simp only [boundedFrom]; decide, by decide,
    (C2_round_trip (fun k : Nat => k)
      [Call.insert (1, 10), Call.erase 1, Call.insert (1, 20), Call.insert (1, 30)]
      (by unfold callsBounded; simp only [boundedFrom]; decide) 1 20 (by decide)).1⟩

variable [DecidableEq K]

theorem at_congr (t t1 : HashMap K V) (hI : Inv t) (hI1 : Inv t1)
    (h : ∀ e, e ∈ t1.entries ↔ e ∈ t.entries) (k : K) : (t1.at_ k).1 = (t.at_ k).1 := by
  cases hr : (t.at_ k).1 with
  | error err =>
    cases err
    rw [at_error_iff t hI] at hr
    rw [at_error_iff t1 hI1, mem_keys_iff]
    rintro ⟨v, hv⟩
    exact hr ((mem_keys_iff _ _).mpr ⟨v, (h _).mp hv⟩)
  | ok v =>
    rw [at_ok_iff t hI] at hr
    rw [at_ok_iff t1 hI1]
    exact (h _).mpr hr

/-- C3: at the table holding the single pair `(1, 10)`, the copy made by the copy
constructor and by the copy assignment holds one entry in its buckets while its `size()`
is 0 and its `empty()` is true; the source has `size()` 1 and `empty()` false. -/
theorem C3_copy_size_is_zero :
    (copyConstruct (fun k : Nat => k)
        ((construct (fun k : Nat => k) : HashMap Nat Nat).insert (1, 10))).size = 0 ∧
      (copyConstruct (fun k : Nat => k)
        ((construct (fun k : Nat => k) : HashMap Nat Nat).insert (1, 10))).entries.length = 1 ∧
      (copyConstruct (fun k : Nat => k)
        ((construct (fun k : Nat => k) : HashMap Nat Nat).insert (1, 10))).empty = true ∧
      ((construct (fun k : Nat => k) : HashMap Nat Nat).assign
        ((construct (fun k : Nat => k) : HashMap Nat Nat).insert (1, 10)) false).size = 0 ∧
      ((construct (fun k : Nat => k) : HashMap Nat Nat).assign
        ((construct (fun k : Nat => k) : HashMap Nat Nat).insert (1, 10)) false).entries.length
        = 1 ∧
      ((construct (fun k : Nat => k) : HashMap Nat Nat).insert (1, 10)).size = 1 ∧
      ((construct (fun k : Nat => k) : HashMap Nat Nat).insert (1, 10)).empty = false := by
  decide

/-- C4, amended: for a table reached from the empty table by `insert`, `erase` and
`operator[]` calls, those that can add an entry being made while `size()` is below
`kInfinity` (10^12): when `k` is not stored and `size()` is below `kInfinity`,
`insert((k, v1))` followed by `insert((k, v2))` leaves `at(k)` equal to `v1`; and `insert`
of a pair whose key is stored leaves `size()` and the result of `at` for every key
unchanged, also when the call performs the deferred rehash. -/
theorem C4_insert_keeps_first_value [Inhabited V] (hasher : K → Nat) (t : HashMap K V)
    (hr : Reach hasher t) (k : K) (v1 v2 : V) :
    (k ∉ t.keys → t.size_ < kInfinity →
        (((t.insert (k, v1)).insert (k, v2)).at_ k).1 = Except.ok v1) ∧
      (k ∈ t.keys → (t.insert (k, v2)).size = t.size ∧
        ∀ k1, ((t.insert (k, v2)).at_ k1).1 = (t.at_ k1).1) := by
  have hI := reach_inv hasher t hr
  have hit : ∀ (s : HashMap K V), Inv s → k ∈ s.keys →
      (s.insert (k, v2)).size = s.size ∧ ∀ k1, ((s.insert (k, v2)).at_ k1).1 = (s.at_ k1).1 := by
    intro s hs hk
    have hI2 : Inv (s.insert (k, v2)) := by
      rw [insert_of_mem s hs (k, v2) hk]; exact RebuildIfNeed_inv s hs
    refine ⟨?_, fun k1 => at_congr s _ hs hI2
      (fun e => (insert_entries_of_mem s hs (k, v2) hk).mem_iff) k1⟩
    rw [insert_of_mem s hs (k, v2) hk]
    exact RebuildIfNeed_size s
  refine ⟨fun hk hb => ?_, hit t hI⟩
  have hI1 := insert_inv t hI hb (k, v1)
  have hperm := insert_entries_of_not_mem t hI.len hI.cap_pos (k, v1) hk
  have hmem : (k, v1) ∈ (t.insert (k, v1)).entries := hperm.mem_iff.mpr (List.mem_cons_self _ _)
  have hk1 : k ∈ (t.insert (k, v1)).keys := (mem_keys_iff _ _).mpr ⟨v1, hmem⟩
  rw [(hit _ hI1 hk1).2 k]
  exact at_ok_of_mem _ hI1 k v1 hmem

theorem C4_insert_keeps_first_value_witness :
    (((((construct (fun k : Nat => k) : HashMap Nat Nat).insert (3, 1)).insert (7, 1)).insert
        (7, 2)).at_ 7).1 = Except.ok 1 :=
  (C4_insert_keeps_first_value (fun k : Nat => k)
    ((construct (fun k : Nat => k) : HashMap Nat Nat).insert (3, 1))
    (Reach.insert _ _ Reach.empty (by decide)) 7 1 2).1 (by decide) (by decide)

/-- C5, amended: for a table reached from the empty table by `insert`, `erase` and
`operator[]` calls, those that can add an entry being made while `size()` is below
`kInfinity` (10^12), and every key `k`: after `erase(k)`, `find(k)` equals `end()` and
`at(k)` throws `out_of_range`. -/
theorem C5_erase_then_find [Inhabited V] (hasher : K → Nat) (t : HashMap K V)
    (hr : Reach hasher t) (k : K) :
    ((t.erase k).find k).eq (t.erase k).end_ = true ∧
      ((t.erase k).at_ k).1 = Except.error Error.out_of_range := by
  have hI := reach_inv hasher t hr
  obtain ⟨hI2, hperm, _⟩ := erase_spec t hI k
  have h : ((t.erase k).at_ k).1 = Except.error Error.out_of_range := by
    rw [at_error_iff _ hI2, mem_keys_iff]
    rintro ⟨v, hv⟩
    have := (List.mem_filter.mp (hperm.mem_iff.mp hv)).2
    simp at this
  exact ⟨(find_eq_end_iff _ k).mpr h, h⟩

theorem C5_erase_then_find_witness :
    ((((construct (fun k : Nat => k) : HashMap Nat Nat).insert (3, 1)).erase 3).find 3).eq
        (((construct (fun k : Nat => k) : HashMap Nat Nat).insert (3, 1)).erase 3).end_ = true ∧
      ((((construct (fun k : Nat => k) : HashMap Nat Nat).insert (3, 1)).erase 3).at_ 3).1 =
        Except.error Error.out_of_range :=
  C5_erase_then_find (fun k : Nat => k)
    ((construct (fun k : Nat => k) : HashMap Nat Nat).insert (3, 1))
    (Reach.insert _ _ Reach.empty (by decide)) 3

/-- The members `at` and `find` agree on every table: either `find(k)` equals `end()` and
`at(k)` throws `out_of_range`, or `find(k)` differs from `end()` and points at an entry
`(k, v)` and `at(k)` returns that `v`; the table after `at` is the table before it. -/
theorem at_agrees_with_find (t : HashMap K V) (k : K) :
    (((t.find k).eq t.end_ = true ∧ (t.at_ k).1 = Except.error Error.out_of_range) ∨
        ((t.find k).eq t.end_ = false ∧
          ∃ v, t.deref (t.find k) = some (k, v) ∧ (t.at_ k).1 = Except.ok v)) ∧
      (t.at_ k).2 = t := by
  refine ⟨?_, at_snd t k⟩
  cases hr : (t.at_ k).1 with
  | error err =>
    cases err
    exact Or.inl ⟨(find_eq_end_iff t k).mpr hr, rfl⟩
  | ok v =>
    obtain ⟨h1, h2⟩ := findLoop_of_ok t k primes_ v hr
    exact Or.inr ⟨h2, v, h1, rfl⟩

variable [DecidableEq K]

theorem insert_capacity (t : HashMap K V) (pair : K × V) :
    (t.insert pair).capacity_ = (RebuildIfNeed t).capacity_ := by
  simp only [HashMap.insert]
  split <;> rfl

theorem insert_hasher (t : HashMap K V) (pair : K × V) :
    (t.insert pair).hasher_ = t.hasher_ := by
  simp only [HashMap.insert]
  split
  · exact RebuildIfNeed_hasher t
  · exact RebuildIfNeed_hasher t

theorem insert_size_of_not_mem (t : HashMap K V) (hI : Inv t) (hb : t.size_ < kInfinity)
    (pair : K × V) (h : pair.1 ∉ t.keys) : (t.insert pair).size_ = t.size_ + 1 := by
  rw [insert_of_not_mem t hI.len hI.cap_pos pair h]
  show ((RebuildIfNeed t).size_ + 1) % wordSize = t.size_ + 1
  rw [RebuildIfNeed_size]
  apply Nat.mod_eq_of_lt
  have := kInfinity_lt_wordSize
  omega

theorem insert_flag_of_not_mem (t : HashMap K V) (hI : Inv t) (hb : t.size_ < kInfinity)
    (pair : K × V) (h : pair.1 ∉ t.keys) :
    (t.insert pair).need_rebuild_ = decide (t.size_ + 1 = (RebuildIfNeed t).capacity_) := by
  have hsz : ((RebuildIfNeed t).size_ + 1) % wordSize = t.size_ + 1 := by
    rw [RebuildIfNeed_size]
    apply Nat.mod_eq_of_lt
    have := kInfinity_lt_wordSize
    omega
  rw [insert_of_not_mem t hI.len hI.cap_pos pair h]
  show (if ((RebuildIfNeed t).size_ + 1) % wordSize = (RebuildIfNeed t).capacity_ then true
    else (RebuildIfNeed t).need_rebuild_) = _
  rw [hsz, RebuildIfNeed_flag]
  by_cases hc : t.size_ + 1 = (RebuildIfNeed t).capacity_
  · simp [hc]
  · simp [hc]

/-- After `insert`, every pair stored before is found by `at` and `find`. -/
theorem insert_keeps (t : HashMap K V) (hI : Inv t) (hb : t.size_ < kInfinity) (pair : K × V)
    (k : K) (v : V) (h : (k, v) ∈ t.entries) :
    ((t.insert pair).at_ k).1 = Except.ok v ∧
      ((t.insert pair).find k).eq (t.insert pair).end_ = false ∧
      (t.insert pair).deref ((t.insert pair).find k) = some (k, v) := by
  have hI2 := insert_inv t hI hb pair
  have hm : (k, v) ∈ (t.insert pair).entries := by
    by_cases hp : pair.1 ∈ t.keys
    · exact (insert_entries_of_mem t hI pair hp).mem_iff.mpr h
    · exact (insert_entries_of_not_mem t hI.len hI.cap_pos pair hp).mem_iff.mpr
        (List.mem_cons_of_mem _ h)
  have h1 := at_ok_of_mem _ hI2 k v hm
  exact ⟨h1, (findLoop_of_ok _ k primes_ v h1).2, deref_find_of_ok _ k v h1⟩

/-- Four inserts of distinct keys into the empty table, then a fifth. -/
theorem five_inserts (hasher : K → Nat) (a b c d e : K) (va vb vc vd ve : V)
    (hab : a ≠ b) (hac : a ≠ c) (had : a ≠ d) (hae : a ≠ e) (hbc : b ≠ c) (hbd : b ≠ d)
    (hbe : b ≠ e) (hcd : c ≠ d) (hce : c ≠ e) (hde : d ≠ e) :
    (runCalls hasher [Call.insert (a, va), Call.insert (b, vb), Call.insert (c, vc),
        Call.insert (d, vd)]).capacity_ = 4 ∧
      (runCalls hasher [Call.insert (a, va), Call.insert (b, vb), Call.insert (c, vc),
        Call.insert (d, vd)]).size_ = 4 ∧
      (runCalls hasher [Call.insert (a, va), Call.insert (b, vb), Call.insert (c, vc),
        Call.insert (d, vd)]).need_rebuild_ = true ∧
      (runCalls hasher [Call.insert (a, va), Call.insert (b, vb), Call.insert (c, vc),
        Call.insert (d, vd), Call.insert (e, ve)]).capacity_ = 8 ∧
      (runCalls hasher [Call.insert (a, va), Call.insert (b, vb), Call.insert (c, vc),
        Call.insert (d, vd), Call.insert (e, ve)]).entries.Perm
        [(e, ve), (d, vd), (c, vc), (b, vb), (a, va)] ∧
      Inv (runCalls hasher [Call.insert (a, va), Call.insert (b, vb), Call.insert (c, vc),
        Call.insert (d, vd), Call.insert (e, ve)]) := by
  have hk : (4 : Nat) < kInfinity := by decide
  have hI0 : Inv (construct hasher : HashMap K V) := construct_inv hasher
  have hk0 : (construct hasher : HashMap K V).keys = [] := by
    show List.map Prod.fst (List.replicate 4 ([] : List (K × V))).flatten = []
    rw [flatten_replicate_nil]; rfl
  have hs0 : (construct hasher : HashMap K V).size_ = 0 := rfl
  have hc0 : (construct hasher : HashMap K V).capacity_ = 4 := rfl
  have hf0 : (construct hasher : HashMap K V).need_rebuild_ = false := rfl
  have he0 : (construct hasher : HashMap K V).entries = [] := flatten_replicate_nil 4
  -- one step of the chain
  have step : ∀ (t : HashMap K V) (p : K × V) (l : List (K × V)) (n : Nat), Inv t →
      t.entries.Perm l → p.1 ∉ l.map Prod.fst → t.size_ = n → n < 4 →
      t.capacity_ = 4 → t.need_rebuild_ = false →
      Inv (t.insert p) ∧ (t.insert p).entries.Perm (p :: l) ∧ (t.insert p).size_ = n + 1 ∧
        (t.insert p).capacity_ = 4 ∧ (t.insert p).need_rebuild_ = decide (n + 1 = 4) := by
    intro t p l n hI hp hn hs hlt hc hf
    have hb : t.size_ < kInfinity := by rw [hs]; exact Nat.lt_trans hlt hk
    have hnm : p.1 ∉ t.keys := fun hm => hn ((List.Perm.map Prod.fst hp).subset hm)
    have hR : RebuildIfNeed t = t := RebuildIfNeed_of_false t hf
    refine ⟨insert_inv t hI hb p, ?_, ?_, ?_, ?_⟩
    · exact (insert_entries_of_not_mem t hI.len hI.cap_pos p hnm).trans (List.Perm.cons p hp)
    · rw [insert_size_of_not_mem t hI hb p hnm, hs]
    · rw [insert_capacity, hR, hc]
    · rw [insert_flag_of_not_mem t hI hb p hnm, hR, hs, hc]
  obtain ⟨hI1, hp1, hs1, hc1, hf1⟩ := step (construct hasher) (a, va) [] 0 hI0
    (by rw [he0]) (by simp) hs0 (by omega) hc0 hf0
  obtain ⟨hI2, hp2, hs2, hc2, hf2⟩ := step _ (b, vb) _ 1 hI1 hp1
    (by simp [Ne.symm hab]) hs1 (by omega) hc1 (by rw [hf1]; decide)
  obtain ⟨hI3, hp3, hs3, hc3, hf3⟩ := step _ (c, vc) _ 2 hI2 hp2
    (by simp [Ne.symm hac, Ne.symm hbc]) hs2 (by omega) hc2 (by rw [hf2]; decide)
  obtain ⟨hI4, hp4, hs4, hc4, hf4⟩ := step _ (d, vd) _ 3 hI3 hp3
    (by simp [Ne.symm had, Ne.symm hbd, Ne.symm hcd]) hs3 (by omega) hc3 (by rw [hf3]; decide)
  have hf4' : (((((construct hasher : HashMap K V).insert (a, va)).insert (b, vb)).insert
      (c, vc)).insert (d, vd)).need_rebuild_ = true := by rw [hf4]; decide
  have hb4 : (((((construct hasher : HashMap K V).insert (a, va)).insert (b, vb)).insert
      (c, vc)).insert (d, vd)).size_ < kInfinity := by rw [hs4]; decide
  have hnm : (e, ve).1 ∉ (((((construct hasher : HashMap K V).insert (a, va)).insert
      (b, vb)).insert (c, vc)).insert (d, vd)).keys := by
    intro hm
    have := (List.Perm.map Prod.fst hp4).subset hm
    simp [Ne.symm hae, Ne.symm hbe, Ne.symm hce, Ne.symm hde] at this
  have hrun4 : runCalls hasher [Call.insert (a, va), Call.insert (b, vb), Call.insert (c, vc),
      Call.insert (d, vd)] = ((((construct hasher : HashMap K V).insert (a, va)).insert
      (b, vb)).insert (c, vc)).insert (d, vd) := by
    simp only [runCalls, List.foldl_cons, List.foldl_nil, applyCall]
  have hrun5 : runCalls hasher [Call.insert (a, va), Call.insert (b, vb), Call.insert (c, vc),
      Call.insert (d, vd), Call.insert (e, ve)] = (((((construct hasher : HashMap K V).insert
      (a, va)).insert (b, vb)).insert (c, vc)).insert (d, vd)).insert (e, ve) := by
    simp only [runCalls, List.foldl_cons, List.foldl_nil, applyCall]
  rw [hrun4, hrun5]
  refine ⟨hc4, hs4, hf4', ?_, ?_, ?_⟩
  · rw [insert_capacity, RebuildIfNeed_capacity, if_pos hf4', hc4]
  · exact (insert_entries_of_not_mem _ hI4.len hI4.cap_pos (e, ve) hnm).trans
      (List.Perm.cons _ hp4)
  · exact insert_inv _ hI4 hb4 (e, ve)

variable [DecidableEq K]

theorem mem_five_reverse {α : Type} (x a b c d e : α) (h : x ∈ [a, b, c, d, e]) :
    x ∈ [e, d, c, b, a] := by
  simp only [List.mem_cons, List.mem_singleton, List.not_mem_nil, or_false] at h ⊢
  tauto

/-- C6, amended: for a table reached from the empty table by `insert`, `erase` and
`operator[]` calls, those that can add an entry being made while `size()` is below
`kInfinity` (10^12), with capacity `C`, holding fewer than `kInfinity` entries and with the
threshold tripped (as it is once `size()` has reached `C`): the rehash of `RebuildIfNeed` gives capacity `2C` and keeps
`size()` and the stored pairs; after the next `insert` or `operator[]` the capacity is `2C`
and every pair stored before the call is found by `at` and `find` with its value.  Example:
for every hasher and distinct keys `a, b, c, d, e`, four inserts into the empty table give
capacity 4, size 4 and a tripped threshold, and the fifth insert gives capacity 8 with all
five keys found with their values. -/
theorem C6_growth_preserves_contents [Inhabited V] (hasher : K → Nat) (t : HashMap K V)
    (hr : Reach hasher t) (hf : t.need_rebuild_ = true)
    (hb : t.size_ < kInfinity) :
    ((RebuildIfNeed t).capacity_ = 2 * t.capacity_ ∧ (RebuildIfNeed t).size = t.size ∧
        (RebuildIfNeed t).entries.Perm t.entries) ∧
      (∀ pair : K × V, (t.insert pair).capacity_ = 2 * t.capacity_ ∧
        ∀ k v, (k, v) ∈ t.entries →
          ((t.insert pair).at_ k).1 = Except.ok v ∧
          ((t.insert pair).find k).eq (t.insert pair).end_ = false ∧
          (t.insert pair).deref ((t.insert pair).find k) = some (k, v)) ∧
      (∀ key : K, (t.index key).1.capacity_ = 2 * t.capacity_ ∧
        ∀ k v, (k, v) ∈ t.entries →
          ((t.index key).1.at_ k).1 = Except.ok v ∧
          ((t.index key).1.find k).eq (t.index key).1.end_ = false ∧
          (t.index key).1.deref ((t.index key).1.find k) = some (k, v)) ∧
      (∀ (a b c d e : K) (va vb vc vd ve : V), a ≠ b → a ≠ c → a ≠ d → a ≠ e → b ≠ c →
        b ≠ d → b ≠ e → c ≠ d → c ≠ e → d ≠ e →
        (runCalls hasher [Call.insert (a, va), Call.insert (b, vb), Call.insert (c, vc),
            Call.insert (d, vd)]).capacity_ = 4 ∧
          (runCalls hasher [Call.insert (a, va), Call.insert (b, vb), Call.insert (c, vc),
            Call.insert (d, vd)]).size = 4 ∧
          (runCalls hasher [Call.insert (a, va), Call.insert (b, vb), Call.insert (c, vc),
            Call.insert (d, vd)]).need_rebuild_ = true ∧
          (runCalls hasher [Call.insert (a, va), Call.insert (b, vb), Call.insert (c, vc),
            Call.insert (d, vd), Call.insert (e, ve)]).capacity_ = 8 ∧
          ∀ p ∈ [(a, va), (b, vb), (c, vc), (d, vd), (e, ve)],
            ((runCalls hasher [Call.insert (a, va), Call.insert (b, vb), Call.insert (c, vc),
              Call.insert (d, vd), Call.insert (e, ve)]).at_ p.1).1 = Except.ok p.2 ∧
            (runCalls hasher [Call.insert (a, va), Call.insert (b, vb), Call.insert (c, vc),
              Call.insert (d, vd), Call.insert (e, ve)]).deref
              ((runCalls hasher [Call.insert (a, va), Call.insert (b, vb), Call.insert (c, vc),
                Call.insert (d, vd), Call.insert (e, ve)]).find p.1) = some p) := by
  have hI := reach_inv hasher t hr
  have hcap : ∀ pair : K × V, (t.insert pair).capacity_ = 2 * t.capacity_ := by
    intro pair
    rw [insert_capacity, RebuildIfNeed_capacity, if_pos hf]
    omega
  refine ⟨⟨?_, RebuildIfNeed_size t, RebuildIfNeed_entries t hI.len hI.cap_pos⟩, ?_, ?_, ?_⟩
  · rw [RebuildIfNeed_capacity, if_pos hf]; omega
  · exact fun pair => ⟨hcap pair, fun k v h => insert_keeps t hI hb pair k v h⟩
  · intro key
    rw [index_fst]
    exact ⟨hcap _, fun k v h => insert_keeps t hI hb _ k v h⟩
  · intro a b c d e va vb vc vd ve hab hac had hae hbc hbd hbe hcd hce hde
    obtain ⟨h1, h2, h3, h4, h5, h6⟩ :=
      five_inserts hasher a b c d e va vb vc vd ve hab hac had hae hbc hbd hbe hcd hce hde
    refine ⟨h1, h2, h3, h4, ?_⟩
    rintro ⟨k, v⟩ hp
    have hp2 := mem_five_reverse _ _ _ _ _ _ hp
    have hm := (List.Perm.mem_iff h5).mpr hp2
    have hat := at_ok_of_mem _ h6 k v hm
    exact ⟨hat, deref_find_of_ok _ k v hat⟩

theorem C6_growth_preserves_contents_witness :
    ((((((construct (fun k : Nat => k) : HashMap Nat Nat).insert (1, 1)).insert (2, 2)).insert
        (3, 3)).insert (4, 4)).size_ =
        (((((construct (fun k : Nat => k) : HashMap Nat Nat).insert (1, 1)).insert (2, 2)).insert
          (3, 3)).insert (4, 4)).capacity_) ∧
      ((((((construct (fun k : Nat => k) : HashMap Nat Nat).insert (1, 1)).insert (2, 2)).insert
        (3, 3)).insert (4, 4)).insert (5, 5)).capacity_ = 2 * 4 :=
  ⟨by decide,
    ((C6_growth_preserves_contents (fun k : Nat => k)
      (((((construct (fun k : Nat => k) : HashMap Nat Nat).insert (1, 1)).insert (2, 2)).insert
        (3, 3)).insert (4, 4))
      (Reach.insert _ _ (Reach.insert _ _ (Reach.insert _ _ (Reach.insert _ _ Reach.empty
        (by decide)) (by decide)) (by decide)) (by decide))
      (by decide) (by decide)).2.1 (5, 5)).1⟩

variable [DecidableEq K]

theorem index_of_mem [Inhabited V] (t : HashMap K V) (hI : Inv t) (key : K)
    (h : key ∈ t.keys) :
    ∃ p ∈ primes_, t.index key =
        (RebuildIfNeed t, Find (RebuildIfNeed t) key
          (GetHash (RebuildIfNeed t) key (RebuildIfNeed t).capacity_ p)) ∧
      Find (RebuildIfNeed t) key (GetHash (RebuildIfNeed t) key (RebuildIfNeed t).capacity_ p) ≠
        listEnd (RebuildIfNeed t).bucket_
          (GetHash (RebuildIfNeed t) key (RebuildIfNeed t).capacity_ p) := by
  have hI1 := RebuildIfNeed_inv t hI
  have hperm := RebuildIfNeed_entries t hI.len hI.cap_pos
  have h1 : key ∈ (RebuildIfNeed t).keys :=
    (keys_perm_of_entries_perm _ _ hperm).symm.subset h
  obtain ⟨p, hp, h2, h3⟩ := insertLoop_hit (RebuildIfNeed t) key primes_ 0 kInfinity
    (exists_probe_of_mem_keys _ hI1 key h1)
  refine ⟨p, hp, ?_, h3⟩
  simp only [HashMap.index, h2]

theorem index_snd_of_not_mem [Inhabited V] (t : HashMap K V)
    (hl : t.bucket_.length = t.capacity_) (hc : 0 < t.capacity_) (key : K)
    (h : key ∉ t.keys) :
    (t.index key).2 = ((rebuildLoop (RebuildIfNeed t) (RebuildIfNeed t).bucket_ key
      (RebuildIfNeed t).capacity_ primes_ 0 kInfinity).1, 0) := by
  have hperm := RebuildIfNeed_entries t hl hc
  have h1 : key ∉ (RebuildIfNeed t).keys :=
    fun hm => h ((keys_perm_of_entries_perm _ _ hperm).subset hm)
  have h2 := insertLoop_miss (RebuildIfNeed t) key primes_ 0 kInfinity
    (fun p _ => not_mem_bucket_of_not_mem_keys _ _ h1 _)
  rcases hr : rebuildLoop (RebuildIfNeed t) (RebuildIfNeed t).bucket_ key
    (RebuildIfNeed t).capacity_ primes_ 0 kInfinity with ⟨mh, ms⟩
  rw [hr] at h2
  simp only [HashMap.index, h2]

theorem insert_bucket_of_not_mem (t : HashMap K V) (hl : t.bucket_.length = t.capacity_)
    (hc : 0 < t.capacity_) (pair : K × V) (h : pair.1 ∉ t.keys) :
    (t.insert pair).bucket_ = pushFront (RebuildIfNeed t).bucket_
      (rebuildLoop (RebuildIfNeed t) (RebuildIfNeed t).bucket_ pair.1
        (RebuildIfNeed t).capacity_ primes_ 0 kInfinity).1 pair := by
  rw [insert_of_not_mem t hl hc pair h]

theorem RebuildIfNeed_len (t : HashMap K V) (hl : t.bucket_.length = t.capacity_) :
    (RebuildIfNeed t).bucket_.length = (RebuildIfNeed t).capacity_ := by
  cases hf : t.need_rebuild_ with
  | false => rw [RebuildIfNeed_of_false t hf]; exact hl
  | true => rw [RebuildIfNeed_of_true t hf hl]; simp [length_foldl_rebuildEntry]

theorem RebuildIfNeed_cap_pos (t : HashMap K V) (hc : 0 < t.capacity_) :
    0 < (RebuildIfNeed t).capacity_ := by
  rw [RebuildIfNeed_capacity]; split <;> omega

/-- C8, amended: for a table reached from the empty table by `insert`, `erase` and
`operator[]` calls, those that can add an entry being made while `size()` is below
`kInfinity` (10^12), and a key `k`: when `k` is stored, `operator[](k)` returns a reference
to the value of the entry of `k`, that value being the one `at(k)` gave before the call,
and leaves `size()` and the result of `at` for every key unchanged; when `k` is not stored
and `size()` is below `kInfinity`, it adds exactly the entry `(k, default)`, increases
`size()` by one, leaves the result of `at` for every other key unchanged, and the
reference it returns is to the value of the new entry. -/
theorem C8_indexed_access [Inhabited V] (hasher : K → Nat) (t : HashMap K V)
    (hr : Reach hasher t) (k : K) :
    (k ∈ t.keys →
        (∃ v, (t.at_ k).1 = Except.ok v ∧ (t.index k).1.entryAt (t.index k).2 = some (k, v)) ∧
        (t.index k).1.size = t.size ∧
        ∀ k1, ((t.index k).1.at_ k1).1 = (t.at_ k1).1) ∧
      (k ∉ t.keys → t.size_ < kInfinity →
        (t.index k).1.entries.Perm ((k, default) :: t.entries) ∧
        (t.index k).1.size = t.size + 1 ∧
        ((t.index k).1.at_ k).1 = Except.ok default ∧
        (∀ k1, k1 ≠ k → ((t.index k).1.at_ k1).1 = (t.at_ k1).1) ∧
        (t.index k).1.entryAt (t.index k).2 = some (k, default)) := by
  have hI := reach_inv hasher t hr
  have hI1 := RebuildIfNeed_inv t hI
  have hperm := RebuildIfNeed_entries t hI.len hI.cap_pos
  constructor
  · intro hk
    obtain ⟨p, _, heq, hne⟩ := index_of_mem t hI k hk
    obtain ⟨e, he, hek⟩ := (Find_ne_end_iff _ _ _).mp hne
    have hg : (bucketAt (RebuildIfNeed t).bucket_
        (GetHash (RebuildIfNeed t) k (RebuildIfNeed t).capacity_ p)).get?
        (Find (RebuildIfNeed t) k
          (GetHash (RebuildIfNeed t) k (RebuildIfNeed t).capacity_ p)).2 =
        (bucketAt (RebuildIfNeed t).bucket_
          (GetHash (RebuildIfNeed t) k (RebuildIfNeed t).capacity_ p)).find?
          (fun e => decide (e.1 = k)) := get?_findIdx _ _
    have hs : ((bucketAt (RebuildIfNeed t).bucket_
        (GetHash (RebuildIfNeed t) k (RebuildIfNeed t).capacity_ p)).find?
        (fun e => decide (e.1 = k))).isSome := by
      rw [List.find?_isSome]
      exact ⟨e, he, by simpa using hek⟩
    obtain ⟨x, hx⟩ := Option.isSome_iff_exists.mp hs
    have hx1 : x.1 = k := by simpa using List.find?_some hx
    have hx2 : (k, x.2) ∈ t.entries := by
      apply hperm.mem_iff.mp
      have := mem_flatten_of_mem_bucketAt _ _ _ (List.mem_of_find?_eq_some hx)
      rw [← hx1]
      exact this
    refine ⟨⟨x.2, at_ok_of_mem t hI k x.2 hx2, ?_⟩, ?_, ?_⟩
    · rw [heq]
      have h5 : (bucketAt (RebuildIfNeed t).bucket_
          (GetHash (RebuildIfNeed t) k (RebuildIfNeed t).capacity_ p)).get?
          (Find (RebuildIfNeed t) k
            (GetHash (RebuildIfNeed t) k (RebuildIfNeed t).capacity_ p)).2 = some (k, x.2) := by
        rw [hg, hx, ← hx1]
      exact h5
    · rw [heq]; exact RebuildIfNeed_size t
    · intro k1
      rw [heq]
      exact at_congr t _ hI hI1 (fun e => hperm.mem_iff) k1
  · intro hk hb
    have hI2 : Inv (t.insert (k, default)) := insert_inv t hI hb _
    have hp2 := insert_entries_of_not_mem t hI.len hI.cap_pos (k, (default : V)) hk
    have hmem : (k, (default : V)) ∈ (t.insert (k, default)).entries :=
      hp2.mem_iff.mpr (List.mem_cons_self _ _)
    refine ⟨?_, ?_, ?_, ?_, ?_⟩
    · rw [index_fst]; exact hp2
    · rw [index_fst]; exact insert_size_of_not_mem t hI hb _ hk
    · rw [index_fst]; exact at_ok_of_mem _ hI2 k default hmem
    · intro k1 hk1
      rw [index_fst]
      cases hr : (t.at_ k1).1 with
      | error err =>
        cases err
        rw [at_error_iff t hI] at hr
        rw [at_error_iff _ hI2, mem_keys_iff]
        rintro ⟨v, hv⟩
        rcases List.mem_cons.mp (hp2.mem_iff.mp hv) with h | h
        · exact hk1 (Prod.mk.inj h).1
        · exact hr ((mem_keys_iff _ _).mpr ⟨v, h⟩)
      | ok v =>
        rw [at_ok_iff t hI] at hr
        rw [at_ok_iff _ hI2]
        exact hp2.mem_iff.mpr (List.mem_cons_of_mem _ hr)
    · rw [index_snd_of_not_mem t hI.len hI.cap_pos k hk]
      unfold HashMap.entryAt
      rw [index_fst, insert_bucket_of_not_mem t hI.len hI.cap_pos _ hk]
      have hlt := rebuildLoop_lt (RebuildIfNeed t) (RebuildIfNeed t).bucket_ k
        (RebuildIfNeed t).capacity_ hI1.cap_pos
      rw [bucketAt_pushFront _ _ _ _ (by rw [hI1.len]; exact hlt), if_pos rfl]
      rfl

theorem C8_indexed_access_witness :
    ((((construct (fun k : Nat => k) : HashMap Nat Nat).insert (3, 1)).index 7).1.at_ 7).1 =
      Except.ok 0 :=
  ((C8_indexed_access (fun k : Nat => k)
    ((construct (fun k : Nat => k) : HashMap Nat Nat).insert (3, 1))
    (Reach.insert _ _ Reach.empty (by decide)) 7).2 (by decide) (by decide)).2.2.1

variable [DecidableEq K]

theorem set_bucketAt_self (bs : List (List (K × V))) (i : Nat) :
    bs.set i (bucketAt bs i) = bs := by
  induction bs generalizing i with
  | nil => rfl
  | cons a bs ih =>
    cases i with
    | zero => rfl
    | succ i =>
      have : bucketAt (a :: bs) (i + 1) = bucketAt bs i := by simp [bucketAt]
      rw [this, List.set_cons_succ, ih]

theorem foldl_pushFront (es : List (K × V)) (bs : List (List (K × V))) (i : Nat)
    (hi : i < bs.length) :
    es.foldl (fun bs1 e => pushFront bs1 i e) bs = bs.set i (es.reverse ++ bucketAt bs i) := by
  induction es generalizing bs with
  | nil =>
    simp only [List.foldl_nil, List.reverse_nil, List.nil_append]
    rw [set_bucketAt_self]
  | cons e es ih =>
    rw [List.foldl_cons, ih _ (by rw [length_pushFront]; exact hi),
      bucketAt_pushFront _ _ _ _ hi, if_pos rfl, pushFront, List.set_set]
    simp

/-- The copy loop of `CopyHashMap` over the first `n` buckets. -/
theorem copyLoop_spec (src : List (List (K × V))) (c n : Nat) (hn : n ≤ c) :
    ((List.range n).foldl
        (fun bs i => (bucketAt src i).foldl (fun bs1 e => pushFront bs1 i e) bs)
        (List.replicate c [])).length = c ∧
      ∀ j, bucketAt ((List.range n).foldl
        (fun bs i => (bucketAt src i).foldl (fun bs1 e => pushFront bs1 i e) bs)
        (List.replicate c [])) j = if j < n then (bucketAt src j).reverse else [] := by
  induction n with
  | zero =>
    refine ⟨by simp, fun j => ?_⟩
    simp only [List.range_zero, List.foldl_nil]
    rw [bucketAt_replicate, if_neg (by omega)]
  | succ n ih =>
    obtain ⟨h1, h2⟩ := ih (by omega)
    have hlen : n < ((List.range n).foldl
        (fun bs i => (bucketAt src i).foldl (fun bs1 e => pushFront bs1 i e) bs)
        (List.replicate c [])).length := by rw [h1]; omega
    rw [List.range_succ, List.foldl_append]
    simp only [List.foldl_cons, List.foldl_nil]
    rw [foldl_pushFront _ _ _ hlen]
    refine ⟨by rw [List.length_set, h1], fun j => ?_⟩
    rw [bucketAt_set _ n j _ hlen, h2 n, if_neg (Nat.lt_irrefl n), List.append_nil]
    by_cases hj : j = n
    · rw [if_pos hj, if_pos (by omega), hj]
    · rw [if_neg hj, h2 j]
      by_cases hj2 : j < n
      · rw [if_pos hj2, if_pos (by omega)]
      · rw [if_neg hj2, if_neg (by omega)]

theorem find?_reverse_of_nodup (l : List (K × V)) (key : K)
    (h : (l.map Prod.fst).Nodup) :
    l.reverse.find? (fun e => decide (e.1 = key)) = l.find? (fun e => decide (e.1 = key)) := by
  cases hf : l.find? (fun e => decide (e.1 = key)) with
  | none =>
    rw [List.find?_eq_none] at hf ⊢
    intro x hx
    exact hf x (List.mem_reverse.mp hx)
  | some e =>
    have he1 : e.1 = key := by simpa using List.find?_some hf
    have he2 := List.mem_of_find?_eq_some hf
    cases hr : l.reverse.find? (fun e => decide (e.1 = key)) with
    | none =>
      rw [List.find?_eq_none] at hr
      exact absurd (by simpa using he1) (hr e (List.mem_reverse.mpr he2))
    | some x =>
      have hx1 : x.1 = key := by simpa using List.find?_some hr
      have hx2 := List.mem_reverse.mp (List.mem_of_find?_eq_some hr)
      rw [List.inj_on_of_nodup_map h hx2 he2 (by rw [hx1, he1])]

/-- The result of the loop of `at` in terms of the first entry with the key in each probed
bucket. -/
theorem atLoop_cons_fst (t : HashMap K V) (key : K) (p : Nat) (ps : List Nat) :
    (atLoop t key (p :: ps)).1 =
      match (bucketAt t.bucket_ (GetHash t key t.capacity_ p)).find?
          (fun e => decide (e.1 = key)) with
      | some e => Except.ok e.2
      | none => (atLoop t key ps).1 := by
  have hg : (bucketAt t.bucket_ (GetHash t key t.capacity_ p)).get?
      (Find t key (GetHash t key t.capacity_ p)).2 =
      (bucketAt t.bucket_ (GetHash t key t.capacity_ p)).find? (fun e => decide (e.1 = key)) :=
    get?_findIdx _ _
  simp only [atLoop]
  split
  · rename_i hne
    rw [hg]
    obtain ⟨e, he, hek⟩ := (Find_ne_end_iff _ _ _).mp hne
    have hs : ((bucketAt t.bucket_ (GetHash t key t.capacity_ p)).find?
        (fun e => decide (e.1 = key))).isSome := by
      rw [List.find?_isSome]
      exact ⟨e, he, by simpa using hek⟩
    obtain ⟨x, hx⟩ := Option.isSome_iff_exists.mp hs
    rw [hx]
  · rename_i hne
    rw [ne_eq, not_not, Find_eq_end_iff] at hne
    have : (bucketAt t.bucket_ (GetHash t key t.capacity_ p)).find?
        (fun e => decide (e.1 = key)) = none := by
      rw [List.find?_eq_none]
      intro x hx
      simpa using hne x hx
    rw [this]

theorem nodup_bucketAt (t : HashMap K V) (hu : t.keys.Nodup) (i : Nat) :
    ((bucketAt t.bucket_ i).map Prod.fst).Nodup := by
  by_cases hi : i < t.bucket_.length
  · obtain ⟨rest, h1, _⟩ := flatten_set_perm t.bucket_ i hi
    have := (List.Perm.map Prod.fst h1).nodup_iff.mp hu
    rw [List.map_append] at this
    exact (List.nodup_append.mp this).1
  · rw [bucketAt_eq_nil_of_le _ _ (by omega)]
    exact List.nodup_nil

/-- Two tables with the same hasher and capacity whose buckets are the reverses of one
another give the same results of `at`, when no key is stored twice. -/
theorem atLoop_reverse (t c : HashMap K V) (hh : c.hasher_ = t.hasher_)
    (hc : c.capacity_ = t.capacity_)
    (hb : ∀ j, bucketAt c.bucket_ j = (bucketAt t.bucket_ j).reverse) (hu : t.keys.Nodup)
    (key : K) (ps : List Nat) : (atLoop c key ps).1 = (atLoop t key ps).1 := by
  induction ps with
  | nil => rfl
  | cons p ps ih =>
    rw [atLoop_cons_fst, atLoop_cons_fst, hc, GetHash_congr t c hh, hb,
      find?_reverse_of_nodup _ key (nodup_bucketAt t hu _), ih]

theorem deref_end (t : HashMap K V) : t.deref t.end_ = none := by
  simp [HashMap.deref, HashMap.end_, listEnd]

theorem deref_find_eq_of_at_eq (t c : HashMap K V) (key : K)
    (h : (c.at_ key).1 = (t.at_ key).1) :
    (c.find key).eq c.end_ = (t.find key).eq t.end_ ∧
      c.deref (c.find key) = t.deref (t.find key) := by
  cases hr : (t.at_ key).1 with
  | error err =>
    cases err
    rw [hr] at h
    have h1 : t.find key = t.end_ := findLoop_of_error t key primes_ hr
    have h2 : c.find key = c.end_ := findLoop_of_error c key primes_ h
    rw [h1, h2, deref_end, deref_end]
    simp [iterator.eq]
  | ok v =>
    rw [hr] at h
    obtain ⟨h1, h2⟩ := findLoop_of_ok t key primes_ v hr
    obtain ⟨h3, h4⟩ := findLoop_of_ok c key primes_ v h
    exact ⟨by unfold HashMap.find; rw [h2, h4], by unfold HashMap.find; rw [h1, h3]⟩

theorem CopyHashMap_spec (self t : HashMap K V) (hl : t.bucket_.length = t.capacity_) :
    (CopyHashMap self t).capacity_ = t.capacity_ ∧ (CopyHashMap self t).hasher_ = t.hasher_ ∧
      (CopyHashMap self t).size_ = 0 ∧ (CopyHashMap self t).need_rebuild_ = false ∧
      (CopyHashMap self t).bucket_.length = t.capacity_ ∧
      ∀ j, bucketAt (CopyHashMap self t).bucket_ j = (bucketAt t.bucket_ j).reverse := by
  obtain ⟨h1, h2⟩ := copyLoop_spec t.bucket_ t.capacity_ t.capacity_ (Nat.le_refl _)
  refine ⟨rfl, rfl, rfl, rfl, h1, fun j => ?_⟩
  have : bucketAt (CopyHashMap self t).bucket_ j =
      if j < t.capacity_ then (bucketAt t.bucket_ j).reverse else [] := h2 j
  rw [this]
  split
  · rfl
  · rw [bucketAt_eq_nil_of_le _ _ (by omega)]; rfl

variable [DecidableEq K]

theorem mem_entries_iff_bucketAt (t : HashMap K V) (e : K × V) :
    e ∈ t.entries ↔ ∃ i, e ∈ bucketAt t.bucket_ i :=
  ⟨fun h => (exists_bucketAt_of_mem_flatten _ _ h).imp (fun _ hi => hi.2),
    fun ⟨i, hi⟩ => mem_flatten_of_mem_bucketAt _ i e hi⟩

theorem CopyHashMap_agrees (self t : HashMap K V) (hl : t.bucket_.length = t.capacity_)
    (hu : t.keys.Nodup) (k : K) :
    (CopyHashMap self t).capacity_ = t.capacity_ ∧ (CopyHashMap self t).hasher_ = t.hasher_ ∧
      (∀ e, e ∈ (CopyHashMap self t).entries ↔ e ∈ t.entries) ∧
      ((CopyHashMap self t).at_ k).1 = (t.at_ k).1 ∧
      ((CopyHashMap self t).find k).eq (CopyHashMap self t).end_ = (t.find k).eq t.end_ ∧
      (CopyHashMap self t).deref ((CopyHashMap self t).find k) = t.deref (t.find k) := by
  obtain ⟨h1, h2, _, _, _, h6⟩ := CopyHashMap_spec self t hl
  have hat : ((CopyHashMap self t).at_ k).1 = (t.at_ k).1 :=
    atLoop_reverse t _ h2 h1 h6 hu k primes_
  refine ⟨h1, h2, fun e => ?_, hat, deref_find_eq_of_at_eq t _ k hat⟩
  rw [mem_entries_iff_bucketAt, mem_entries_iff_bucketAt]
  constructor
  · rintro ⟨i, hi⟩
    rw [h6] at hi
    exact ⟨i, List.mem_reverse.mp hi⟩
  · rintro ⟨i, hi⟩
    exact ⟨i, by rw [h6]; exact List.mem_reverse.mpr hi⟩

/-- C10, amended: for every table `t` with one list per bucket index in which no key is
stored twice, and every key `k`: the table produced from `t` by the copy constructor or by
the copy assignment (to another object, or to `t` itself) has the capacity and the hasher
of `t`, stores the same pairs, and `at(k)` and `find(k)` on it succeed exactly when they do
on `t`, with the same value and the same entry. -/
theorem C10_copy_same_contents (self t : HashMap K V) (default_hasher : K → Nat)
    (hl : t.bucket_.length = t.capacity_) (hu : t.keys.Nodup) (c : HashMap K V)
    (hc : c = copyConstruct default_hasher t ∨ c = self.assign t false ∨ c = t.assign t true)
    (k : K) :
    c.capacity_ = t.capacity_ ∧ c.hasher_ = t.hasher_ ∧
      (∀ e, e ∈ c.entries ↔ e ∈ t.entries) ∧
      (c.at_ k).1 = (t.at_ k).1 ∧
      (c.find k).eq c.end_ = (t.find k).eq t.end_ ∧
      c.deref (c.find k) = t.deref (t.find k) := by
  rcases hc with rfl | rfl | rfl
  · exact CopyHashMap_agrees _ t hl hu k
  · exact CopyHashMap_agrees self t hl hu k
  · exact ⟨rfl, rfl, fun _ => Iff.rfl, rfl, rfl, rfl⟩

theorem C10_copy_same_contents_witness :
    ((copyConstruct (fun _ : Nat => 0)
        (((construct (fun k : Nat => k) : HashMap Nat Nat).insert (1, 10)).insert (5, 50))).at_
        5).1 =
      ((((construct (fun k : Nat => k) : HashMap Nat Nat).insert (1, 10)).insert (5, 50)).at_
        5).1 :=
  (C10_copy_same_contents (construct (fun k : Nat => k))
    (((construct (fun k : Nat => k) : HashMap Nat Nat).insert (1, 10)).insert (5, 50))
    (fun _ : Nat => 0) (by decide) (by decide) _ (Or.inl rfl) 5).2.2.2.1

variable [DecidableEq K]

theorem flatten_drop (bs : List (List (K × V))) (s : Nat) (hs : s < bs.length) :
    (bs.drop s).flatten = bucketAt bs s ++ (bs.drop (s + 1)).flatten := by
  rw [List.drop_eq_getElem_cons hs, List.flatten_cons, bucketAt, List.getD_eq_getElem _ _ hs]

theorem flatten_drop_of_le (bs : List (List (K × V))) (s : Nat) (hs : bs.length ≤ s) :
    (bs.drop s).flatten = [] := by
  rw [List.drop_eq_nil_of_le hs]; rfl

theorem skipEmpty_spec (t : HashMap K V) (fuel s : Nat) (h : t.bucket_.length ≤ s + fuel) :
    s ≤ skipEmpty t t.bucket_.length fuel s ∧
      (skipEmpty t t.bucket_.length fuel s < t.bucket_.length →
        bucketAt t.bucket_ (skipEmpty t t.bucket_.length fuel s) ≠ []) ∧
      (t.bucket_.drop s).flatten =
        (t.bucket_.drop (skipEmpty t t.bucket_.length fuel s)).flatten := by
  induction fuel generalizing s with
  | zero =>
    exact ⟨Nat.le_refl _, fun hlt => by simp only [skipEmpty] at hlt; omega, rfl⟩
  | succ fuel ih =>
    simp only [skipEmpty]
    split
    · rename_i hc
      obtain ⟨h1, h2, h3⟩ := ih (s + 1) (by omega)
      refine ⟨by omega, h2, ?_⟩
      rw [← h3, flatten_drop _ _ hc.1]
      have : bucketAt t.bucket_ s = [] := by simpa using hc.2
      rw [this, List.nil_append]
    · rename_i hc
      refine ⟨Nat.le_refl _, fun hlt he => hc ⟨hlt, by rw [he]; rfl⟩, rfl⟩

theorem traverseFrom_end (t : HashMap K V) (fuel i c : Nat) :
    traverseFrom t (fuel + 1)
      { it_i_ := i, it_capacity_ := c, it_ := listEnd t.bucket_ (t.capacity_ - 1) } = some [] := by
  simp [traverseFrom, iterator.eq, HashMap.end_]

/-- The traversal from a valid position visits the rest of its bucket and then the
buckets that follow. -/
theorem traverseFrom_pos (t : HashMap K V) (hl : t.bucket_.length = t.capacity_)
    (fuel i j : Nat) (hi : i < t.bucket_.length) (hj : j < (bucketAt t.bucket_ i).length)
    (hf : ((bucketAt t.bucket_ i).drop j ++ (t.bucket_.drop (i + 1)).flatten).length < fuel) :
    traverseFrom t fuel { it_i_ := i, it_capacity_ := t.bucket_.length, it_ := (i, j) } =
      some ((bucketAt t.bucket_ i).drop j ++ (t.bucket_.drop (i + 1)).flatten) := by
  induction fuel generalizing i j with
  | zero => omega
  | succ fuel ih =>
    have hne : ((i, j) : ListIt) ≠ listEnd t.bucket_ (t.capacity_ - 1) := by
      intro hc
      simp only [listEnd, Prod.mk.injEq] at hc
      rw [← hc.1] at hc
      omega
    have hd : (bucketAt t.bucket_ i).drop j =
        (bucketAt t.bucket_ i)[j] :: (bucketAt t.bucket_ i).drop (j + 1) :=
      List.drop_eq_getElem_cons hj
    have hg : (bucketAt t.bucket_ i).get? j = some (bucketAt t.bucket_ i)[j] := by
      simp [List.getElem?_eq_getElem hj]
    have hne2 : ((i, j) : ListIt) ≠ listEnd t.bucket_ i := by
      intro hc
      simp only [listEnd, Prod.mk.injEq] at hc
      omega
    rw [hd] at hf ⊢
    simp only [List.cons_append, List.length_cons] at hf
    simp only [traverseFrom, iterator.eq, HashMap.end_, HashMap.deref, decide_eq_true_eq, hne,
      if_false, hg]
    simp only [GetNext, ne_eq, hne2, not_false_eq_true, if_true]
    by_cases hlast : j + 1 = (bucketAt t.bucket_ i).length
    · have h1 : ((i, j + 1) : ListIt) = listEnd t.bucket_ i := by
        simp [listEnd, hlast]
      rw [if_pos h1]
      obtain ⟨s1, s2, s3⟩ := skipEmpty_spec t (t.bucket_.length - i) (i + 1) (by omega)
      have hnil : (bucketAt t.bucket_ i).drop (j + 1) = [] := by
        rw [List.drop_eq_nil_iff]; omega
      rw [hnil] at hf ⊢
      simp only [List.nil_append, List.cons_append] at hf ⊢
      split
      · rename_i hlt
        have hpos : 0 < (bucketAt t.bucket_
            (skipEmpty t t.bucket_.length (t.bucket_.length - i) (i + 1))).length :=
          List.length_pos.mpr (s2 hlt)
        have := ih _ 0 hlt hpos (by
          rw [List.drop_zero, ← flatten_drop _ _ hlt, ← s3]; omega)
        rw [this, List.drop_zero, ← flatten_drop _ _ hlt, ← s3]
        rfl
      · rename_i hge
        rw [s3, flatten_drop_of_le _ _ (by omega)] at hf ⊢
        cases fuel with
        | zero => simp at hf
        | succ fuel =>
          have := traverseFrom_end t fuel
            (skipEmpty t t.bucket_.length (t.bucket_.length - i) (i + 1)) t.bucket_.length
          rw [hl] at this ⊢
          rw [this]
          rfl
    · have h1 : ((i, j + 1) : ListIt) ≠ listEnd t.bucket_ i := by
        intro hc
        simp only [listEnd, Prod.mk.injEq] at hc
        omega
      rw [if_neg h1]
      have := ih i (j + 1) hi (by omega) (by simpa using hf)
      rw [this]
      rfl

theorem traverseFrom_beginLoop (t : HashMap K V) (hl : t.bucket_.length = t.capacity_)
    (fuel n s : Nat) (hs : s + n = t.bucket_.length)
    (hf : (t.bucket_.drop s).flatten.length < fuel) :
    traverseFrom t fuel (beginLoop t (List.range' s n)) = some (t.bucket_.drop s).flatten := by
  induction n generalizing s with
  | zero =>
    rw [flatten_drop_of_le _ _ (by omega)] at hf ⊢
    simp only [List.range'_zero, beginLoop]
    cases fuel with
    | zero => simp at hf
    | succ fuel => simp [traverseFrom, iterator.eq]
  | succ n ih =>
    rw [List.range'_succ]
    simp only [beginLoop]
    have hlt : s < t.bucket_.length := by omega
    rw [flatten_drop _ _ hlt] at hf ⊢
    split
    · rename_i hne
      have hpos : 0 < (bucketAt t.bucket_ s).length := by
        apply List.length_pos.mpr
        intro he
        rw [he] at hne
        simp at hne
      have := traverseFrom_pos t hl fuel s 0 hlt hpos (by simpa using hf)
      rw [this, List.drop_zero]
    · rename_i he
      have hnil : bucketAt t.bucket_ s = [] := by simpa using he
      rw [hnil, List.nil_append] at hf ⊢
      exact ih (s + 1) (by omega) hf

/-- The traversal from `begin()` to `end()` visits the entries bucket after bucket. -/
theorem traverse_eq (t : HashMap K V) (hl : t.bucket_.length = t.capacity_)
    (fuel : Nat) (hf : t.entries.length < fuel) :
    t.traverse fuel = some t.entries := by
  unfold HashMap.traverse HashMap.begin
  rw [List.range_eq_range']
  have := traverseFrom_beginLoop t hl fuel t.capacity_ 0 (by omega)
    (by rw [List.drop_zero]; exact hf)
  rw [this, List.drop_zero]
  rfl

/-- C7, amended: for a table reached from the empty table by `insert`, `erase` and
`operator[]` calls, those that can add an entry being made while `size()` is below
`kInfinity` (10^12): the loop from `begin()` to `end()` meets `end()` (within any number of
steps above `size()`), the sequence it visits is the content of the buckets, bucket after
bucket, it has `size()` entries and its keys are pairwise distinct. -/
theorem C7_iteration_complete [Inhabited V] (hasher : K → Nat) (t : HashMap K V)
    (hr : Reach hasher t) (fuel : Nat) (hf : t.size < fuel) :
    t.traverse fuel = some t.entries ∧ t.entries.length = t.size ∧
      (t.entries.map Prod.fst).Nodup := by
  have hI := reach_inv hasher t hr
  exact ⟨traverse_eq t hI.len fuel (by rw [← hI.size_eq]; exact hf), hI.size_eq.symm, hI.nodup⟩

theorem C7_iteration_complete_witness :
    (((construct (fun k : Nat => k) : HashMap Nat Nat).insert (3, 1)).insert (6, 2)).traverse 3 =
      some (((construct (fun k : Nat => k) : HashMap Nat Nat).insert (3, 1)).insert
        (6, 2)).entries :=
  (C7_iteration_complete (fun k : Nat => k)
    (((construct (fun k : Nat => k) : HashMap Nat Nat).insert (3, 1)).insert (6, 2))
    (Reach.insert _ _ (Reach.insert _ _ Reach.empty (by decide)) (by decide)) 3
    (by decide)).1

theorem GetHash_one (t : HashMap Nat Nat) (ht : t.hasher_ = oneHasher) (key c p : Nat)
    (hp : p < 8) (hc : 8 ≤ c) : GetHash t key c p = p := by
  unfold GetHash
  rw [ht]
  show 1 * p % wordSize % c = p
  have hw : p < wordSize := by
    have := kInfinity_lt_wordSize
    unfold kInfinity at this
    omega
  rw [Nat.one_mul, Nat.mod_eq_of_lt hw, Nat.mod_eq_of_lt (by omega)]

/-- The bucket selected for a key whose candidate buckets are 1, 2, 3 and 5 after `m`
placements. -/
theorem rebuildLoop_one (t : HashMap Nat Nat) (ht : t.hasher_ = oneHasher)
    (bs : List (List (Nat × Nat))) (c m key : Nat) (hc : 8 ≤ c) (hb : RoundRobin bs m) :
    (rebuildLoop t bs key c primes_ 0 kInfinity).1 =
      if 4 * kInfinity ≤ m then 0
      else if m % 4 = 0 then 1 else if m % 4 = 1 then 2 else if m % 4 = 2 then 3 else 5 := by
  obtain ⟨h1, h2, h3, h5, _⟩ := hb
  simp only [rebuildLoop, primes_, GetHash_one t ht key c 1 (by omega) hc,
    GetHash_one t ht key c 2 (by omega) hc, GetHash_one t ht key c 3 (by omega) hc,
    GetHash_one t ht key c 5 (by omega) hc, h1, h2, h3, h5]
  generalize kInfinity = kInf at *
  split_ifs <;> first | rfl | omega

theorem rebuildLoop_one_le (t : HashMap Nat Nat) (ht : t.hasher_ = oneHasher)
    (bs : List (List (Nat × Nat))) (c m key : Nat) (hc : 8 ≤ c) (hb : RoundRobin bs m) :
    (rebuildLoop t bs key c primes_ 0 kInfinity).1 ≤ 5 := by
  rw [rebuildLoop_one t ht bs c m key hc hb]
  split_ifs <;> omega

theorem roundRobin_pushFront (bs : List (List (Nat × Nat))) (m mh : Nat) (e : Nat × Nat)
    (hl : 8 ≤ bs.length) (hb : RoundRobin bs m)
    (hmh : mh = if 4 * kInfinity ≤ m then 0
      else if m % 4 = 0 then 1 else if m % 4 = 1 then 2 else if m % 4 = 2 then 3 else 5) :
    RoundRobin (pushFront bs mh e) (m + 1) := by
  obtain ⟨h1, h2, h3, h5, h0⟩ := hb
  have hlt : mh < bs.length := by
    rw [hmh]; split_ifs <;> omega
  have key : ∀ j, (bucketAt (pushFront bs mh e) j).length =
      if j = mh then (bucketAt bs mh).length + 1 else (bucketAt bs j).length := by
    intro j
    rw [bucketAt_pushFront _ _ _ _ hlt]
    split
    · rfl
    · rfl
  have hcase : (4 * kInfinity ≤ m ∧ mh = 0) ∨ (m < 4 * kInfinity ∧ m % 4 = 0 ∧ mh = 1) ∨
      (m < 4 * kInfinity ∧ m % 4 = 1 ∧ mh = 2) ∨ (m < 4 * kInfinity ∧ m % 4 = 2 ∧ mh = 3) ∨
      (m < 4 * kInfinity ∧ m % 4 = 3 ∧ mh = 5) := by
    generalize kInfinity = kInf at *
    split_ifs at hmh <;> omega
  clear hmh
  unfold RoundRobin
  generalize kInfinity = kInf at *
  have k1 := key 1
  have k2 := key 2
  have k3 := key 3
  have k5 := key 5
  have k0 := key 0
  clear key
  rcases hcase with ⟨hm, rfl⟩ | ⟨hm, hr, rfl⟩ | ⟨hm, hr, rfl⟩ | ⟨hm, hr, rfl⟩ | ⟨hm, hr, rfl⟩
  · rw [Nat.min_eq_right hm] at h1 h2 h3 h5
    rw [Nat.min_eq_right (by omega : 4 * kInf ≤ m + 1)]
    norm_num at k1 k2 k3 k5 k0
    rw [k1, k2, k3, k5, k0, h1, h2, h3, h5, h0]
    clear k1 k2 k3 k5 k0 h1 h2 h3 h5 h0 hlt hl
    omega
  all_goals
    rw [Nat.min_eq_left (by omega : m ≤ 4 * kInf)] at h1 h2 h3 h5
    rw [Nat.min_eq_left (by omega : m + 1 ≤ 4 * kInf)]
    norm_num at k1 k2 k3 k5 k0
    rw [k1, k2, k3, k5, k0, h1, h2, h3, h5, h0]
    clear k1 k2 k3 k5 k0 h1 h2 h3 h5 h0 hlt hl
    omega

theorem roundRobin_rebuildEntry (t : HashMap Nat Nat) (ht : t.hasher_ = oneHasher)
    (nb : List (List (Nat × Nat))) (c m : Nat) (hc : 8 ≤ c) (hl : nb.length = c)
    (hb : RoundRobin nb m) (e : Nat × Nat) : RoundRobin (rebuildEntry t c nb e) (m + 1) :=
  roundRobin_pushFront nb m _ e (by omega) hb (rebuildLoop_one t ht nb c m e.1 hc hb)

theorem roundRobin_foldl (t : HashMap Nat Nat) (ht : t.hasher_ = oneHasher) (c : Nat)
    (hc : 8 ≤ c) (es : List (Nat × Nat)) (nb : List (List (Nat × Nat))) (m : Nat)
    (hl : nb.length = c) (hb : RoundRobin nb m) :
    RoundRobin (es.foldl (rebuildEntry t c) nb) (m + es.length) := by
  induction es generalizing nb m with
  | nil => exact hb
  | cons e es ih =>
    rw [List.foldl_cons, List.length_cons]
    have := ih (rebuildEntry t c nb e) (m + 1) (by rw [rebuildEntry, length_pushFront, hl])
      (roundRobin_rebuildEntry t ht nb c m hc hl hb e)
    rw [show m + (es.length + 1) = m + 1 + es.length by omega]
    exact this

theorem roundRobin_replicate (c : Nat) : RoundRobin (List.replicate c []) 0 := by
  unfold RoundRobin
  simp [bucketAt_replicate]

/-- The call `insert` with a key that none of the probed buckets holds after the deferred
rehash: the pair goes to the front of the selected bucket. -/
theorem insert_of_miss {K V : Type} [DecidableEq K] (t : HashMap K V) (pair : K × V)
    (h : ∀ p ∈ primes_, ∀ e ∈ bucketAt (RebuildIfNeed t).bucket_
      (GetHash (RebuildIfNeed t) pair.1 (RebuildIfNeed t).capacity_ p), e.1 ≠ pair.1) :
    t.insert pair =
      { RebuildIfNeed t with
        size_ := ((RebuildIfNeed t).size_ + 1) % wordSize
        bucket_ := pushFront (RebuildIfNeed t).bucket_
          (rebuildLoop (RebuildIfNeed t) (RebuildIfNeed t).bucket_ pair.1
            (RebuildIfNeed t).capacity_ primes_ 0 kInfinity).1 pair
        need_rebuild_ :=
          if ((RebuildIfNeed t).size_ + 1) % wordSize = (RebuildIfNeed t).capacity_ then true
          else (RebuildIfNeed t).need_rebuild_ } := by
  have h2 := insertLoop_miss (RebuildIfNeed t) pair.1 primes_ 0 kInfinity h
  rcases hr : rebuildLoop (RebuildIfNeed t) (RebuildIfNeed t).bucket_ pair.1
    (RebuildIfNeed t).capacity_ primes_ 0 kInfinity with ⟨mh, ms⟩
  rw [hr] at h2
  simp only [HashMap.insert, h2]

theorem RebuildIfNeed_roundRobin (t : HashMap Nat Nat) (n b : Nat) (hF : Filled t n b) :
    RoundRobin (RebuildIfNeed t).bucket_ n := by
  cases hf : t.need_rebuild_ with
  | false => rw [RebuildIfNeed_of_false t hf]; exact hF.balanced
  | true =>
    rw [RebuildIfNeed_of_true t hf hF.len]
    have := roundRobin_foldl t hF.hasher (t.capacity_ * 2) (by have := hF.cap_ge; omega)
      t.entries (List.replicate (t.capacity_ * 2) []) 0 (by simp)
      (roundRobin_replicate _)
    rw [hF.count, Nat.zero_add] at this
    exact this

theorem mod_wordSize_of_lt (n : Nat) (h : n < wordSize) : n % wordSize = n :=
  Nat.mod_eq_of_lt h

/-- Inserting a key that buckets 1, 2, 3 and 5 do not hold after the deferred rehash, in a
table with hasher `oneHasher` filled by `n` insertions. -/
theorem filled_insert (t : HashMap Nat Nat) (n b : Nat) (hF : Filled t n b)
    (hn : n + 1 < wordSize) (k v : Nat)
    (hmiss : ∀ j, j = 1 ∨ j = 2 ∨ j = 3 ∨ j = 5 →
      ∀ e ∈ bucketAt (RebuildIfNeed t).bucket_ j, e.1 ≠ k) :
    Filled (t.insert (k, v)) (n + 1) (max b (k + 1)) ∧
      (t.insert (k, v)).bucket_ = pushFront (RebuildIfNeed t).bucket_ (selected n) (k, v) ∧
      (t.insert (k, v)).entries.Perm ((k, v) :: t.entries) ∧
      (t.insert (k, v)).capacity_ = (RebuildIfNeed t).capacity_ := by
  have h1h : (RebuildIfNeed t).hasher_ = oneHasher := by rw [RebuildIfNeed_hasher]; exact hF.hasher
  have h1l := RebuildIfNeed_len t hF.len
  have hc8 := hF.cap_ge
  have h1c : 8 ≤ (RebuildIfNeed t).capacity_ := by
    rw [RebuildIfNeed_capacity]; split <;> omega
  have h1r := RebuildIfNeed_roundRobin t n b hF
  have h1e := RebuildIfNeed_entries t hF.len (by omega)
  have h1s : (RebuildIfNeed t).size_ = n := by rw [RebuildIfNeed_size]; exact hF.size
  have h1f := RebuildIfNeed_flag t
  have hsel : (rebuildLoop (RebuildIfNeed t) (RebuildIfNeed t).bucket_ k
      (RebuildIfNeed t).capacity_ primes_ 0 kInfinity).1 = selected n :=
    rebuildLoop_one _ h1h _ _ n k h1c h1r
  have hsel5 : selected n ≤ 5 := by
    unfold selected; split_ifs <;> omega
  have hm : ∀ p ∈ primes_, ∀ e ∈ bucketAt (RebuildIfNeed t).bucket_
      (GetHash (RebuildIfNeed t) (k, v).1 (RebuildIfNeed t).capacity_ p), e.1 ≠ (k, v).1 := by
    intro p hp
    have hp' : p = 1 ∨ p = 2 ∨ p = 3 ∨ p = 5 := by simpa [primes_] using hp
    rw [GetHash_one _ h1h _ _ p (by omega) h1c]
    exact hmiss p hp'
  have heq := insert_of_miss t (k, v) hm
  have hb : (t.insert (k, v)).bucket_ =
      pushFront (RebuildIfNeed t).bucket_ (selected n) (k, v) := by
    rw [heq, ← hsel]
  have hcap : (t.insert (k, v)).capacity_ = (RebuildIfNeed t).capacity_ := insert_capacity t _
  have hsz : (t.insert (k, v)).size_ = n + 1 := by
    rw [heq]
    show ((RebuildIfNeed t).size_ + 1) % wordSize = n + 1
    rw [h1s, Nat.mod_eq_of_lt hn]
  have hfl : (t.insert (k, v)).need_rebuild_ = decide (n + 1 = (RebuildIfNeed t).capacity_) := by
    rw [heq]
    show (if ((RebuildIfNeed t).size_ + 1) % wordSize = (RebuildIfNeed t).capacity_ then true
      else (RebuildIfNeed t).need_rebuild_) = _
    rw [h1s, Nat.mod_eq_of_lt hn, h1f]
    by_cases hc : n + 1 = (RebuildIfNeed t).capacity_
    · simp [hc]
    · simp [hc]
  have hperm : (t.insert (k, v)).entries.Perm ((k, v) :: t.entries) := by
    unfold HashMap.entries
    rw [hb]
    exact (flatten_pushFront_perm _ _ _ (by rw [h1l]; omega)).trans (List.Perm.cons _ h1e)
  have hcapv : (RebuildIfNeed t).capacity_ =
      if t.need_rebuild_ = true then t.capacity_ * 2 else t.capacity_ :=
    RebuildIfNeed_capacity t
  have hflag := hF.flag
  have hlt := hF.cap_lt
  have hle := hF.le_cap
  refine ⟨⟨?_, ?_, ?_, ?_, ?_, ?_, ?_, ?_, hsz, ?_, ?_⟩, hb, hperm, hcap⟩
  · rw [insert_hasher]; exact hF.hasher
  · rw [hb, hcap, length_pushFront]; exact h1l
  · rw [hcap]; exact h1c
  · rw [hcap, hcapv]
    obtain ⟨j, hj⟩ := hF.cap_pow
    split
    · exact ⟨j + 1, by rw [hj, Nat.pow_succ]⟩
    · exact ⟨j, hj⟩
  · rw [hcap, hcapv]
    split
    · rename_i hc
      rw [hc] at hflag
      have : n = t.capacity_ := by simpa using hflag.symm
      omega
    · omega
  · rw [hcap, hcapv]
    split
    · omega
    · rename_i hc
      have hc2 : t.need_rebuild_ = false := by simpa using hc
      rw [hc2] at hflag
      have : n ≠ t.capacity_ := by simpa using hflag.symm
      omega
  · rw [hb]
    exact roundRobin_pushFront _ n _ _ (by rw [h1l]; omega) h1r rfl
  · rw [hperm.length_eq, List.length_cons, hF.count]
  · rw [hfl, hcap]
  · intro e he
    rcases List.mem_cons.mp (hperm.mem_iff.mp he) with rfl | h
    · show k < max b (k + 1)
      omega
    · have := hF.keys_lt e h
      omega

theorem fillCalls_succ (n : Nat) : fillCalls (n + 1) = fillCalls n ++ [Call.insert (n, 0)] := by
  simp [fillCalls, List.range_succ]

theorem runCalls_append {K V : Type} [DecidableEq K] (hasher : K → Nat)
    (cs ds : List (Call K V)) :
    runCalls hasher (cs ++ ds) = ds.foldl applyCall (runCalls hasher cs) := by
  simp [runCalls, List.foldl_append]

/-- A fresh key is in none of the buckets after the deferred rehash. -/
theorem miss_of_fresh (t : HashMap Nat Nat) (n b : Nat) (hF : Filled t n b) (k : Nat)
    (hk : b ≤ k) (j : Nat) : ∀ e ∈ bucketAt (RebuildIfNeed t).bucket_ j, e.1 ≠ k := by
  intro e he
  have h1 := mem_flatten_of_mem_bucketAt _ _ _ he
  have h2 := (RebuildIfNeed_entries t hF.len (by have := hF.cap_ge; omega)).mem_iff.mp h1
  have := hF.keys_lt e h2
  omega

theorem filled_five : Filled (runCalls oneHasher (fillCalls 5)) 5 5 ∧
    (runCalls oneHasher (fillCalls 5)).keys.Nodup := by
  refine ⟨⟨rfl, by decide, by decide, ⟨3, by decide⟩, by decide, by decide, ?_, by decide,
    by decide, by decide, by decide⟩, by decide⟩
  unfold RoundRobin
  decide

/-- The table reached by `n` insertions of the keys `0, ..., n - 1` with the hasher
`oneHasher`. -/
theorem filled_fill (n : Nat) (h5 : 5 ≤ n) (hn : n < wordSize) :
    Filled (runCalls oneHasher (fillCalls n)) n n ∧
      (runCalls oneHasher (fillCalls n)).keys.Nodup := by
  induction n, h5 using Nat.le_induction with
  | base => exact filled_five
  | succ n h5 ih =>
    obtain ⟨hF, hN⟩ := ih (by omega)
    rw [fillCalls_succ, runCalls_snoc]
    show Filled ((runCalls oneHasher (fillCalls n)).insert (n, 0)) (n + 1) (n + 1) ∧ _
    obtain ⟨h1, _, h3, _⟩ := filled_insert _ n n hF hn n 0
      (fun j _ => miss_of_fresh _ n n hF n (Nat.le_refl _) j)
    rw [show max n (n + 1) = n + 1 by omega] at h1
    refine ⟨h1, ?_⟩
    show (((runCalls oneHasher (fillCalls n)).insert (n, 0)).entries.map Prod.fst).Nodup
    rw [(List.Perm.map Prod.fst h3).nodup_iff, List.map_cons, List.nodup_cons]
    refine ⟨?_, hN⟩
    intro hm
    obtain ⟨e, he, hek⟩ := List.mem_map.mp hm
    have := hF.keys_lt e he
    simp only at hek
    omega

theorem capacity_of_filled (t : HashMap Nat Nat) (n b : Nat) (hF : Filled t n b)
    (h1 : 2199023255552 < n) (h2 : n ≤ 4398046511104) : t.capacity_ = 4398046511104 := by
  obtain ⟨j, hj⟩ := hF.cap_pow
  have hlt := hF.cap_lt
  have hle := hF.le_cap
  rw [hj] at hlt hle ⊢
  have h3 : j < 43 := by
    by_contra hc
    have : 2 ^ 43 ≤ 2 ^ j := Nat.pow_le_pow_right (by norm_num) (by omega)
    norm_num at this
    omega
  have h4 : 41 < j := by
    by_contra hc
    have : 2 ^ j ≤ 2 ^ 41 := Nat.pow_le_pow_right (by norm_num) (by omega)
    norm_num at this
    omega
  have : j = 42 := by omega
  subst this
  norm_num

theorem fullLoad_eq : fullLoad = 4000000000000 := by
  unfold fullLoad kInfinity
  norm_num

theorem wordSize_eq : wordSize = 18446744073709551616 := by
  unfold wordSize
  norm_num

theorem selected_of_full (m : Nat) (h : fullLoad ≤ m) : selected m = 0 := by
  unfold selected
  exact if_pos h

/-- A miss of `at` in a table with hasher `oneHasher`: buckets 1, 2, 3 and 5 do not hold
the key. -/
theorem at_error_one (t : HashMap Nat Nat) (ht : t.hasher_ = oneHasher)
    (hc : 8 ≤ t.capacity_) (k : Nat)
    (h : ∀ j, j = 1 ∨ j = 2 ∨ j = 3 ∨ j = 5 → ∀ e ∈ bucketAt t.bucket_ j, e.1 ≠ k) :
    (t.at_ k).1 = Except.error Error.out_of_range := by
  apply (atLoop_error_iff t k primes_).mpr
  intro p hp
  have hp' : p = 1 ∨ p = 2 ∨ p = 3 ∨ p = 5 := by simpa [primes_] using hp
  rw [GetHash_one t ht k _ p (by omega) hc]
  exact h p hp'

theorem filled_no_rebuild (t : HashMap Nat Nat) (n b : Nat) (hF : Filled t n b)
    (h : n ≠ t.capacity_) : RebuildIfNeed t = t := by
  apply RebuildIfNeed_of_false
  rw [hF.flag]
  simpa using h

theorem fullTable_filled : Filled fullTable fullLoad fullLoad ∧ fullTable.keys.Nodup ∧
    fullTable.capacity_ = 4398046511104 := by
  have h := filled_fill fullLoad (by rw [fullLoad_eq]; omega)
    (by rw [fullLoad_eq, wordSize_eq]; omega)
  exact ⟨h.1, h.2, capacity_of_filled _ _ _ h.1 (by rw [fullLoad_eq]; omega)
    (by rw [fullLoad_eq]; omega)⟩

/-- The table `fullTable` after `insert((fullLoad, v))`: the pair is alone in bucket 0,
which is not a candidate bucket of its key. -/
theorem overflow_one (v : Nat) :
    Filled (fullTable.insert (fullLoad, v)) (fullLoad + 1) (fullLoad + 1) ∧
      (fullTable.insert (fullLoad, v)).capacity_ = 4398046511104 ∧
      bucketAt (fullTable.insert (fullLoad, v)).bucket_ 0 = [(fullLoad, v)] ∧
      ∀ j, j = 1 ∨ j = 2 ∨ j = 3 ∨ j = 5 →
        ∀ e ∈ bucketAt (fullTable.insert (fullLoad, v)).bucket_ j, e.1 ≠ fullLoad := by
  obtain ⟨hF, _, hcap⟩ := fullTable_filled
  have hR : RebuildIfNeed fullTable = fullTable :=
    filled_no_rebuild _ _ _ hF (by rw [hcap, fullLoad_eq]; omega)
  obtain ⟨h1, h2, _, h4⟩ := filled_insert fullTable fullLoad fullLoad hF
    (by rw [fullLoad_eq, wordSize_eq]; omega) fullLoad v
    (fun j _ => miss_of_fresh _ _ _ hF fullLoad (Nat.le_refl _) j)
  rw [show max fullLoad (fullLoad + 1) = fullLoad + 1 by omega] at h1
  rw [hR, selected_of_full _ (Nat.le_refl _)] at h2
  rw [hR] at h4
  have hlen : 0 < fullTable.bucket_.length := by
    rw [hF.len]; have := hF.cap_ge; omega
  have h0 : bucketAt fullTable.bucket_ 0 = [] := by
    apply List.eq_nil_of_length_eq_zero
    rw [hF.balanced.2.2.2.2]
    unfold fullLoad
    omega
  refine ⟨h1, by rw [h4, hcap], ?_, ?_⟩
  · rw [h2, bucketAt_pushFront _ _ _ _ hlen, if_pos rfl, h0]
  · intro j hj e he
    rw [h2, bucketAt_pushFront _ _ _ _ hlen, if_neg (by omega)] at he
    have := hF.keys_lt e (mem_flatten_of_mem_bucketAt _ _ _ he)
    omega

/-- The table `fullTable` after `insert((fullLoad, v))` and `insert((fullLoad, w))`: both
pairs are in bucket 0. -/
theorem overflow_two (v w : Nat) :
    Filled ((fullTable.insert (fullLoad, v)).insert (fullLoad, w)) (fullLoad + 2)
        (fullLoad + 1) ∧
      bucketAt ((fullTable.insert (fullLoad, v)).insert (fullLoad, w)).bucket_ 0 =
        [(fullLoad, w), (fullLoad, v)] ∧
      ∀ j, j = 1 ∨ j = 2 ∨ j = 3 ∨ j = 5 →
        ∀ e ∈ bucketAt ((fullTable.insert (fullLoad, v)).insert (fullLoad, w)).bucket_ j,
          e.1 ≠ fullLoad := by
  obtain ⟨hF, hcap, hb0, hbj⟩ := overflow_one v
  have hR : RebuildIfNeed (fullTable.insert (fullLoad, v)) = fullTable.insert (fullLoad, v) :=
    filled_no_rebuild _ _ _ hF (by rw [hcap, fullLoad_eq]; omega)
  obtain ⟨h1, h2, _, _⟩ := filled_insert _ (fullLoad + 1) (fullLoad + 1) hF
    (by rw [fullLoad_eq, wordSize_eq]; omega) fullLoad w (by rw [hR]; exact hbj)
  rw [show max (fullLoad + 1) (fullLoad + 1) = fullLoad + 1 by omega] at h1
  rw [hR, selected_of_full _ (by omega)] at h2
  have hlen : 0 < (fullTable.insert (fullLoad, v)).bucket_.length := by
    rw [hF.len]; have := hF.cap_ge; omega
  refine ⟨h1, ?_, ?_⟩
  · rw [h2, bucketAt_pushFront _ _ _ _ hlen, if_pos rfl, hb0]
  · intro j hj e he
    rw [h2, bucketAt_pushFront _ _ _ _ hlen, if_neg (by omega)] at he
    exact hbj j hj e he

theorem runCalls_snoc_insert {K V : Type} [DecidableEq K] (hasher : K → Nat)
    (cs : List (Call K V)) (p : K × V) :
    runCalls hasher (cs ++ [Call.insert p]) = (runCalls hasher cs).insert p := by
  simp [runCalls, List.foldl_append, applyCall]

theorem runCalls_snoc_insert_two {K V : Type} [DecidableEq K] (hasher : K → Nat)
    (cs : List (Call K V)) (p q : K × V) :
    runCalls hasher (cs ++ [Call.insert p, Call.insert q]) =
      ((runCalls hasher cs).insert p).insert q := by
  simp [runCalls, List.foldl_append, applyCall]

theorem runCalls_fill_one (v : Nat) :
    runCalls oneHasher (fillCalls fullLoad ++ [Call.insert (fullLoad, v)]) =
      fullTable.insert (fullLoad, v) :=
  runCalls_snoc_insert oneHasher (fillCalls fullLoad) (fullLoad, v)

theorem runCalls_fill_two (v w : Nat) :
    runCalls oneHasher
        (fillCalls fullLoad ++ [Call.insert (fullLoad, v), Call.insert (fullLoad, w)]) =
      (fullTable.insert (fullLoad, v)).insert (fullLoad, w) :=
  runCalls_snoc_insert_two oneHasher (fillCalls fullLoad) (fullLoad, v) (fullLoad, w)

theorem index_snd_of_miss {K V : Type} [DecidableEq K] [Inhabited V] (t : HashMap K V)
    (key : K)
    (h : ∀ p ∈ primes_, ∀ e ∈ bucketAt (RebuildIfNeed t).bucket_
      (GetHash (RebuildIfNeed t) key (RebuildIfNeed t).capacity_ p), e.1 ≠ key) :
    (t.index key).2 = ((rebuildLoop (RebuildIfNeed t) (RebuildIfNeed t).bucket_ key
      (RebuildIfNeed t).capacity_ primes_ 0 kInfinity).1, 0) := by
  have h2 := insertLoop_miss (RebuildIfNeed t) key primes_ 0 kInfinity h
  rcases hr : rebuildLoop (RebuildIfNeed t) (RebuildIfNeed t).bucket_ key
    (RebuildIfNeed t).capacity_ primes_ 0 kInfinity with ⟨mh, ms⟩
  rw [hr] at h2
  simp only [HashMap.index, h2]

theorem size_eq_size_ {K V : Type} (t : HashMap K V) : t.size = t.size_ := rfl

theorem not_nodup_of_two {K V : Type} [DecidableEq K] (l : List (K × V)) (k : K) (v w : V) (hvw : v ≠ w)
    (hv : (k, v) ∈ l) (hw : (k, w) ∈ l) : ¬ (l.map Prod.fst).Nodup :=
  fun h => hvw (eq_of_mem_of_nodup_keys l h k v w hv hw)

theorem specValue_fill (k : Nat) (n : Nat) (hk : n ≤ k) : specValue k (fillCalls n) = none := by
  unfold specValue
  rw [List.findSome?_eq_none_iff]
  intro c hc
  have hc2 := mem_sinceLastErase k _ c hc
  unfold fillCalls at hc2
  obtain ⟨i, hi, rfl⟩ := List.mem_map.mp hc2
  have : i < n := List.mem_range.mp hi
  simp only [Call.insertedValue]
  rw [if_neg (by omega)]

/-- C1, counterexample: with the hasher that sends every key to 1, after
`insert((i, 0))` for `i = 0, ..., 4 * 10^12 - 1`, then `insert((4 * 10^12, 7))` and
`insert((4 * 10^12, 8))`, the key `4 * 10^12` is stored twice. -/
theorem C1_counterexample :
    ¬ (runCalls oneHasher
      (fillCalls fullLoad ++ [Call.insert (fullLoad, 7), Call.insert (fullLoad, 8)])).keys.Nodup := by
  rw [runCalls_fill_two]
  obtain ⟨_, h0, _⟩ := overflow_two 7 8
  apply not_nodup_of_two _ fullLoad 8 7 (by decide)
  · exact mem_flatten_of_mem_bucketAt _ 0 _ (by rw [h0]; simp)
  · exact mem_flatten_of_mem_bucketAt _ 0 _ (by rw [h0]; simp)

/-- C2, counterexample: with the hasher that sends every key to 1, after
`insert((i, 0))` for `i = 0, ..., 4 * 10^12 - 1` and `insert((4 * 10^12, 7))`, the key
`4 * 10^12` was inserted with value 7 and never erased, and `at(4 * 10^12)` throws. -/
theorem C2_counterexample :
    specValue fullLoad (fillCalls fullLoad ++ [Call.insert (fullLoad, 7)]) = some 7 ∧
      ((runCalls oneHasher (fillCalls fullLoad ++ [Call.insert (fullLoad, 7)])).at_
        fullLoad).1 = Except.error Error.out_of_range := by
  constructor
  · rw [specValue_snoc_insert, specValue_fill _ _ (Nat.le_refl _)]
    simp
  · rw [runCalls_fill_one]
    obtain ⟨hF, _, _, hj⟩ := overflow_one 7
    exact at_error_one _ hF.hasher hF.cap_ge fullLoad hj

/-- C4, counterexample: in the table holding `(1, 0)`, `insert((1, 1))` followed by
`insert((1, 2))` leaves `at(1)` equal to 0, not 1; and with the hasher that sends every key
to 1, after `insert((i, 0))` for `i = 0, ..., 4 * 10^12 - 1`, `insert((4 * 10^12, 7))`
followed by `insert((4 * 10^12, 8))` leaves `at(4 * 10^12)` throwing. -/
theorem C4_counterexample :
    (((((construct (fun k : Nat => k) : HashMap Nat Nat).insert (1, 0)).insert (1, 1)).insert
        (1, 2)).at_ 1).1 = Except.ok 0 ∧
      (((fullTable.insert (fullLoad, 7)).insert (fullLoad, 8)).at_ fullLoad).1 =
        Except.error Error.out_of_range := by
  constructor
  · exact Eq.refl _
  · obtain ⟨hF, _, hj⟩ := overflow_two 7 8
    exact at_error_one _ hF.hasher hF.cap_ge fullLoad hj

/-- C7, counterexample: with the hasher that sends every key to 1, after
`insert((i, 0))` for `i = 0, ..., 4 * 10^12 - 1`, then `insert((4 * 10^12, 7))` and
`insert((4 * 10^12, 8))`, the loop from `begin()` to `end()` visits the stored entries and
two of them have the key `4 * 10^12`. -/
theorem C7_counterexample :
    (runCalls oneHasher
        (fillCalls fullLoad ++ [Call.insert (fullLoad, 7), Call.insert (fullLoad, 8)])).traverse
        (fullLoad + 3) =
      some (runCalls oneHasher
        (fillCalls fullLoad ++ [Call.insert (fullLoad, 7), Call.insert (fullLoad, 8)])).entries ∧
      ¬ ((runCalls oneHasher
        (fillCalls fullLoad ++ [Call.insert (fullLoad, 7), Call.insert (fullLoad, 8)])).entries.map
        Prod.fst).Nodup := by
  rw [runCalls_fill_two]
  obtain ⟨hF, h0, _⟩ := overflow_two 7 8
  refine ⟨traverse_eq _ hF.len _ (by rw [hF.count]; omega), ?_⟩
  apply not_nodup_of_two _ fullLoad 8 7 (by decide)
  · exact mem_flatten_of_mem_bucketAt _ 0 _ (by rw [h0]; simp)
  · exact mem_flatten_of_mem_bucketAt _ 0 _ (by rw [h0]; simp)

/-- C8, counterexample: with the hasher that sends every key to 1, after
`insert((i, 0))` for `i = 0, ..., 4 * 10^12 - 1` and `insert((4 * 10^12, 7))`, the key
`4 * 10^12` is stored with value 7, and `operator[](4 * 10^12)` adds a second entry for it:
`size()` grows by one and the reference is to a new entry with the default value. -/
theorem C8_counterexample :
    (fullLoad, 7) ∈
        (runCalls oneHasher (fillCalls fullLoad ++ [Call.insert (fullLoad, 7)])).entries ∧
      ((runCalls oneHasher (fillCalls fullLoad ++ [Call.insert (fullLoad, 7)])).index
        fullLoad).1.size =
        (runCalls oneHasher (fillCalls fullLoad ++ [Call.insert (fullLoad, 7)])).size + 1 ∧
      ((runCalls oneHasher (fillCalls fullLoad ++ [Call.insert (fullLoad, 7)])).index
        fullLoad).1.entryAt
        ((runCalls oneHasher (fillCalls fullLoad ++ [Call.insert (fullLoad, 7)])).index
          fullLoad).2 = some (fullLoad, 0) := by
  rw [runCalls_fill_one]
  obtain ⟨hF1, _, h01, hj1⟩ := overflow_one 7
  obtain ⟨hF2, h02, _⟩ := overflow_two 7 default
  have hR : RebuildIfNeed (fullTable.insert (fullLoad, 7)) = fullTable.insert (fullLoad, 7) :=
    filled_no_rebuild _ _ _ hF1 (by rw [(overflow_one 7).2.1, fullLoad_eq]; omega)
  have hmiss : ∀ p ∈ primes_, ∀ e ∈ bucketAt (RebuildIfNeed (fullTable.insert (fullLoad, 7))).bucket_
      (GetHash (RebuildIfNeed (fullTable.insert (fullLoad, 7))) fullLoad
        (RebuildIfNeed (fullTable.insert (fullLoad, 7))).capacity_ p), e.1 ≠ fullLoad := by
    intro p hp
    have hp' : p = 1 ∨ p = 2 ∨ p = 3 ∨ p = 5 := by simpa [primes_] using hp
    rw [hR, GetHash_one _ hF1.hasher _ _ p (by omega) hF1.cap_ge]
    exact hj1 p hp'
  have hsel : (rebuildLoop (RebuildIfNeed (fullTable.insert (fullLoad, 7)))
      (RebuildIfNeed (fullTable.insert (fullLoad, 7))).bucket_ fullLoad
      (RebuildIfNeed (fullTable.insert (fullLoad, 7))).capacity_ primes_ 0 kInfinity).1 = 0 := by
    rw [hR, rebuildLoop_one _ hF1.hasher _ _ (fullLoad + 1) fullLoad hF1.cap_ge hF1.balanced]
    exact selected_of_full _ (by omega)
  have hsnd : ((fullTable.insert (fullLoad, 7)).index fullLoad).2 = (0, 0) := by
    rw [index_snd_of_miss _ _ hmiss, hsel]
  have hm7 : (fullLoad, 7) ∈ bucketAt (fullTable.insert (fullLoad, 7)).bucket_ 0 := by
    rw [h01]; exact List.mem_cons_self _ _
  refine ⟨(mem_entries_iff_bucketAt _ _).mpr ⟨0, hm7⟩, ?_, ?_⟩
  · rw [index_fst, size_eq_size_, size_eq_size_, hF2.size, hF1.size]
  · rw [hsnd, index_fst]
    unfold HashMap.entryAt
    rw [h02]
    exact Eq.refl _

/-- When no key is stored twice, entries of two different buckets have different keys. -/
theorem keys_ne_of_buckets_ne {K V : Type} [DecidableEq K] (bs : List (List (K × V)))
    (h : (bs.flatten.map Prod.fst).Nodup) (i j : Nat) (hij : i ≠ j) (e x : K × V)
    (he : e ∈ bucketAt bs i) (hx : x ∈ bucketAt bs j) : e.1 ≠ x.1 := by
  have hi : i < bs.length := by
    by_contra hc
    rw [bucketAt_eq_nil_of_le _ _ (by omega)] at he
    simp at he
  obtain ⟨rest, h1, h2⟩ := flatten_set_perm bs i hi
  have hx2 : x ∈ rest := by
    have h3 : x ∈ bucketAt (bs.set i []) j := by
      rw [bucketAt_set _ _ _ _ hi, if_neg (Ne.symm hij)]; exact hx
    have h4 := mem_flatten_of_mem_bucketAt _ _ _ h3
    simpa using (h2 []).mem_iff.mp h4
  have hnd := (List.Perm.map Prod.fst h1).nodup_iff.mp h
  rw [List.map_append] at hnd
  intro hc
  exact (List.nodup_append.mp hnd).2.2 (List.mem_map_of_mem Prod.fst he)
    (by rw [hc]; exact List.mem_map_of_mem Prod.fst hx2)

theorem tripTable_filled : Filled tripTable tripLoad tripLoad ∧ tripTable.keys.Nodup ∧
    tripTable.capacity_ = tripLoad ∧ tripTable.need_rebuild_ = true ∧
    tripTable.size_ = tripLoad := by
  unfold tripTable
  have h := filled_fill tripLoad (by unfold tripLoad; omega)
    (by rw [wordSize_eq]; unfold tripLoad; omega)
  have hc := capacity_of_filled _ _ _ h.1 (by unfold tripLoad; omega)
    (by unfold tripLoad; omega)
  refine ⟨h.1, h.2, hc, ?_, h.1.size⟩
  rw [h.1.flag]
  exact decide_eq_true hc.symm

/-- C6, counterexample: with the hasher that sends every key to 1, the table reached by
`insert((i, 0))` for `i = 0, ..., 2^42 - 1` has capacity `2^42`, holds `2^42` entries and
has the threshold tripped; after the next `insert((2^42, 0))`, which rehashes, `at` throws
for the key of a pair that was stored before the call. -/
theorem C6_counterexample :
    tripTable.size_ = tripTable.capacity_ ∧ tripTable.need_rebuild_ = true ∧
      ∃ k v, (k, v) ∈ tripTable.entries ∧
        ((tripTable.insert (tripLoad, 0)).at_ k).1 = Except.error Error.out_of_range := by
  obtain ⟨hF, hN, hcap, hflag, hsize⟩ := tripTable_filled
  refine ⟨by rw [hsize, hcap], hflag, ?_⟩
  have hperm := RebuildIfNeed_entries tripTable hF.len (by have := hF.cap_ge; omega)
  have hrr := RebuildIfNeed_roundRobin tripTable _ _ hF
  have hl1 := RebuildIfNeed_len tripTable hF.len
  have hc1 : 8 ≤ (RebuildIfNeed tripTable).capacity_ := by
    rw [RebuildIfNeed_capacity]; have := hF.cap_ge; split <;> omega
  obtain ⟨h1, h2, _, _⟩ := filled_insert tripTable tripLoad tripLoad hF
    (by rw [wordSize_eq]; unfold tripLoad; omega) tripLoad 0
    (fun j _ => miss_of_fresh _ _ _ hF tripLoad (Nat.le_refl _) j)
  have hsel : selected tripLoad = 0 :=
    selected_of_full _ (by rw [fullLoad_eq]; unfold tripLoad; omega)
  rw [hsel] at h2
  have hpos : 0 < (bucketAt (RebuildIfNeed tripTable).bucket_ 0).length := by
    rw [hrr.2.2.2.2]
    unfold tripLoad kInfinity
    omega
  obtain ⟨e, he⟩ := List.exists_mem_of_length_pos hpos
  have hnd1 : ((RebuildIfNeed tripTable).bucket_.flatten.map Prod.fst).Nodup :=
    (List.Perm.map Prod.fst hperm).nodup_iff.mpr hN
  refine ⟨e.1, e.2, hperm.mem_iff.mp (mem_flatten_of_mem_bucketAt _ 0 _ he), ?_⟩
  apply at_error_one _ h1.hasher h1.cap_ge
  intro j hj x hx
  rw [h2, bucketAt_pushFront _ _ _ _ (by rw [hl1]; omega), if_neg (by omega)] at hx
  exact (keys_ne_of_buckets_ne _ hnd1 0 j (by omega) e x he hx).symm

theorem eraseLoop_frame (t : HashMap K V) (key : K) (ps : List Nat) :
    (eraseLoop t key ps).capacity_ = t.capacity_ ∧
      (eraseLoop t key ps).need_rebuild_ = t.need_rebuild_ ∧
      (eraseLoop t key ps).hasher_ = t.hasher_ := by
  induction ps with
  | nil => exact ⟨rfl, rfl, rfl⟩
  | cons p ps ih =>
    simp only [eraseLoop]
    split
    · exact ⟨rfl, rfl, rfl⟩
    · exact ih

/-- C11: for every table and key `k`: when no stored entry has key `k`, and also when
`find(k)` is `end()`, `erase(k)` returns the table unchanged (buckets, size, capacity and
threshold flag); and for every key `erase(k)` leaves the capacity and the threshold flag as
they were. -/
theorem C11_erase_frame (t : HashMap K V) (k : K) :
    (k ∉ t.keys → t.erase k = t) ∧ ((t.find k).eq t.end_ = true → t.erase k = t) ∧
      (t.erase k).capacity_ = t.capacity_ ∧
      (t.erase k).need_rebuild_ = t.need_rebuild_ := by
  refine ⟨erase_of_not_mem t k, fun h => ?_, (eraseLoop_frame t k primes_).1,
    (eraseLoop_frame t k primes_).2.1⟩
  exact eraseLoop_miss t k primes_
    ((atLoop_error_iff t k primes_).mp ((find_eq_end_iff t k).mp h))

theorem C11_erase_frame_witness :
    (7 ∉ ((construct (fun k : Nat => k) : HashMap Nat Nat).insert (1, 10)).keys ∧
      ((construct (fun k : Nat => k) : HashMap Nat Nat).insert (1, 10)).erase 7 =
        (construct (fun k : Nat => k) : HashMap Nat Nat).insert (1, 10)) ∧
      ((((construct (fun k : Nat => k) : HashMap Nat Nat).insert (1, 10)).find 7).eq
          ((construct (fun k : Nat => k) : HashMap Nat Nat).insert (1, 10)).end_ = true ∧
        ((construct (fun k : Nat => k) : HashMap Nat Nat).insert (1, 10)).erase 7 =
          (construct (fun k : Nat => k) : HashMap Nat Nat).insert (1, 10)) :=
  ⟨⟨by decide, (C11_erase_frame _ 7).1 (by decide)⟩,
    ⟨by decide, (C11_erase_frame _ 7).2.1 (by decide)⟩⟩

/-- C12: for every table, after `clear()` the size is 0, `empty()` is true, the capacity
is 4, the bucket storage is 4 empty buckets, and `find(k)` is `end()` for every key `k`. -/
theorem C12_clear_resets (t : HashMap K V) (k : K) :
    t.clear.size = 0 ∧ t.clear.empty = true ∧ t.clear.capacity_ = 4 ∧
      t.clear.bucket_ = [[], [], [], []] ∧ t.clear.entries = [] ∧
      t.clear.find k = t.clear.end_ ∧ (t.clear.find k).eq t.clear.end_ = true := by
  have h : (t.clear.at_ k).1 = Except.error Error.out_of_range := by
    apply (atLoop_error_iff t.clear k primes_).mpr
    intro p _ e he
    have : bucketAt t.clear.bucket_ (GetHash t.clear k t.clear.capacity_ p) = [] :=
      bucketAt_replicate 4 _
    rw [this] at he
    cases he
  exact ⟨rfl, rfl, rfl, rfl, rfl, findLoop_of_error t.clear k primes_ h,
    (find_eq_end_iff t.clear k).mpr h⟩

/-- C18: for every key (whatever value the hasher gives it), every multiplier `p` and every
capacity `C = 4 * 2 ^ k` with `C ≤ 2 ^ 63`: the index that `GetHash` computes with the
product reduced modulo `2 ^ 64` is the exact `hash * p mod C` and is below `C`; `C` is not
zero; the candidate list is made of these indices for `p` = 1, 2, 3, 5. -/
theorem C18_index_is_exact (t : HashMap K V) (key : K) (p C k : Nat) (hC : C = 4 * 2 ^ k)
    (hle : C ≤ 2 ^ 63) :
    GetHash t key C p = t.hasher_ key * p % C ∧ GetHash t key C p < C ∧ C ≠ 0 ∧
      candidates t key C =
        [t.hasher_ key * 1 % C, t.hasher_ key * 2 % C, t.hasher_ key * 3 % C,
          t.hasher_ key * 5 % C] := by
  have hC2 : C = 2 ^ (k + 2) := by rw [hC, pow_succ, pow_succ]; ring
  have hk : k + 2 ≤ 63 := by
    rw [hC2] at hle
    exact (Nat.pow_le_pow_iff_right (by omega)).mp hle
  have hdvd : C ∣ wordSize := by
    rw [hC2, wordSize]
    exact pow_dvd_pow 2 (by omega)
  have hpos : 0 < C := by rw [hC2]; exact Nat.pos_pow_of_pos _ (by omega)
  have hg : ∀ q, GetHash t key C q = t.hasher_ key * q % C := fun q => by
    rw [GetHash, Nat.mod_mod_of_dvd _ hdvd]
  refine ⟨hg p, ?_, by omega, ?_⟩
  · rw [hg]; exact Nat.mod_lt _ hpos
  · simp only [candidates, primes_, List.map_cons, List.map_nil, hg]

theorem C18_index_is_exact_witness :
    GetHash (construct (fun _ : Nat => 2 ^ 64 - 1) : HashMap Nat Nat) 0 8 5 =
        (2 ^ 64 - 1) * 5 % 8 ∧
      GetHash (construct (fun _ : Nat => 2 ^ 64 - 1) : HashMap Nat Nat) 0 8 5 < 8 :=
  ⟨(C18_index_is_exact (construct (fun _ : Nat => 2 ^ 64 - 1)) 0 5 8 1 (by norm_num)
      (by norm_num)).1,
    (C18_index_is_exact (construct (fun _ : Nat => 2 ^ 64 - 1)) 0 5 8 1 (by norm_num)
      (by norm_num)).2.1⟩

/-- C13: the range constructor that takes a hasher builds the table that the insertions
of the pairs build from the empty table configured with the content its own `hasher_`
member had before initialisation, not with the hasher passed.  With the pair `(5, 50)`,
the hasher `k ↦ k` passed and a member content that sends every key to 0, the table has
`hasher_(5) = 0` and the pair in bucket 0, while the empty table configured with `k ↦ k`
receives the pair in bucket 1, as does the table of the initializer-list constructor. -/
theorem C13_range_constructor_ignores_hasher :
    (∀ (range : List (Nat × Nat)) (hasher indeterminate : Nat → Nat),
        constructRangeHasher range hasher indeterminate =
          range.foldl (fun t pair => t.insert pair) (construct indeterminate)) ∧
      (constructRangeHasher [(5, 50)] (fun k => k) (fun _ => 0)).hasher_ 5 = 0 ∧
      (constructRangeHasher [(5, 50)] (fun k => k) (fun _ => 0)).bucket_ =
        [[(5, 50)], [], [], []] ∧
      ((construct (fun k => k) : HashMap Nat Nat).insert (5, 50)).bucket_ =
        [[], [(5, 50)], [], []] ∧
      (constructListHasher [(5, 50)] (fun k => k)).bucket_ = [[], [(5, 50)], [], []] := by
  refine ⟨fun _ _ _ => rfl, ?_, ?_, ?_, ?_⟩ <;> decide

/-- The call `insert` with a key that one of the probed buckets holds after the deferred
rehash: nothing else is done. -/
theorem insert_of_hit (t : HashMap K V) (pair : K × V)
    (h : ∃ p ∈ primes_, ∃ e ∈ bucketAt (RebuildIfNeed t).bucket_
      (GetHash (RebuildIfNeed t) pair.1 (RebuildIfNeed t).capacity_ p), e.1 = pair.1) :
    t.insert pair = RebuildIfNeed t := by
  obtain ⟨p, _, h2, _⟩ := insertLoop_hit (RebuildIfNeed t) pair.1 primes_ 0 kInfinity h
  simp only [HashMap.insert, h2]

/-- The two outcomes of `insert` on a table with one list per bucket index: the key is
found after the deferred rehash and nothing is added, or the pair is added to the front of
the selected bucket, which exists. -/
theorem insert_cases (t : HashMap K V) (hl : t.bucket_.length = t.capacity_)
    (hc : 0 < t.capacity_) (pair : K × V) :
    (t.insert pair = RebuildIfNeed t ∧ (t.insert pair).entries.length = t.entries.length) ∨
      (t.insert pair =
          { RebuildIfNeed t with
            size_ := ((RebuildIfNeed t).size_ + 1) % wordSize
            bucket_ := pushFront (RebuildIfNeed t).bucket_
              (rebuildLoop (RebuildIfNeed t) (RebuildIfNeed t).bucket_ pair.1
                (RebuildIfNeed t).capacity_ primes_ 0 kInfinity).1 pair
            need_rebuild_ :=
              if ((RebuildIfNeed t).size_ + 1) % wordSize = (RebuildIfNeed t).capacity_
              then true else (RebuildIfNeed t).need_rebuild_ } ∧
        (t.insert pair).entries.length = t.entries.length + 1 ∧
        (∀ p ∈ primes_, ∀ e ∈ bucketAt (RebuildIfNeed t).bucket_
          (GetHash (RebuildIfNeed t) pair.1 (RebuildIfNeed t).capacity_ p), e.1 ≠ pair.1)) := by
  have hperm := RebuildIfNeed_entries t hl hc
  by_cases h : ∃ p ∈ primes_, ∃ e ∈ bucketAt (RebuildIfNeed t).bucket_
      (GetHash (RebuildIfNeed t) pair.1 (RebuildIfNeed t).capacity_ p), e.1 = pair.1
  · left
    rw [insert_of_hit t pair h]
    exact ⟨rfl, hperm.length_eq⟩
  · right
    have h1 : ∀ p ∈ primes_, ∀ e ∈ bucketAt (RebuildIfNeed t).bucket_
        (GetHash (RebuildIfNeed t) pair.1 (RebuildIfNeed t).capacity_ p), e.1 ≠ pair.1 :=
      fun p hp e he hk => h ⟨p, hp, e, he, hk⟩
    have h2 := insert_of_miss t pair h1
    refine ⟨h2, ?_, h1⟩
    rw [h2]
    have hlt := rebuildLoop_lt (RebuildIfNeed t) (RebuildIfNeed t).bucket_ pair.1
      (RebuildIfNeed t).capacity_ (RebuildIfNeed_cap_pos t hc)
    have hlt1 : (rebuildLoop (RebuildIfNeed t) (RebuildIfNeed t).bucket_ pair.1
        (RebuildIfNeed t).capacity_ primes_ 0 kInfinity).1 < (RebuildIfNeed t).bucket_.length := by
      rw [RebuildIfNeed_len t hl]; exact hlt
    have h3 := (flatten_pushFront_perm (RebuildIfNeed t).bucket_ _ pair hlt1).length_eq
    rw [List.length_cons] at h3
    have h4 := hperm.length_eq
    unfold HashMap.entries at h4 ⊢
    rw [h3, h4]

theorem insert_flag_iff (t : HashMap K V) (hl : t.bucket_.length = t.capacity_)
    (hc : 0 < t.capacity_) (pair : K × V) :
    (t.insert pair).need_rebuild_ = true ↔
      (t.insert pair).entries.length = t.entries.length + 1 ∧
        (t.insert pair).size_ = (t.insert pair).capacity_ := by
  have hf := RebuildIfNeed_flag t
  rcases insert_cases t hl hc pair with ⟨h1, h2⟩ | ⟨h1, h2, _⟩
  · rw [h2]
    rw [h1, hf]
    constructor
    · intro h; cases h
    · intro h; omega
  · rw [h2]
    rw [h1]
    simp only [hf]
    constructor
    · intro h
      refine ⟨trivial, ?_⟩
      by_contra hne
      rw [if_neg hne] at h
      cases h
    · intro h
      rw [if_pos h.2]

theorem insert_capacity_eq (t : HashMap K V) (hl : t.bucket_.length = t.capacity_)
    (hc : 0 < t.capacity_) (pair : K × V) :
    (t.insert pair).capacity_ = if t.need_rebuild_ = true then t.capacity_ * 2 else t.capacity_ := by
  rw [← RebuildIfNeed_capacity]
  rcases insert_cases t hl hc pair with ⟨h1, _⟩ | ⟨h1, _, _⟩
  · rw [h1]
  · rw [h1]

/-- C15, amended: the table built by a constructor is in the normal state; for a table
with one list per bucket index, `insert` and `operator[]` leave the threshold tripped
exactly when the call added an entry and the size equals the capacity after the call; a
call of `insert` or `operator[]` on a tripped table performs the rehash (the capacity is
doubled), on a normal table it leaves the capacity as it is; `erase` keeps the state, `at`
leaves the whole table as it is; `clear` resets the state to normal together with the
capacity, which is 4 again. -/
theorem C15_growth_state [Inhabited V] (t : HashMap K V)
    (hl : t.bucket_.length = t.capacity_) (hc : 0 < t.capacity_) (hasher : K → Nat)
    (pair : K × V) (k : K) :
    (construct hasher : HashMap K V).need_rebuild_ = false ∧
      ((t.insert pair).need_rebuild_ = true ↔
        (t.insert pair).entries.length = t.entries.length + 1 ∧
          (t.insert pair).size = (t.insert pair).capacity_) ∧
      ((t.index k).1.need_rebuild_ = true ↔
        (t.index k).1.entries.length = t.entries.length + 1 ∧
          (t.index k).1.size = (t.index k).1.capacity_) ∧
      (t.need_rebuild_ = true →
        (t.insert pair).capacity_ = t.capacity_ * 2 ∧
          (t.index k).1.capacity_ = t.capacity_ * 2) ∧
      (t.need_rebuild_ = false →
        (t.insert pair).capacity_ = t.capacity_ ∧ (t.index k).1.capacity_ = t.capacity_) ∧
      (t.erase k).need_rebuild_ = t.need_rebuild_ ∧ (t.at_ k).2 = t ∧
      t.clear.need_rebuild_ = false ∧ t.clear.capacity_ = 4 := by
  refine ⟨rfl, insert_flag_iff t hl hc pair, ?_, fun h => ?_, fun h => ?_,
    (eraseLoop_frame t k primes_).2.1, at_snd t k, rfl, rfl⟩
  · rw [index_fst]
    exact insert_flag_iff t hl hc _
  · rw [index_fst, insert_capacity_eq t hl hc, insert_capacity_eq t hl hc, if_pos h]
    exact ⟨rfl, rfl⟩
  · rw [index_fst, insert_capacity_eq t hl hc, insert_capacity_eq t hl hc,
      if_neg (by rw [h]; simp)]
    exact ⟨rfl, rfl⟩

theorem C15_growth_state_witness :
    trippedFour.bucket_.length = trippedFour.capacity_ ∧ 0 < trippedFour.capacity_ ∧
      trippedFour.need_rebuild_ = true ∧
      (trippedFour.insert (9, 9)).capacity_ = trippedFour.capacity_ * 2 ∧
      (trippedFour.erase 0).need_rebuild_ = trippedFour.need_rebuild_ :=
  ⟨by decide, by decide, by decide,
    ((C15_growth_state trippedFour (by decide) (by decide) (fun k => k) (9, 9) 0).2.2.2.1
      (by decide)).1,
    (C15_growth_state trippedFour (by decide) (by decide) (fun k => k) (9, 9)
      0).2.2.2.2.2.1⟩

/-- C15, as stated, fails at `clear`: the table with capacity 4 that holds four entries
has the threshold tripped, and `clear()` leaves it normal with capacity 4, without a
rehash. -/
theorem C15_counterexample :
    trippedFour.need_rebuild_ = true ∧ trippedFour.capacity_ = 4 ∧
      trippedFour.clear.need_rebuild_ = false ∧ trippedFour.clear.capacity_ = 4 := by
  decide

theorem eraseLoop_len (t : HashMap K V) (key : K) (ps : List Nat) :
    (eraseLoop t key ps).bucket_.length = t.bucket_.length := by
  induction ps with
  | nil => rfl
  | cons p ps ih =>
    simp only [eraseLoop]
    split
    · simp
    · exact ih

theorem insert_len (t : HashMap K V) (hl : t.bucket_.length = t.capacity_)
    (hc : 0 < t.capacity_) (pair : K × V) :
    (t.insert pair).bucket_.length = (t.insert pair).capacity_ := by
  rcases insert_cases t hl hc pair with ⟨h1, _⟩ | ⟨h1, _, _⟩
  · rw [h1]; exact RebuildIfNeed_len t hl
  · rw [h1]
    simp only [length_pushFront]
    exact RebuildIfNeed_len t hl

/-- The shape of the capacity: `4 * 2 ^ k`, with one list per bucket index. -/
theorem capacity_shape_step [Inhabited V] (t : HashMap K V) (h : ReachAll t) :
    (∃ k, t.capacity_ = 4 * 2 ^ k) ∧ t.bucket_.length = t.capacity_ := by
  induction h with
  | empty hasher => exact ⟨⟨0, rfl⟩, rfl⟩
  | insert t pair _ ih =>
    obtain ⟨⟨k, hk⟩, hl⟩ := ih
    have hc : 0 < t.capacity_ := by rw [hk]; positivity
    refine ⟨?_, insert_len t hl hc pair⟩
    rw [insert_capacity_eq t hl hc]
    split
    · exact ⟨k + 1, by rw [hk, pow_succ]; ring⟩
    · exact ⟨k, hk⟩
  | erase t key _ ih =>
    obtain ⟨⟨k, hk⟩, hl⟩ := ih
    have h1 := (eraseLoop_frame t key primes_).1
    have h2 := eraseLoop_len t key primes_
    exact ⟨⟨k, by rw [HashMap.erase, h1, hk]⟩, by rw [HashMap.erase, h1, h2, hl]⟩
  | index t key _ ih =>
    obtain ⟨⟨k, hk⟩, hl⟩ := ih
    have hc : 0 < t.capacity_ := by rw [hk]; positivity
    rw [index_fst]
    refine ⟨?_, insert_len t hl hc _⟩
    rw [insert_capacity_eq t hl hc]
    split
    · exact ⟨k + 1, by rw [hk, pow_succ]; ring⟩
    · exact ⟨k, hk⟩
  | clear t _ _ => exact ⟨⟨0, rfl⟩, rfl⟩
  | copy d other _ ih =>
    obtain ⟨⟨k, hk⟩, hl⟩ := ih
    obtain ⟨h1, _, _, _, h5, _⟩ := CopyHashMap_spec
      { size_ := 0, capacity_ := kDefaultCapacity, need_rebuild_ := false, bucket_ := [],
        hasher_ := d } other hl
    exact ⟨⟨k, by rw [copyConstruct, h1, hk]⟩, by rw [copyConstruct, h1, h5]⟩
  | assign self other b _ _ ih1 ih2 =>
    cases b with
    | true => exact ih1
    | false =>
      obtain ⟨⟨k, hk⟩, hl⟩ := ih2
      obtain ⟨h1, _, _, _, h5, _⟩ := CopyHashMap_spec self other hl
      have : self.assign other false = CopyHashMap self other := rfl
      rw [this]
      exact ⟨⟨k, by rw [h1, hk]⟩, by rw [h1, h5]⟩

theorem reachAll_foldl [Inhabited V] (cs : List (Call K V)) (t : HashMap K V)
    (h : ReachAll t) : ReachAll (cs.foldl applyCall t) := by
  induction cs generalizing t with
  | nil => exact h
  | cons c cs ih =>
    rw [List.foldl_cons]
    apply ih
    cases c with
    | insert pair => exact ReachAll.insert t pair h
    | erase key => exact ReachAll.erase t key h

theorem reachAll_runCalls [Inhabited V] (hasher : K → Nat) (cs : List (Call K V)) :
    ReachAll (runCalls hasher cs) :=
  reachAll_foldl cs _ (ReachAll.empty hasher)

/-- C14, amended: in every table reached from construction by calls of `insert`, `erase`,
`operator[]`, `clear`, the copy constructor and the copy assignment, the capacity is
`4 * 2 ^ k` for some `k` and is the number of buckets of the bucket storage; `insert` and
`operator[]` double it exactly when they perform the deferred rehash (the threshold was
tripped) and keep it otherwise, `erase` keeps it, `clear` sets it to 4, and a copy gives
the target the capacity of the source. -/
theorem C14_capacity_shape [Inhabited V] (t : HashMap K V) (h : ReachAll t) :
    (∃ k, t.capacity_ = 4 * 2 ^ k) ∧ t.bucket_.length = t.capacity_ ∧
      (∀ pair, (t.insert pair).capacity_ =
        if t.need_rebuild_ = true then t.capacity_ * 2 else t.capacity_) ∧
      (∀ key, (t.index key).1.capacity_ =
        if t.need_rebuild_ = true then t.capacity_ * 2 else t.capacity_) ∧
      (∀ key, (t.erase key).capacity_ = t.capacity_) ∧ t.clear.capacity_ = 4 ∧
      (∀ default_hasher, (copyConstruct default_hasher t).capacity_ = t.capacity_) ∧
      (∀ self : HashMap K V, (self.assign t false).capacity_ = t.capacity_) := by
  obtain ⟨⟨k, hk⟩, hl⟩ := capacity_shape_step t h
  have hc : 0 < t.capacity_ := by rw [hk]; positivity
  refine ⟨⟨k, hk⟩, hl, fun pair => insert_capacity_eq t hl hc pair, fun key => ?_,
    fun key => (eraseLoop_frame t key primes_).1, rfl, fun _ => rfl, fun _ => rfl⟩
  rw [index_fst]
  exact insert_capacity_eq t hl hc _

theorem C14_capacity_shape_witness :
    (∃ k, nineTable.capacity_ = 4 * 2 ^ k) ∧ nineTable.bucket_.length = nineTable.capacity_ :=
  ⟨(C14_capacity_shape nineTable (reachAll_runCalls _ _)).1,
    (C14_capacity_shape nineTable (reachAll_runCalls _ _)).2.1⟩

/-- C14, as stated, fails at the copy assignment: the empty table has capacity 4, the
table that received nine insertions has capacity 16, and assigning the second to the first
takes the capacity of the first from 4 to 16, which is neither a rehash nor a doubling. -/
theorem C14_counterexample :
    (construct (fun k => k) : HashMap Nat Nat).capacity_ = 4 ∧ nineTable.capacity_ = 16 ∧
      ((construct (fun k => k) : HashMap Nat Nat).assign nineTable false).capacity_ = 16 := by
  decide

/-- The two outcomes of `erase` on a table with one list per bucket index: nothing is
done, or one entry is removed and the size is decremented. -/
theorem erase_cases (t : HashMap K V) (hl : t.bucket_.length = t.capacity_)
    (hc : 0 < t.capacity_) (key : K) :
    t.erase key = t ∨
      ((t.erase key).size_ = (t.size_ + wordSize - 1) % wordSize ∧
        (t.erase key).entries.length + 1 = t.entries.length) := by
  by_cases h : ∃ p ∈ primes_, ∃ e ∈ bucketAt t.bucket_ (GetHash t key t.capacity_ p), e.1 = key
  · right
    obtain ⟨p, _, ⟨e, he, hek⟩, heq⟩ := eraseLoop_hit t key primes_ h
    have hlt : GetHash t key t.capacity_ p < t.bucket_.length := by
      rw [hl]; exact Nat.mod_lt _ hc
    obtain ⟨rest, h1, h2⟩ := flatten_set_perm t.bucket_ _ hlt
    have hidx : (bucketAt t.bucket_ (GetHash t key t.capacity_ p)).findIdx
        (fun e => decide (e.1 = key)) < (bucketAt t.bucket_ (GetHash t key t.capacity_ p)).length :=
      List.findIdx_lt_length_of_exists ⟨e, he, by simpa using hek⟩
    have h3 := (h2 ((bucketAt t.bucket_ (GetHash t key t.capacity_ p)).eraseIdx
      ((bucketAt t.bucket_ (GetHash t key t.capacity_ p)).findIdx
        (fun e => decide (e.1 = key))))).length_eq
    have h4 := h1.length_eq
    rw [List.length_append, List.length_eraseIdx, if_pos hidx] at h3
    rw [List.length_append] at h4
    unfold HashMap.erase
    rw [heq]
    refine ⟨rfl, ?_⟩
    unfold HashMap.entries
    simp only
    omega
  · left
    exact eraseLoop_miss t key primes_ (fun p hp e he hk => h ⟨p, hp, e, he, hk⟩)

theorem size_dec_of_lt (n : Nat) (h1 : 0 < n) (h2 : n < wordSize) :
    (n + wordSize - 1) % wordSize = n - 1 := by
  have h4 : n + wordSize - 1 = (n - 1) + wordSize := by omega
  rw [h4, Nat.add_mod_right]
  exact Nat.mod_eq_of_lt (by omega)

/-- The load invariant of the tables reached without a copy: one list per bucket index,
`size_` below `2 ^ 64`, and, while the capacity is below `2 ^ 64`, `size_` is the number
of stored entries, at most the capacity, the threshold being tripped when they are
equal. -/
theorem load_step [Inhabited V] (t : HashMap K V) (h : ReachPlain t) :
    t.bucket_.length = t.capacity_ ∧ 0 < t.capacity_ ∧ t.size_ < wordSize ∧
      (t.capacity_ < wordSize →
        t.size_ = t.entries.length ∧ t.entries.length ≤ t.capacity_ ∧
          (t.entries.length = t.capacity_ → t.need_rebuild_ = true)) := by
  have hW : 0 < wordSize := by unfold wordSize; positivity
  have hins : ∀ (t : HashMap K V) (pair : K × V),
      (t.bucket_.length = t.capacity_ ∧ 0 < t.capacity_ ∧ t.size_ < wordSize ∧
        (t.capacity_ < wordSize →
          t.size_ = t.entries.length ∧ t.entries.length ≤ t.capacity_ ∧
            (t.entries.length = t.capacity_ → t.need_rebuild_ = true))) →
      ((t.insert pair).bucket_.length = (t.insert pair).capacity_ ∧
        0 < (t.insert pair).capacity_ ∧ (t.insert pair).size_ < wordSize ∧
        ((t.insert pair).capacity_ < wordSize →
          (t.insert pair).size_ = (t.insert pair).entries.length ∧
            (t.insert pair).entries.length ≤ (t.insert pair).capacity_ ∧
            ((t.insert pair).entries.length = (t.insert pair).capacity_ →
              (t.insert pair).need_rebuild_ = true))) := by
    intro t pair ⟨hl, hc, hs, hK⟩
    have hcap := insert_capacity_eq t hl hc pair
    have hflag := insert_flag_iff t hl hc pair
    have hR1 := RebuildIfNeed_size t
    have hR2 := RebuildIfNeed_capacity t
    have hlt : (t.insert pair).capacity_ < wordSize → t.capacity_ < wordSize ∧
        t.entries.length < (t.insert pair).capacity_ := by
      intro hw
      rw [hcap] at hw ⊢
      by_cases hf : t.need_rebuild_ = true
      · rw [if_pos hf] at hw ⊢
        have := (hK (by omega)).2.1
        omega
      · rw [if_neg hf] at hw ⊢
        obtain ⟨_, h2, h3⟩ := hK hw
        refine ⟨hw, ?_⟩
        rcases Nat.lt_or_ge t.entries.length t.capacity_ with h4 | h4
        · exact h4
        · exact absurd (h3 (by omega)) hf
    refine ⟨insert_len t hl hc pair, ?_, ?_, ?_⟩
    · rw [hcap]; split <;> omega
    · rcases insert_cases t hl hc pair with ⟨h1, _⟩ | ⟨h1, _, _⟩
      · rw [h1, hR1]; exact hs
      · rw [h1]; exact Nat.mod_lt _ hW
    · intro hw
      obtain ⟨hcw, hE⟩ := hlt hw
      obtain ⟨h2, _, _⟩ := hK hcw
      rcases insert_cases t hl hc pair with ⟨h1, h5⟩ | ⟨h1, h5, _⟩
      · have h6 : (t.insert pair).size_ = t.size_ := by rw [h1, hR1]
        rw [h5, h6]
        exact ⟨h2, by omega, fun h7 => by omega⟩
      · have h6 : (t.insert pair).size_ = (t.size_ + 1) % wordSize := by rw [h1, hR1]
        have h7 : (t.size_ + 1) % wordSize = t.size_ + 1 := Nat.mod_eq_of_lt (by omega)
        rw [h6, h7] at hflag ⊢
        rw [h5] at hflag ⊢
        refine ⟨by omega, by omega, fun h8 => hflag.mpr ⟨rfl, by omega⟩⟩
  induction h with
  | empty hasher =>
    refine ⟨rfl, by show 0 < 4; omega, hW, fun _ => ⟨rfl, Nat.zero_le _, ?_⟩⟩
    intro h; cases h
  | insert t pair _ ih => exact hins t pair ih
  | index t key _ ih => rw [index_fst]; exact hins t _ ih
  | clear t _ _ =>
    refine ⟨rfl, by show 0 < 4; omega, hW, fun _ => ⟨rfl, Nat.zero_le _, ?_⟩⟩
    intro h; cases h
  | erase t key _ ih =>
    obtain ⟨hl, hc, hs, hK⟩ := ih
    have h1 := (eraseLoop_frame t key primes_).1
    have h2 := (eraseLoop_frame t key primes_).2.1
    have h3 := eraseLoop_len t key primes_
    rcases erase_cases t hl hc key with h4 | ⟨h4, h5⟩
    · rw [h4]; exact ⟨hl, hc, hs, hK⟩
    · refine ⟨?_, ?_, ?_, ?_⟩
      · rw [HashMap.erase, h1, h3, hl]
      · rw [HashMap.erase, h1]; exact hc
      · rw [h4]; exact Nat.mod_lt _ hW
      · intro hw
        have hw1 : t.capacity_ < wordSize := by
          rw [HashMap.erase, h1] at hw; exact hw
        obtain ⟨h6, h7, _⟩ := hK hw1
        have h8 : (t.erase key).capacity_ = t.capacity_ := h1
        rw [h4, h8, size_dec_of_lt t.size_ (by omega) hs]
        exact ⟨by omega, by omega, fun h9 => by omega⟩

theorem reachPlain_foldl [Inhabited V] (cs : List (Call K V)) (t : HashMap K V)
    (h : ReachPlain t) : ReachPlain (cs.foldl applyCall t) := by
  induction cs generalizing t with
  | nil => exact h
  | cons c cs ih =>
    rw [List.foldl_cons]
    apply ih
    cases c with
    | insert pair => exact ReachPlain.insert t pair h
    | erase key => exact ReachPlain.erase t key h

theorem reachPlain_runCalls [Inhabited V] (hasher : K → Nat) (cs : List (Call K V)) :
    ReachPlain (runCalls hasher cs) :=
  reachPlain_foldl cs _ (ReachPlain.empty hasher)

/-- C20: in every table reached from a constructed empty table by calls of `insert`,
`erase`, `operator[]` and `clear`, `size()` is at most the capacity, and when they are
equal the threshold is tripped, so that the next `insert` or `operator[]` performs the
rehash: the capacity is doubled by that call. -/
theorem C20_load_factor [Inhabited V] (t : HashMap K V) (h : ReachPlain t) :
    t.size ≤ t.capacity_ ∧ (t.size = t.capacity_ → t.need_rebuild_ = true) ∧
      ∀ (pair : K × V) (key : K), t.size = t.capacity_ →
        (t.insert pair).capacity_ = t.capacity_ * 2 ∧
          (t.index key).1.capacity_ = t.capacity_ * 2 := by
  obtain ⟨hl, hc, hs, hK⟩ := load_step t h
  have h1 : t.size ≤ t.capacity_ := by
    unfold HashMap.size
    rcases Nat.lt_or_ge t.capacity_ wordSize with hw | hw
    · obtain ⟨h2, h3, _⟩ := hK hw; omega
    · omega
  have h2 : t.size = t.capacity_ → t.need_rebuild_ = true := by
    unfold HashMap.size
    intro heq
    have hw : t.capacity_ < wordSize := by omega
    obtain ⟨h2, _, h4⟩ := hK hw
    exact h4 (by omega)
  refine ⟨h1, h2, fun pair key heq => ?_⟩
  rw [index_fst, insert_capacity_eq t hl hc, insert_capacity_eq t hl hc, if_pos (h2 heq)]
  exact ⟨rfl, rfl⟩

theorem C20_load_factor_witness :
    trippedFour.size ≤ trippedFour.capacity_ ∧ trippedFour.size = trippedFour.capacity_ ∧
      trippedFour.need_rebuild_ = true :=
  ⟨(C20_load_factor trippedFour (reachPlain_runCalls _ _)).1, by decide,
    (C20_load_factor trippedFour (reachPlain_runCalls _ _)).2.1 (by decide)⟩

theorem skipEmpty_to (t : HashMap K V) (c : Nat) (fuel s j : Nat) (hsj : s ≤ j)
    (hf : j - s ≤ fuel) (hjc : j ≤ c)
    (hempty : ∀ m, s ≤ m → m < j → bucketAt t.bucket_ m = [])
    (hj : j < c → bucketAt t.bucket_ j ≠ []) : skipEmpty t c fuel s = j := by
  induction fuel generalizing s with
  | zero =>
    have : s = j := by omega
    rw [this]; rfl
  | succ fuel ih =>
    simp only [skipEmpty]
    rcases Nat.eq_or_lt_of_le hsj with h | h
    · subst h
      rw [if_neg]
      rintro ⟨h1, h2⟩
      exact hj h1 (List.isEmpty_iff.mp h2)
    · rw [if_pos ⟨by omega, List.isEmpty_iff.mpr (hempty s (Nat.le_refl _) h)⟩]
      exact ih (s + 1) (by omega) (by omega) (fun m h1 h2 => hempty m (by omega) h2)

theorem beginLoop_to (t : HashMap K V) (n s j : Nat) (hsj : s ≤ j) (hjn : j < s + n)
    (hempty : ∀ m, s ≤ m → m < j → bucketAt t.bucket_ m = [])
    (hj : bucketAt t.bucket_ j ≠ []) :
    beginLoop t (List.range' s n) =
      { it_i_ := j, it_capacity_ := t.bucket_.length, it_ := (j, 0) } := by
  induction n generalizing s with
  | zero => omega
  | succ n ih =>
    rw [List.range'_succ]
    simp only [beginLoop]
    rcases Nat.eq_or_lt_of_le hsj with h | h
    · subst h
      rw [if_pos]
      cases hb : bucketAt t.bucket_ s with
      | nil => exact absurd hb hj
      | cons a l => rfl
    · rw [if_neg (by rw [hempty s (Nat.le_refl _) h]; simp)]
      exact ih (s + 1) (by omega) (by omega) (fun m h1 h2 => hempty m (by omega) h2)

theorem beginLoop_all_empty (t : HashMap K V) (n s : Nat)
    (hempty : ∀ m, s ≤ m → m < s + n → bucketAt t.bucket_ m = []) :
    beginLoop t (List.range' s n) = t.end_ := by
  induction n generalizing s with
  | zero => rfl
  | succ n ih =>
    rw [List.range'_succ]
    simp only [beginLoop]
    rw [if_neg (by rw [hempty s (Nat.le_refl _) (by omega)]; simp)]
    exact ih (s + 1) (fun m h1 h2 => hempty m (by omega) (by omega))

/-- C17, amended: for every table with one list per bucket index and every iterator at
the entry position `(i, q)`: when `q` is not the last entry of bucket `i` the increment
gives `(i, q + 1)`; when it is the last one, the increment gives the first entry of the
first non-empty bucket after `i`, and when there is none it gives an iterator that
compares equal to `end()`, whose list position is the past-the-end position of bucket
`capacity - 1` as for `end()`, while its bucket index `it_i_` is `capacity` (that of
`end()` is `capacity - 1`).  `begin()` is the first entry of the first non-empty bucket,
or `end()` itself when every bucket is empty. -/
theorem C17_iterator_steps (t : HashMap K V) (hl : t.bucket_.length = t.capacity_)
    (i q : Nat) (hi : i < t.capacity_) (hq : q < (bucketAt t.bucket_ i).length) :
    (q + 1 < (bucketAt t.bucket_ i).length →
        GetNext t { it_i_ := i, it_capacity_ := t.bucket_.length, it_ := (i, q) } =
          { it_i_ := i, it_capacity_ := t.bucket_.length, it_ := (i, q + 1) }) ∧
      (q + 1 = (bucketAt t.bucket_ i).length →
        (∀ j, i < j → j < t.capacity_ → bucketAt t.bucket_ j ≠ [] →
          (∀ m, i < m → m < j → bucketAt t.bucket_ m = []) →
          GetNext t { it_i_ := i, it_capacity_ := t.bucket_.length, it_ := (i, q) } =
            { it_i_ := j, it_capacity_ := t.bucket_.length, it_ := (j, 0) }) ∧
        ((∀ m, i < m → m < t.capacity_ → bucketAt t.bucket_ m = []) →
          GetNext t { it_i_ := i, it_capacity_ := t.bucket_.length, it_ := (i, q) } =
              { it_i_ := t.capacity_, it_capacity_ := t.bucket_.length,
                it_ := listEnd t.bucket_ (t.capacity_ - 1) } ∧
            (GetNext t { it_i_ := i, it_capacity_ := t.bucket_.length, it_ := (i, q) }).it_ =
              t.end_.it_ ∧
            (GetNext t { it_i_ := i, it_capacity_ := t.bucket_.length, it_ := (i, q) }).eq
              t.end_ = true)) ∧
      (∀ j, j < t.capacity_ → bucketAt t.bucket_ j ≠ [] →
        (∀ m, m < j → bucketAt t.bucket_ m = []) →
        t.begin = { it_i_ := j, it_capacity_ := t.bucket_.length, it_ := (j, 0) }) ∧
      ((∀ m, m < t.capacity_ → bucketAt t.bucket_ m = []) → t.begin = t.end_) := by
  have hne : ((i, q) : ListIt) ≠ listEnd t.bucket_ i := by
    unfold listEnd
    intro h
    have := (Prod.mk.injEq _ _ _ _ ▸ h : i = i ∧ q = (bucketAt t.bucket_ i).length).2
    omega
  refine ⟨fun h => ?_, fun h => ⟨fun j hij hj hjne hempty => ?_, fun hempty => ?_⟩,
    fun j hj hjne hempty => ?_, fun hempty => ?_⟩
  · simp only [GetNext]
    rw [if_pos hne, if_neg]
    unfold listEnd
    intro h1
    have := (Prod.mk.injEq _ _ _ _ ▸ h1 : i = i ∧ q + 1 = (bucketAt t.bucket_ i).length).2
    omega
  · have hs := skipEmpty_to t t.bucket_.length (t.bucket_.length - i) (i + 1) j (by omega)
      (by omega) (by omega) (fun m h1 h2 => hempty m (by omega) h2) (fun _ => hjne)
    simp only [GetNext]
    rw [if_pos hne, if_pos (by unfold listEnd; rw [h]), hs, if_pos (by omega)]
  · have hs := skipEmpty_to t t.bucket_.length (t.bucket_.length - i) (i + 1) t.bucket_.length
      (by omega) (by omega) (Nat.le_refl _)
      (fun m h1 h2 => hempty m (by omega) (by omega)) (fun h1 => absurd h1 (Nat.lt_irrefl _))
    have h1 : GetNext t { it_i_ := i, it_capacity_ := t.bucket_.length, it_ := (i, q) } =
        { it_i_ := t.capacity_, it_capacity_ := t.bucket_.length,
          it_ := listEnd t.bucket_ (t.capacity_ - 1) } := by
      simp only [GetNext]
      rw [if_pos hne, if_pos (by unfold listEnd; rw [h]), hs, if_neg (Nat.lt_irrefl _), hl]
    rw [h1]
    refine ⟨rfl, rfl, ?_⟩
    simp [iterator.eq, HashMap.end_]
  · unfold HashMap.begin
    rw [List.range_eq_range']
    exact beginLoop_to t t.capacity_ 0 j (Nat.zero_le _) (by omega)
      (fun m _ h2 => hempty m h2) hjne
  · unfold HashMap.begin
    rw [List.range_eq_range']
    exact beginLoop_all_empty t t.capacity_ 0 (fun m _ h2 => hempty m (by omega))

theorem C17_iterator_steps_witness :
    GetNext ((construct (fun k => k) : HashMap Nat Nat).insert (1, 10))
        { it_i_ := 1, it_capacity_ := 4, it_ := (1, 0) } =
      { it_i_ := 4, it_capacity_ := 4, it_ := (3, 0) } :=
  (((C17_iterator_steps ((construct (fun k => k) : HashMap Nat Nat).insert (1, 10))
    (by decide) 1 0 (by decide) (by decide)).2.1 (by decide)).2
    (fun m h1 h2 => by
      have h3 : m < 4 := h2
      interval_cases m <;> rfl)).1

/-- C17, as stated, fails at the bucket index of the iterator: in the table that holds the
single pair `(1, 10)`, incrementing `begin()` gives an iterator with bucket index 4, the
capacity, while `end()` has bucket index 3; the two compare equal. -/
theorem C17_counterexample :
    (GetNext ((construct (fun k => k) : HashMap Nat Nat).insert (1, 10))
        ((construct (fun k => k) : HashMap Nat Nat).insert (1, 10)).begin).it_i_ = 4 ∧
      ((construct (fun k => k) : HashMap Nat Nat).insert (1, 10)).end_.it_i_ = 3 ∧
      GetNext ((construct (fun k => k) : HashMap Nat Nat).insert (1, 10))
          ((construct (fun k => k) : HashMap Nat Nat).insert (1, 10)).begin ≠
        ((construct (fun k => k) : HashMap Nat Nat).insert (1, 10)).end_ ∧
      (GetNext ((construct (fun k => k) : HashMap Nat Nat).insert (1, 10))
          ((construct (fun k => k) : HashMap Nat Nat).insert (1, 10)).begin).eq
        ((construct (fun k => k) : HashMap Nat Nat).insert (1, 10)).end_ = true := by
  decide

/-- The selection loop keeps `(min_hash, min_size)` or returns the first probed bucket that
has the smallest entry count, which is then below `min_size`. -/
theorem rebuildLoop_first (t : HashMap K V) (nb : List (List (K × V))) (key : K) (c : Nat)
    (ps : List Nat) (mh ms : Nat) :
    rebuildLoop t nb key c ps mh ms = (mh, ms) ∨
      ((rebuildLoop t nb key c ps mh ms).2 < ms ∧
        ∃ as p bs, ps = as ++ p :: bs ∧
          (rebuildLoop t nb key c ps mh ms).1 = GetHash t key c p ∧
          (rebuildLoop t nb key c ps mh ms).2 = (bucketAt nb (GetHash t key c p)).length ∧
          ∀ a ∈ as, (rebuildLoop t nb key c ps mh ms).2 <
            (bucketAt nb (GetHash t key c a)).length) := by
  induction ps generalizing mh ms with
  | nil => left; rfl
  | cons p ps ih =>
    simp only [rebuildLoop]
    split
    · rename_i hlt
      right
      rcases ih (GetHash t key c p) (bucketAt nb (GetHash t key c p)).length with h | h
      · rw [h]
        exact ⟨hlt, [], p, ps, rfl, rfl, rfl, fun a ha => by cases ha⟩
      · obtain ⟨h1, as, q, bs, h2, h3, h4, h5⟩ := h
        refine ⟨by omega, p :: as, q, bs, by rw [h2]; rfl, h3, h4, ?_⟩
        intro a ha
        rcases List.mem_cons.mp ha with rfl | ha
        · exact h1
        · exact h5 a ha
    · rename_i hlt
      rcases ih mh ms with h | h
      · left; exact h
      · right
        obtain ⟨h1, as, q, bs, h2, h3, h4, h5⟩ := h
        refine ⟨h1, p :: as, q, bs, by rw [h2]; rfl, h3, h4, ?_⟩
        intro a ha
        rcases List.mem_cons.mp ha with rfl | ha
        · omega
        · exact h5 a ha

/-- The bucket selected by the code is the least loaded candidate bucket of the
specification when one of the candidate buckets holds fewer than `kInfinity` entries. -/
theorem rebuildLoop_eq_leastLoaded (t : HashMap K V) (nb : List (List (K × V))) (key : K)
    (c : Nat) (h : ∃ p ∈ primes_, (bucketAt nb (GetHash t key c p)).length < kInfinity) :
    (rebuildLoop t nb key c primes_ 0 kInfinity).1 = leastLoaded nb (candidates t key c) := by
  obtain ⟨p0, hp0, hlt0⟩ := h
  have hle := rebuildLoop_le t nb key c primes_ 0 kInfinity
  rcases rebuildLoop_first t nb key c primes_ 0 kInfinity with h1 | h1
  · have := hle.2 p0 hp0
    rw [h1] at this
    simp only at this
    omega
  · obtain ⟨_, as, p, bs, h2, h3, h4, h5⟩ := h1
    have hmin : ∀ d ∈ candidates t key c,
        (bucketAt nb (GetHash t key c p)).length ≤ (bucketAt nb d).length := by
      intro d hd
      obtain ⟨q, hq, rfl⟩ := (mem_candidates_iff t key c d).mp hd
      rw [← h4]
      exact hle.2 q hq
    have hpm : GetHash t key c p ∈ candidates t key c := by
      apply (mem_candidates_iff t key c _).mpr
      exact ⟨p, by rw [h2]; simp, rfl⟩
    have hfind : (candidates t key c).find? (fun x =>
        (candidates t key c).all (fun d =>
          decide ((bucketAt nb x).length ≤ (bucketAt nb d).length))) =
        some (GetHash t key c p) := by
      have hc : candidates t key c =
          as.map (GetHash t key c) ++ GetHash t key c p :: bs.map (GetHash t key c) := by
        unfold candidates
        rw [h2, List.map_append, List.map_cons]
      generalize hP : (fun x => (candidates t key c).all (fun d =>
          decide ((bucketAt nb x).length ≤ (bucketAt nb d).length))) = P
      have hP1 : P (GetHash t key c p) = true := by
        rw [← hP]
        simp only [List.all_eq_true, decide_eq_true_eq]
        exact hmin
      have hP2 : ∀ x ∈ as.map (GetHash t key c), ¬ P x = true := by
        intro x hx
        obtain ⟨a, ha, rfl⟩ := List.mem_map.mp hx
        rw [← hP]
        simp only [List.all_eq_true, decide_eq_true_eq]
        intro hall
        have h6 := hall _ hpm
        have h7 := h5 a ha
        omega
      rw [hc, List.find?_append, List.find?_eq_none.mpr hP2, List.find?_cons_of_pos _ hP1]
      rfl
    unfold leastLoaded
    rw [hfind, h3]
    rfl

theorem rebuildEntry_eq_placeLeast (t : HashMap K V) (c : Nat) (nb : List (List (K × V)))
    (e : K × V) (h : nb.flatten.length < kInfinity) :
    rebuildEntry t c nb e = placeLeast t c nb e := by
  unfold rebuildEntry placeLeast
  rw [rebuildLoop_eq_leastLoaded t nb e.1 c
    ⟨1, by simp [primes_], Nat.lt_of_le_of_lt (length_bucketAt_le nb _) h⟩]

theorem foldl_rebuildEntry_eq_placeLeast (t : HashMap K V) (c : Nat) (hc : 0 < c)
    (es : List (K × V)) (nb : List (List (K × V))) (hn : nb.length = c)
    (hb : nb.flatten.length + es.length ≤ kInfinity) :
    es.foldl (rebuildEntry t c) nb = es.foldl (placeLeast t c) nb := by
  induction es generalizing nb with
  | nil => rfl
  | cons e es ih =>
    rw [List.length_cons] at hb
    rw [List.foldl_cons, List.foldl_cons,
      ← rebuildEntry_eq_placeLeast t c nb e (by omega)]
    have hlt : (rebuildLoop t nb e.1 c primes_ 0 kInfinity).1 < nb.length := by
      rw [hn]; exact rebuildLoop_lt t nb e.1 c hc
    apply ih
    · rw [rebuildEntry, length_pushFront, hn]
    · have := (flatten_pushFront_perm nb _ e hlt).length_eq
      rw [List.length_cons] at this
      rw [rebuildEntry, this]
      omega

/-- C16, amended: for every table reached from the empty table by `insert`, `erase` and
`operator[]` calls, those that can add an entry being made while `size()` is below
`kInfinity` (10^12): when the threshold is not tripped, `size()` is below `kInfinity` and
the key `k` is not stored, `insert((k, v))` puts `(k, v)` at the front of bucket `j`, the
first candidate index of `k` in the order of the multipliers 1, 2, 3, 5 whose bucket has
the smallest entry count among the candidate buckets of `k`; every other bucket is as it
was and `size()` is increased by one.  When the threshold is tripped, the rehash doubles
the capacity and places the stored entries one after the other by the same rule into the
new buckets. -/
theorem C16_least_loaded_placement [Inhabited V] (hasher : K → Nat) (t : HashMap K V)
    (hr : Reach hasher t) :
    (∀ (k : K) (v : V), t.need_rebuild_ = false → t.size_ < kInfinity → k ∉ t.keys →
        leastLoaded t.bucket_ (candidates t k t.capacity_) ∈ candidates t k t.capacity_ ∧
        (t.insert (k, v)).bucket_ =
          pushFront t.bucket_ (leastLoaded t.bucket_ (candidates t k t.capacity_)) (k, v) ∧
        (∀ m, bucketAt (t.insert (k, v)).bucket_ m =
          if m = leastLoaded t.bucket_ (candidates t k t.capacity_)
          then (k, v) :: bucketAt t.bucket_ m else bucketAt t.bucket_ m) ∧
        (t.insert (k, v)).size = t.size + 1) ∧
      (t.need_rebuild_ = true →
        (RebuildIfNeed t).capacity_ = t.capacity_ * 2 ∧
        (RebuildIfNeed t).bucket_ =
          t.entries.foldl (placeLeast t (t.capacity_ * 2))
            (List.replicate (t.capacity_ * 2) [])) := by
  have hI := reach_inv hasher t hr
  constructor
  · intro k v hf hb hk
    have hR := RebuildIfNeed_of_false t hf
    have h1 := insert_of_not_mem t hI.len hI.cap_pos (k, v) hk
    rw [hR] at h1
    have hsmall : ∃ p ∈ primes_, (bucketAt t.bucket_ (GetHash t k t.capacity_ p)).length <
        kInfinity := by
      refine ⟨1, by simp [primes_], Nat.lt_of_le_of_lt (length_bucketAt_le _ _) ?_⟩
      have := hI.size_eq
      unfold HashMap.entries at this
      omega
    have h2 := rebuildLoop_eq_leastLoaded t t.bucket_ k t.capacity_ hsmall
    have h3 := rebuildLoop_mem t t.bucket_ k t.capacity_ primes_ 0 kInfinity hsmall
    have hlt := rebuildLoop_lt t t.bucket_ k t.capacity_ hI.cap_pos
    simp only at h1
    rw [h2] at h1 h3 hlt
    have hb1 : (t.insert (k, v)).bucket_ =
        pushFront t.bucket_ (leastLoaded t.bucket_ (candidates t k t.capacity_)) (k, v) := by
      rw [h1]
    refine ⟨h3, hb1, fun m => ?_, ?_⟩
    · rw [hb1, bucketAt_pushFront _ _ _ _ (by rw [hI.len]; exact hlt)]
      split
      · rename_i hm; rw [hm]
      · rfl
    · have h4 : (t.insert (k, v)).size = (t.size_ + 1) % wordSize := by rw [h1]; rfl
      rw [h4]
      have := kInfinity_lt_wordSize
      exact Nat.mod_eq_of_lt (by omega)
  · intro hf
    rw [RebuildIfNeed_of_true t hf hI.len]
    refine ⟨rfl, ?_⟩
    simp only
    apply foldl_rebuildEntry_eq_placeLeast t (t.capacity_ * 2)
      (by have := hI.cap_pos; omega) t.entries _ (by simp)
    rw [flatten_replicate_nil]
    have h1 := hI.size_eq
    have h2 := hI.size_le
    simp only [List.length_nil]
    omega

theorem C16_least_loaded_placement_witness :
    (((construct (fun k => k) : HashMap Nat Nat).insert (1, 10)).insert (5, 50)).bucket_ =
      pushFront ((construct (fun k => k) : HashMap Nat Nat).insert (1, 10)).bucket_
        (leastLoaded ((construct (fun k => k) : HashMap Nat Nat).insert (1, 10)).bucket_
          (candidates ((construct (fun k => k) : HashMap Nat Nat).insert (1, 10)) 5 4))
        (5, 50) :=
  ((C16_least_loaded_placement (fun k => k)
    ((construct (fun k => k) : HashMap Nat Nat).insert (1, 10))
    (Reach.insert _ _ Reach.empty (by decide))).1 5 50 (by decide) (by decide)
    (by decide)).2.1

/-- C16, as stated, fails beyond the `kInfinity` load: with the hasher that sends every
key to 1, after `insert((i, 0))` for `i = 0, ..., 4 * 10^12 - 1` the threshold is not
tripped, the key `4 * 10^12` is not stored and its candidate indices are 1, 2, 3, 5, yet
`insert((4 * 10^12, 7))` puts the pair in bucket 0, which was empty. -/
theorem C16_counterexample :
    fullTable.need_rebuild_ = false ∧ fullLoad ∉ fullTable.keys ∧
      candidates fullTable fullLoad fullTable.capacity_ = [1, 2, 3, 5] ∧
      bucketAt (fullTable.insert (fullLoad, 7)).bucket_ 0 = [(fullLoad, 7)] := by
  obtain ⟨hF, _, hcap⟩ := fullTable_filled
  refine ⟨?_, ?_, ?_, (overflow_one 7).2.2.1⟩
  · rw [hF.flag, hcap, fullLoad_eq]
    rfl
  · intro hm
    obtain ⟨e, he, hek⟩ := List.mem_map.mp hm
    have := hF.keys_lt e he
    omega
  · have h8 := hF.cap_ge
    unfold candidates primes_
    simp only [List.map_cons, List.map_nil]
    rw [GetHash_one _ hF.hasher _ _ 1 (by omega) h8, GetHash_one _ hF.hasher _ _ 2 (by omega) h8,
      GetHash_one _ hF.hasher _ _ 3 (by omega) h8, GetHash_one _ hF.hasher _ _ 5 (by omega) h8]

theorem small_iff (t : HashMap K V) :
    Small t ↔ ∀ i, (bucketAt t.bucket_ i).length < kInfinity := by
  unfold Small
  constructor
  · intro h i
    by_cases hi : i < t.bucket_.length
    · rw [bucketAt, List.getD_eq_getElem _ _ hi]
      exact h _ (List.getElem_mem _)
    · rw [bucketAt_eq_nil_of_le _ _ (by omega)]
      unfold kInfinity
      simp
  · intro h b hb
    obtain ⟨i, hi, rfl⟩ := List.getElem_of_mem hb
    have := h i
    rw [bucketAt, List.getD_eq_getElem _ _ hi] at this
    exact this

theorem length_bucketAt_rebuildEntry (t : HashMap K V) (c : Nat) (hc : 0 < c)
    (nb : List (List (K × V))) (hn : nb.length = c) (e : K × V) (i : Nat) :
    (bucketAt nb i).length ≤ (bucketAt (rebuildEntry t c nb e) i).length := by
  have hlt : (rebuildLoop t nb e.1 c primes_ 0 kInfinity).1 < nb.length := by
    rw [hn]; exact rebuildLoop_lt t nb e.1 c hc
  rw [rebuildEntry, bucketAt_pushFront _ _ _ _ hlt]
  split
  · rename_i h; rw [h, List.length_cons]; omega
  · exact Nat.le_refl _

theorem length_bucketAt_foldl_rebuildEntry (t : HashMap K V) (c : Nat) (hc : 0 < c)
    (es : List (K × V)) (nb : List (List (K × V))) (hn : nb.length = c) (i : Nat) :
    (bucketAt nb i).length ≤ (bucketAt (es.foldl (rebuildEntry t c) nb) i).length := by
  induction es generalizing nb with
  | nil => exact Nat.le_refl _
  | cons e es ih =>
    rw [List.foldl_cons]
    exact Nat.le_trans (length_bucketAt_rebuildEntry t c hc nb hn e i)
      (ih _ (by rw [rebuildEntry, length_pushFront, hn]))

/-- The rehash loop puts every entry in a candidate bucket of its key when no bucket of
the table it builds reaches `kInfinity` entries. -/
theorem placed_foldl_small (t : HashMap K V) (c : Nat) (hc : 0 < c)
    (es : List (K × V)) (nb : List (List (K × V))) (hn : nb.length = c)
    (hs : ∀ i, (bucketAt (es.foldl (rebuildEntry t c) nb) i).length < kInfinity)
    (hp : ∀ i e, e ∈ bucketAt nb i → i ∈ candidates t e.1 c) :
    ∀ i e, e ∈ bucketAt (es.foldl (rebuildEntry t c) nb) i → i ∈ candidates t e.1 c := by
  induction es generalizing nb with
  | nil => exact hp
  | cons e es ih =>
    rw [List.foldl_cons] at hs ⊢
    have hn1 : (rebuildEntry t c nb e).length = c := by
      rw [rebuildEntry, length_pushFront, hn]
    apply ih _ hn1 hs
    intro i e1 he1
    have hlt : (rebuildLoop t nb e.1 c primes_ 0 kInfinity).1 < nb.length := by
      rw [hn]; exact rebuildLoop_lt t nb e.1 c hc
    have hsmall : ∃ p ∈ primes_, (bucketAt nb (GetHash t e.1 c p)).length < kInfinity := by
      refine ⟨1, by simp [primes_], ?_⟩
      have h1 := length_bucketAt_rebuildEntry t c hc nb hn e (GetHash t e.1 c 1)
      have h2 := length_bucketAt_foldl_rebuildEntry t c hc es _ hn1 (GetHash t e.1 c 1)
      have h3 := hs (GetHash t e.1 c 1)
      omega
    have hmem := rebuildLoop_mem t nb e.1 c primes_ 0 kInfinity hsmall
    rw [rebuildEntry, bucketAt_pushFront _ _ _ _ hlt] at he1
    split at he1
    · rename_i h
      rcases List.mem_cons.mp he1 with h1 | h1
      · rw [h1, h]; exact hmem
      · rw [h]; exact hp _ _ h1
    · exact hp _ _ he1

theorem rebuild_placed (t : HashMap K V) (hl : t.bucket_.length = t.capacity_)
    (hc : 0 < t.capacity_)
    (hp : ∀ i e, e ∈ bucketAt t.bucket_ i → i ∈ candidates t e.1 t.capacity_)
    (hs : ∀ i, (bucketAt (RebuildIfNeed t).bucket_ i).length < kInfinity) :
    ∀ i e, e ∈ bucketAt (RebuildIfNeed t).bucket_ i →
      i ∈ candidates (RebuildIfNeed t) e.1 (RebuildIfNeed t).capacity_ := by
  cases hf : t.need_rebuild_ with
  | false => rw [RebuildIfNeed_of_false t hf]; exact hp
  | true =>
    rw [RebuildIfNeed_of_true t hf hl] at hs ⊢
    intro i e he
    exact placed_foldl_small t (t.capacity_ * 2) (by omega) t.entries _ (by simp) hs
      (fun i e he => by rw [bucketAt_replicate] at he; cases he) i e he

/-- The step of the invariant of `ReachSmall` for `insert`. -/
theorem insert_placed (t : HashMap K V) (pair : K × V)
    (hl : t.bucket_.length = t.capacity_) (hc : 0 < t.capacity_)
    (hp : ∀ i e, e ∈ bucketAt t.bucket_ i → i ∈ candidates t e.1 t.capacity_)
    (hs : Small (t.insert pair)) :
    ∀ i e, e ∈ bucketAt (t.insert pair).bucket_ i →
      i ∈ candidates (t.insert pair) e.1 (t.insert pair).capacity_ := by
  have hs1 := (small_iff _).mp hs
  have hl1 := RebuildIfNeed_len t hl
  have hc1 := RebuildIfNeed_cap_pos t hc
  have hlt := rebuildLoop_lt (RebuildIfNeed t) (RebuildIfNeed t).bucket_ pair.1
    (RebuildIfNeed t).capacity_ hc1
  have hlt1 : (rebuildLoop (RebuildIfNeed t) (RebuildIfNeed t).bucket_ pair.1
      (RebuildIfNeed t).capacity_ primes_ 0 kInfinity).1 < (RebuildIfNeed t).bucket_.length := by
    rw [hl1]; exact hlt
  rcases insert_cases t hl hc pair with ⟨h1, _⟩ | ⟨h1, _, _⟩
  · rw [h1] at hs1 ⊢
    exact rebuild_placed t hl hc hp hs1
  · have hb : (t.insert pair).bucket_ = pushFront (RebuildIfNeed t).bucket_
        (rebuildLoop (RebuildIfNeed t) (RebuildIfNeed t).bucket_ pair.1
          (RebuildIfNeed t).capacity_ primes_ 0 kInfinity).1 pair := by rw [h1]
    have hcap : (t.insert pair).capacity_ = (RebuildIfNeed t).capacity_ := by rw [h1]
    have hh : (t.insert pair).hasher_ = (RebuildIfNeed t).hasher_ := by rw [h1]
    have hs2 : ∀ i, (bucketAt (RebuildIfNeed t).bucket_ i).length < kInfinity := by
      intro i
      have := hs1 i
      rw [hb, bucketAt_pushFront _ _ _ _ hlt1] at this
      split at this
      · rename_i h
        rw [List.length_cons, ← h] at this
        omega
      · exact this
    have hp1 := rebuild_placed t hl hc hp hs2
    have hmem := rebuildLoop_mem (RebuildIfNeed t) (RebuildIfNeed t).bucket_ pair.1
      (RebuildIfNeed t).capacity_ primes_ 0 kInfinity ⟨1, by simp [primes_], hs2 _⟩
    intro i e he
    rw [hcap, candidates_congr _ _ hh]
    rw [hb, bucketAt_pushFront _ _ _ _ hlt1] at he
    split at he
    · rename_i h
      rcases List.mem_cons.mp he with h2 | h2
      · rw [h2, h]; exact hmem
      · rw [h]; exact hp1 _ _ h2
    · exact hp1 _ _ he

theorem insert_cap_pos (t : HashMap K V) (hl : t.bucket_.length = t.capacity_)
    (hc : 0 < t.capacity_) (pair : K × V) : 0 < (t.insert pair).capacity_ := by
  rw [insert_capacity_eq t hl hc]
  split <;> omega

/-- The buckets after `erase` are sublists of the buckets before. -/
theorem erase_bucket_sublist (t : HashMap K V) (hl : t.bucket_.length = t.capacity_)
    (hc : 0 < t.capacity_) (key : K) (m : Nat) :
    (bucketAt (t.erase key).bucket_ m).Sublist (bucketAt t.bucket_ m) := by
  by_cases h : ∃ p ∈ primes_, ∃ e ∈ bucketAt t.bucket_ (GetHash t key t.capacity_ p), e.1 = key
  · obtain ⟨p, _, _, heq⟩ := eraseLoop_hit t key primes_ h
    have hlt : GetHash t key t.capacity_ p < t.bucket_.length := by
      rw [hl]; exact Nat.mod_lt _ hc
    unfold HashMap.erase
    rw [heq]
    simp only
    rw [bucketAt_set _ _ _ _ hlt]
    split
    · rename_i hm
      rw [hm]
      exact List.eraseIdx_sublist _ _
    · exact List.Sublist.refl _
  · have := eraseLoop_miss t key primes_ (fun p hp e he hk => h ⟨p, hp, e, he, hk⟩)
    unfold HashMap.erase
    rw [this]

/-- The invariant of the tables of `ReachSmall`: one list per bucket index, no bucket with
`kInfinity` entries, every entry in a candidate bucket of its key. -/
theorem reachSmall_placed [Inhabited V] (t : HashMap K V) (h : ReachSmall t) :
    t.bucket_.length = t.capacity_ ∧ 0 < t.capacity_ ∧ Small t ∧
      ∀ i e, e ∈ bucketAt t.bucket_ i → i ∈ candidates t e.1 t.capacity_ := by
  have hempty : ∀ t0 : HashMap K V, t0.bucket_ = List.replicate 4 [] → t0.capacity_ = 4 →
      t0.bucket_.length = t0.capacity_ ∧ 0 < t0.capacity_ ∧ Small t0 ∧
        ∀ i e, e ∈ bucketAt t0.bucket_ i → i ∈ candidates t0 e.1 t0.capacity_ := by
    intro t0 hb hcap
    refine ⟨by rw [hb, hcap]; rfl, by omega, (small_iff _).mpr (fun i => ?_), fun i e he => ?_⟩
    · rw [hb, bucketAt_replicate]; unfold kInfinity; simp
    · rw [hb, bucketAt_replicate] at he; cases he
  have hcopy : ∀ self other : HashMap K V,
      (other.bucket_.length = other.capacity_ ∧ 0 < other.capacity_ ∧ Small other ∧
        ∀ i e, e ∈ bucketAt other.bucket_ i → i ∈ candidates other e.1 other.capacity_) →
      ((CopyHashMap self other).bucket_.length = (CopyHashMap self other).capacity_ ∧
        0 < (CopyHashMap self other).capacity_ ∧ Small (CopyHashMap self other) ∧
        ∀ i e, e ∈ bucketAt (CopyHashMap self other).bucket_ i →
          i ∈ candidates (CopyHashMap self other) e.1 (CopyHashMap self other).capacity_) := by
    intro self other ⟨hl, hc, hs, hp⟩
    obtain ⟨h1, h2, _, _, h5, h6⟩ := CopyHashMap_spec self other hl
    refine ⟨by rw [h5, h1], by rw [h1]; exact hc, (small_iff _).mpr (fun i => ?_),
      fun i e he => ?_⟩
    · rw [h6, List.length_reverse]; exact (small_iff _).mp hs i
    · rw [h6] at he
      rw [h1, candidates_congr _ _ h2]
      exact hp i e (List.mem_reverse.mp he)
  induction h with
  | empty hasher => exact hempty _ rfl rfl
  | clear t _ _ => exact hempty _ rfl rfl
  | insert t pair _ hs ih =>
    obtain ⟨hl, hc, _, hp⟩ := ih
    exact ⟨insert_len t hl hc pair, insert_cap_pos t hl hc pair, hs,
      insert_placed t pair hl hc hp hs⟩
  | index t key _ hs ih =>
    obtain ⟨hl, hc, _, hp⟩ := ih
    rw [index_fst] at hs ⊢
    exact ⟨insert_len t hl hc _, insert_cap_pos t hl hc _, hs,
      insert_placed t _ hl hc hp hs⟩
  | erase t key _ ih =>
    obtain ⟨hl, hc, hs, hp⟩ := ih
    have h1 := (eraseLoop_frame t key primes_).1
    have h3 := (eraseLoop_frame t key primes_).2.2
    have h2 := eraseLoop_len t key primes_
    refine ⟨by rw [HashMap.erase, h1, h2, hl], by rw [HashMap.erase, h1]; exact hc,
      (small_iff _).mpr (fun i => ?_), fun i e he => ?_⟩
    · exact Nat.lt_of_le_of_lt (erase_bucket_sublist t hl hc key i).length_le
        ((small_iff _).mp hs i)
    · have h4 : (t.erase key).capacity_ = t.capacity_ := h1
      have h5 : (t.erase key).hasher_ = t.hasher_ := h3
      rw [h4, candidates_congr _ _ h5]
      exact hp i e ((erase_bucket_sublist t hl hc key i).subset he)
  | copy d other _ ih => exact hcopy _ other ih
  | assign self other b _ _ ih1 ih2 =>
    cases b with
    | true => exact ih1
    | false => exact hcopy self other ih2

/-- C19: in every table reached from a constructed empty table by calls of `insert`,
`erase`, `operator[]`, `clear`, the copy constructor and the copy assignment in which no
bucket has reached `kInfinity` (10^12) entries (the table left by every call has fewer
entries than that in each bucket), every stored entry is in a bucket whose index is one of
the candidate indices of its key for the current capacity, and the probes of `find` and
`at` reach every stored key. -/
theorem C19_entries_in_candidate_buckets [Inhabited V] (t : HashMap K V)
    (h : ReachSmall t) :
    (∀ i e, e ∈ bucketAt t.bucket_ i → i ∈ candidates t e.1 t.capacity_) ∧
      ∀ e ∈ t.entries,
        (t.find e.1).eq t.end_ = false ∧ ∃ v, (t.at_ e.1).1 = Except.ok v := by
  obtain ⟨_, _, _, hp⟩ := reachSmall_placed t h
  refine ⟨hp, fun e he => ?_⟩
  obtain ⟨i, hi⟩ := (mem_entries_iff_bucketAt t e).mp he
  obtain ⟨p, hpp, hpi⟩ := (mem_candidates_iff _ _ _ _).mp (hp i e hi)
  have hne : (t.at_ e.1).1 ≠ Except.error Error.out_of_range := by
    intro herr
    have := (atLoop_error_iff t e.1 primes_).mp herr p hpp e (by rw [hpi]; exact hi)
    exact this rfl
  constructor
  · cases hf : (t.find e.1).eq t.end_ with
    | false => rfl
    | true => exact absurd ((find_eq_end_iff t e.1).mp hf) hne
  · cases hr : (t.at_ e.1).1 with
    | error err => cases err; exact absurd hr hne
    | ok v => exact ⟨v, rfl⟩

theorem C19_entries_in_candidate_buckets_witness :
    (1, 10) ∈ bucketAt ((construct (fun k => k) : HashMap Nat Nat).insert (1, 10)).bucket_ 1 ∧
      1 ∈ candidates ((construct (fun k => k) : HashMap Nat Nat).insert (1, 10)) 1
        ((construct (fun k => k) : HashMap Nat Nat).insert (1, 10)).capacity_ :=
  ⟨by decide,
    (C19_entries_in_candidate_buckets
      ((construct (fun k => k) : HashMap Nat Nat).insert (1, 10))
      (ReachSmall.insert _ _ (ReachSmall.empty _) (by unfold Small; decide))).1 1 (1, 10)
      (by decide)⟩

/-- C9, amended: for every table reached from the empty table by `insert`, `erase` and
`operator[]` calls, those that can add an entry being made while `size()` is below
`kInfinity` (10^12), and every key `k`: `at(k)` throws `out_of_range` if and only if no
entry of the table has key `k`, which is exactly when `find(k)` equals `end()`; otherwise
`at(k)` returns the value `v` of the stored entry `(k, v)`, the one `find(k)` points at; in
both cases the table after the call is the table before it. -/
theorem C9_at_fails_iff_absent [Inhabited V] (hasher : K → Nat) (t : HashMap K V)
    (hr : Reach hasher t) (k : K) :
    ((t.at_ k).1 = Except.error Error.out_of_range ↔ k ∉ t.keys) ∧
      ((t.find k).eq t.end_ = true ↔ k ∉ t.keys) ∧
      (k ∈ t.keys → ∃ v, (k, v) ∈ t.entries ∧ (t.at_ k).1 = Except.ok v ∧
        (t.find k).eq t.end_ = false ∧ t.deref (t.find k) = some (k, v)) ∧
      (∀ v, (t.at_ k).1 = Except.ok v ↔ (k, v) ∈ t.entries) ∧
      (t.at_ k).2 = t := by
  have hI := reach_inv hasher t hr
  refine ⟨at_error_iff t hI k, ?_, fun hk => ?_, fun v => at_ok_iff t hI k v, at_snd t k⟩
  · rw [find_eq_end_iff]
    exact at_error_iff t hI k
  · obtain ⟨v, hv⟩ := (mem_keys_iff t k).mp hk
    have hat := (at_ok_iff t hI k v).mpr hv
    obtain ⟨h1, h2⟩ := findLoop_of_ok t k primes_ v hat
    exact ⟨v, hv, hat, h2, h1⟩

theorem C9_at_fails_iff_absent_witness :
    (((construct (fun k : Nat => k) : HashMap Nat Nat).insert (3, 1)).at_ 7).1 =
        Except.error Error.out_of_range ∧
      (((construct (fun k : Nat => k) : HashMap Nat Nat).insert (3, 1)).at_ 3).1 =
        Except.ok 1 :=
  ⟨(C9_at_fails_iff_absent (fun k : Nat => k)
      ((construct (fun k : Nat => k) : HashMap Nat Nat).insert (3, 1))
      (Reach.insert _ _ Reach.empty (by decide)) 7).1.mpr (by decide),
    ((C9_at_fails_iff_absent (fun k : Nat => k)
      ((construct (fun k : Nat => k) : HashMap Nat Nat).insert (3, 1))
      (Reach.insert _ _ Reach.empty (by decide)) 3).2.2.2.1 1).mpr (by decide)⟩

/-- C9, as stated, fails beyond the `kInfinity` load: with the hasher that sends every key
to 1, after `insert((i, 0))` for `i = 0, ..., 4 * 10^12 - 1` and `insert((4 * 10^12, 7))`
the key `4 * 10^12` is stored in the table, yet `at(4 * 10^12)` throws `out_of_range` and
`find(4 * 10^12)` equals `end()`. -/
theorem C9_counterexample :
    fullLoad ∈ (fullTable.insert (fullLoad, 7)).keys ∧
      ((fullTable.insert (fullLoad, 7)).at_ fullLoad).1 = Except.error Error.out_of_range ∧
      ((fullTable.insert (fullLoad, 7)).find fullLoad).eq
        (fullTable.insert (fullLoad, 7)).end_ = true := by
  obtain ⟨hF, _, h0, hj⟩ := overflow_one 7
  have hat := at_error_one _ hF.hasher hF.cap_ge fullLoad hj
  refine ⟨?_, hat, (find_eq_end_iff _ _).mpr hat⟩
  apply (mem_keys_iff _ _).mpr
  exact ⟨7, (mem_entries_iff_bucketAt _ _).mpr ⟨0, by rw [h0]; exact List.mem_singleton.mpr rfl⟩⟩

/-- Inserting a key that buckets 1, 2, 3 and 5 do not hold, in a table with hasher
`oneHasher` whose buckets 1, 2, 3 and 5 are full and whose threshold is not reached: the
pair goes to the front of bucket 0. -/
theorem filled_overflow_insert (t : HashMap Nat Nat) (n b : Nat) (hF : Filled t n b)
    (hfull : fullLoad ≤ n) (hcap : n < t.capacity_) (hn : n + 1 < wordSize) (k v : Nat)
    (hmiss : ∀ j, j = 1 ∨ j = 2 ∨ j = 3 ∨ j = 5 → ∀ e ∈ bucketAt t.bucket_ j, e.1 ≠ k) :
    Filled (t.insert (k, v)) (n + 1) (max b (k + 1)) ∧
      (t.insert (k, v)).capacity_ = t.capacity_ ∧
      bucketAt (t.insert (k, v)).bucket_ 0 = (k, v) :: bucketAt t.bucket_ 0 ∧
      ∀ j, j ≠ 0 → bucketAt (t.insert (k, v)).bucket_ j = bucketAt t.bucket_ j := by
  have hR : RebuildIfNeed t = t := filled_no_rebuild _ _ _ hF (by omega)
  obtain ⟨h1, h2, _, h4⟩ := filled_insert t n b hF hn k v (by rw [hR]; exact hmiss)
  rw [hR, selected_of_full _ hfull] at h2
  rw [hR] at h4
  have hlen : 0 < t.bucket_.length := by
    rw [hF.len]; have := hF.cap_ge; omega
  refine ⟨h1, h4, ?_, fun j hj => ?_⟩
  · rw [h2, bucketAt_pushFront _ _ _ _ hlen, if_pos rfl]
  · rw [h2, bucketAt_pushFront _ _ _ _ hlen, if_neg hj]

/-- Five insertions into bucket 0: the key `n` with value 7, three fresh keys, and the key
`n` again with value 8. -/
theorem five_overflow (t : HashMap Nat Nat) (n : Nat) (hF : Filled t n n)
    (hfull : fullLoad ≤ n) (hcap : n + 5 = t.capacity_) (hn : n + 6 < wordSize) :
    Filled (((((t.insert (n, 7)).insert (n + 1, 0)).insert (n + 2, 0)).insert
        (n + 3, 0)).insert (n, 8)) (n + 5) (n + 4) ∧
      (((((t.insert (n, 7)).insert (n + 1, 0)).insert (n + 2, 0)).insert
        (n + 3, 0)).insert (n, 8)).capacity_ = t.capacity_ ∧
      bucketAt (((((t.insert (n, 7)).insert (n + 1, 0)).insert (n + 2, 0)).insert
        (n + 3, 0)).insert (n, 8)).bucket_ 0 =
        (n, 8) :: (n + 3, 0) :: (n + 2, 0) :: (n + 1, 0) :: (n, 7) :: bucketAt t.bucket_ 0 ∧
      ∀ j, j ≠ 0 → bucketAt (((((t.insert (n, 7)).insert (n + 1, 0)).insert (n + 2, 0)).insert
        (n + 3, 0)).insert (n, 8)).bucket_ j = bucketAt t.bucket_ j := by
  have hlt : ∀ j, ∀ e ∈ bucketAt t.bucket_ j, e.1 < n := fun j e he =>
    hF.keys_lt e (mem_flatten_of_mem_bucketAt _ _ _ he)
  obtain ⟨hF1, hc1, hz1, hj1⟩ := filled_overflow_insert t n n hF hfull (by omega) (by omega)
    n 7 (fun j _ e he => by have := hlt j e he; omega)
  rw [show max n (n + 1) = n + 1 by omega] at hF1
  obtain ⟨hF2, hc2, hz2, hj2⟩ := filled_overflow_insert _ (n + 1) (n + 1) hF1 (by omega)
    (by omega) (by omega) (n + 1) 0
    (fun j hj e he => by
      rw [hj1 j (by omega)] at he
      have := hlt j e he; omega)
  rw [show max (n + 1) (n + 1 + 1) = n + 2 by omega] at hF2
  obtain ⟨hF3, hc3, hz3, hj3⟩ := filled_overflow_insert _ (n + 2) (n + 2) hF2 (by omega)
    (by omega) (by omega) (n + 2) 0
    (fun j hj e he => by
      rw [hj2 j (by omega), hj1 j (by omega)] at he
      have := hlt j e he; omega)
  rw [show max (n + 2) (n + 2 + 1) = n + 3 by omega] at hF3
  obtain ⟨hF4, hc4, hz4, hj4⟩ := filled_overflow_insert _ (n + 3) (n + 3) hF3 (by omega)
    (by omega) (by omega) (n + 3) 0
    (fun j hj e he => by
      rw [hj3 j (by omega), hj2 j (by omega), hj1 j (by omega)] at he
      have := hlt j e he; omega)
  rw [show max (n + 3) (n + 3 + 1) = n + 4 by omega] at hF4
  obtain ⟨hF5, hc5, hz5, hj5⟩ := filled_overflow_insert _ (n + 4) (n + 4) hF4 (by omega)
    (by omega) (by omega) n 8
    (fun j hj e he => by
      rw [hj4 j (by omega), hj3 j (by omega), hj2 j (by omega), hj1 j (by omega)] at he
      have := hlt j e he; omega)
  rw [show max (n + 4) (n + 1) = n + 4 by omega] at hF5
  refine ⟨hF5, by rw [hc5, hc4, hc3, hc2, hc1], by rw [hz5, hz4, hz3, hz2, hz1], fun j hj => ?_⟩
  rw [hj5 j hj, hj4 j hj, hj3 j hj, hj2 j hj, hj1 j hj]

theorem mem_flatten_drop {K V : Type} (bs : List (List (K × V))) (s : Nat) (e : K × V)
    (h : e ∈ (bs.drop s).flatten) : ∃ j, s ≤ j ∧ e ∈ bucketAt bs j := by
  obtain ⟨i, _, hi⟩ := exists_bucketAt_of_mem_flatten _ _ h
  refine ⟨s + i, by omega, ?_⟩
  unfold bucketAt at hi ⊢
  rw [List.getD_eq_getElem?_getD] at hi ⊢
  rw [List.getElem?_drop] at hi
  exact hi

/-- The rehash loop only adds entries in front of what a bucket holds. -/
theorem foldl_rebuildEntry_bucket {K V : Type} [DecidableEq K] (t : HashMap K V) (c : Nat)
    (hc : 0 < c) (es : List (K × V)) (nb : List (List (K × V))) (hn : nb.length = c)
    (i : Nat) :
    ∃ pre, bucketAt (es.foldl (rebuildEntry t c) nb) i = pre ++ bucketAt nb i ∧
      ∀ e ∈ pre, e ∈ es := by
  induction es generalizing nb with
  | nil => exact ⟨[], rfl, fun e he => by cases he⟩
  | cons a es ih =>
    rw [List.foldl_cons]
    have hlt : (rebuildLoop t nb a.1 c primes_ 0 kInfinity).1 < nb.length := by
      rw [hn]; exact rebuildLoop_lt t nb a.1 c hc
    obtain ⟨pre, h1, h2⟩ := ih (rebuildEntry t c nb a)
      (by rw [rebuildEntry, length_pushFront, hn])
    rw [h1, rebuildEntry, bucketAt_pushFront _ _ _ _ hlt]
    split
    · rename_i hi
      refine ⟨pre ++ [a], by rw [hi]; simp, ?_⟩
      intro e he
      rcases List.mem_append.mp he with h | h
      · exact List.mem_cons_of_mem _ (h2 e h)
      · rw [List.mem_singleton.mp h]; exact List.mem_cons_self _ _
    · exact ⟨pre, rfl, fun e he => List.mem_cons_of_mem _ (h2 e he)⟩

/-- One step of the rehash loop in a table with hasher `oneHasher`. -/
theorem rebuildEntry_one (t : HashMap Nat Nat) (ht : t.hasher_ = oneHasher)
    (nb : List (List (Nat × Nat))) (c m : Nat) (hc : 8 ≤ c) (hl : nb.length = c)
    (hb : RoundRobin nb m) (e : Nat × Nat) :
    rebuildEntry t c nb e = pushFront nb (selected m) e ∧
      RoundRobin (pushFront nb (selected m) e) (m + 1) ∧
      (pushFront nb (selected m) e).length = c := by
  have h1 : rebuildEntry t c nb e = pushFront nb (selected m) e := by
    rw [rebuildEntry, rebuildLoop_one t ht nb c m e.1 hc hb]
    rfl
  refine ⟨h1, ?_, by rw [length_pushFront, hl]⟩
  rw [← h1]
  exact roundRobin_rebuildEntry t ht nb c m hc hl hb e

/-- The rehash of a table with hasher `oneHasher`: the first and the fifth entry moved end
up next to each other at the back of bucket 1. -/
theorem rehash_front (t : HashMap Nat Nat) (ht : t.hasher_ = oneHasher) (c : Nat)
    (hc : 8 ≤ c) (e1 e2 e3 e4 e5 : Nat × Nat) (tail : List (Nat × Nat)) :
    ∃ pre, bucketAt ((e1 :: e2 :: e3 :: e4 :: e5 :: tail).foldl (rebuildEntry t c)
        (List.replicate c [])) 1 = pre ++ [e5, e1] ∧ ∀ e ∈ pre, e ∈ tail := by
  have s0 : selected 0 = 1 := by decide
  have s1 : selected 1 = 2 := by decide
  have s2 : selected 2 = 3 := by decide
  have s3 : selected 3 = 5 := by decide
  have s4 : selected 4 = 1 := by decide
  have hl0 : (List.replicate c ([] : List (Nat × Nat))).length = c := by simp
  obtain ⟨a1, b1, l1⟩ := rebuildEntry_one t ht _ c 0 hc hl0 (roundRobin_replicate c) e1
  rw [s0] at a1 b1 l1
  obtain ⟨a2, b2, l2⟩ := rebuildEntry_one t ht _ c 1 hc l1 b1 e2
  rw [s1] at a2 b2 l2
  obtain ⟨a3, b3, l3⟩ := rebuildEntry_one t ht _ c 2 hc l2 b2 e3
  rw [s2] at a3 b3 l3
  obtain ⟨a4, b4, l4⟩ := rebuildEntry_one t ht _ c 3 hc l3 b3 e4
  rw [s3] at a4 b4 l4
  obtain ⟨a5, b5, l5⟩ := rebuildEntry_one t ht _ c 4 hc l4 b4 e5
  rw [s4] at a5 b5 l5
  simp only [List.foldl_cons]
  rw [a1, a2, a3, a4, a5]
  obtain ⟨pre, h1, h2⟩ := foldl_rebuildEntry_bucket t c (by omega) tail _ l5 1
  refine ⟨pre, ?_, h2⟩
  rw [h1, bucketAt_pushFront _ _ _ _ (by rw [l4]; omega), if_pos rfl,
    bucketAt_pushFront _ _ _ _ (by rw [l3]; omega), if_neg (by omega),
    bucketAt_pushFront _ _ _ _ (by rw [l2]; omega), if_neg (by omega),
    bucketAt_pushFront _ _ _ _ (by rw [l1]; omega), if_neg (by omega),
    bucketAt_pushFront _ _ _ _ (by rw [hl0]; omega), if_pos rfl, bucketAt_replicate]

/-- The table left by the five insertions of `five_overflow` and a sixth call
`insert((n, 9))`, which performs the rehash and finds the key `n`: bucket 1 ends with the
entries `(n, 7)` and `(n, 8)`, and no entry before them has key `n`. -/
theorem dup_scene (t : HashMap Nat Nat) (n : Nat) (hF : Filled t n n)
    (hfull : fullLoad ≤ n) (hcap : n + 5 = t.capacity_) (hn : n + 6 < wordSize) :
    (((((((t.insert (n, 7)).insert (n + 1, 0)).insert (n + 2, 0)).insert
        (n + 3, 0)).insert (n, 8)).insert (n, 9)).hasher_ = oneHasher ∧
      8 ≤ ((((((t.insert (n, 7)).insert (n + 1, 0)).insert (n + 2, 0)).insert
        (n + 3, 0)).insert (n, 8)).insert (n, 9)).capacity_ ∧
      ((((((t.insert (n, 7)).insert (n + 1, 0)).insert (n + 2, 0)).insert
        (n + 3, 0)).insert (n, 8)).insert (n, 9)).bucket_.length =
        ((((((t.insert (n, 7)).insert (n + 1, 0)).insert (n + 2, 0)).insert
          (n + 3, 0)).insert (n, 8)).insert (n, 9)).capacity_) ∧
      ∃ pre, bucketAt ((((((t.insert (n, 7)).insert (n + 1, 0)).insert (n + 2, 0)).insert
        (n + 3, 0)).insert (n, 8)).insert (n, 9)).bucket_ 1 = pre ++ [(n, 7), (n, 8)] ∧
        ∀ e ∈ pre, e.1 ≠ n := by
  obtain ⟨hF5, hc5, hz5, hj5⟩ := five_overflow t n hF hfull hcap hn
  generalize ((((t.insert (n, 7)).insert (n + 1, 0)).insert (n + 2, 0)).insert
    (n + 3, 0)).insert (n, 8) = t5 at hF5 hc5 hz5 hj5 ⊢
  have hflag : t5.need_rebuild_ = true := by
    rw [hF5.flag]
    exact decide_eq_true (by omega)
  have hlen : 0 < t5.bucket_.length := by
    rw [hF5.len]; have := hF5.cap_ge; omega
  have hent : t5.entries =
      (n, 8) :: (n + 3, 0) :: (n + 2, 0) :: (n + 1, 0) :: (n, 7) ::
        (bucketAt t.bucket_ 0 ++ (t5.bucket_.drop 1).flatten) := by
    have := flatten_drop t5.bucket_ 0 hlen
    rw [List.drop_zero, hz5] at this
    unfold HashMap.entries
    rw [this]
    rfl
  have htail : ∀ e ∈ bucketAt t.bucket_ 0 ++ (t5.bucket_.drop 1).flatten, e.1 ≠ n := by
    intro e he
    have hlt : e.1 < n := by
      rcases List.mem_append.mp he with h | h
      · exact hF.keys_lt e (mem_flatten_of_mem_bucketAt _ _ _ h)
      · obtain ⟨j, hj, hej⟩ := mem_flatten_drop _ _ _ h
        rw [hj5 j (by omega)] at hej
        exact hF.keys_lt e (mem_flatten_of_mem_bucketAt _ _ _ hej)
    omega
  have hR := RebuildIfNeed_of_true t5 hflag hF5.len
  have h8 : 8 ≤ t5.capacity_ * 2 := by have := hF5.cap_ge; omega
  obtain ⟨pre, hp1, hp2⟩ := rehash_front t5 hF5.hasher (t5.capacity_ * 2) h8
    (n, 8) (n + 3, 0) (n + 2, 0) (n + 1, 0) (n, 7)
    (bucketAt t.bucket_ 0 ++ (t5.bucket_.drop 1).flatten)
  rw [← hent] at hp1
  have hRh : (RebuildIfNeed t5).hasher_ = oneHasher := by
    rw [RebuildIfNeed_hasher]; exact hF5.hasher
  have hRc : (RebuildIfNeed t5).capacity_ = t5.capacity_ * 2 := by
    rw [RebuildIfNeed_capacity, if_pos hflag]
  have hRb : bucketAt (RebuildIfNeed t5).bucket_ 1 = pre ++ [(n, 7), (n, 8)] := by
    rw [hR]
    exact hp1
  have hins : t5.insert (n, 9) = RebuildIfNeed t5 := by
    apply insert_of_hit
    refine ⟨1, by simp [primes_], (n, 7), ?_, rfl⟩
    rw [GetHash_one _ hRh _ _ 1 (by omega) (by rw [hRc]; exact h8), hRb]
    simp
  rw [hins]
  refine ⟨⟨hRh, by rw [hRc]; exact h8, RebuildIfNeed_len t5 hF5.len⟩, pre, hRb, ?_⟩
  intro e he
  exact htail e (hp2 e he)

theorem runCalls_snoc_six {K V : Type} [DecidableEq K] (hasher : K → Nat)
    (cs : List (Call K V)) (a b c d e f : K × V) :
    runCalls hasher (cs ++ [Call.insert a, Call.insert b, Call.insert c, Call.insert d,
        Call.insert e, Call.insert f]) =
      ((((((runCalls hasher cs).insert a).insert b).insert c).insert d).insert e).insert f := by
  simp [runCalls, List.foldl_append, applyCall]

/-- The table `dupTable`: bucket 1 ends with the entries `(dupBase, 7)` and
`(dupBase, 8)`, and no entry before them has key `dupBase`. -/
theorem dupTable_scene :
    (dupTable.hasher_ = oneHasher ∧ 8 ≤ dupTable.capacity_ ∧
      dupTable.bucket_.length = dupTable.capacity_) ∧
      ∃ pre, bucketAt dupTable.bucket_ 1 = pre ++ [(dupBase, 7), (dupBase, 8)] ∧
        ∀ e ∈ pre, e.1 ≠ dupBase := by
  unfold dupTable
  rw [runCalls_snoc_six]
  have h := filled_fill dupBase (by unfold dupBase; omega)
    (by rw [wordSize_eq]; unfold dupBase; omega)
  have hc := capacity_of_filled _ _ _ h.1 (by unfold dupBase; omega)
    (by unfold dupBase; omega)
  exact dup_scene _ dupBase h.1 (by rw [fullLoad_eq]; unfold dupBase; omega)
    (by rw [hc]; unfold dupBase; norm_num) (by rw [wordSize_eq]; unfold dupBase; omega)

/-- The result of `at` when the bucket of the first probe holds the key. -/
theorem at_of_bucket_one (t : HashMap Nat Nat) (ht : t.hasher_ = oneHasher)
    (hc : 8 ≤ t.capacity_) (k v : Nat) (pre post : List (Nat × Nat))
    (hb : bucketAt t.bucket_ 1 = pre ++ (k, v) :: post) (hpre : ∀ e ∈ pre, e.1 ≠ k) :
    (t.at_ k).1 = Except.ok v := by
  unfold HashMap.at_ primes_
  rw [atLoop_cons_fst, GetHash_one t ht k _ 1 (by omega) hc, hb, List.find?_append,
    List.find?_eq_none.mpr (fun e he => by simpa using hpre e he),
    List.find?_cons_of_pos _ (by simp)]
  rfl

theorem eraseIdx_findIdx_append {α : Type} (p : α → Bool) (pre l : List α)
    (h : ∀ e ∈ pre, p e = false) :
    (pre ++ l).eraseIdx ((pre ++ l).findIdx p) = pre ++ l.eraseIdx (l.findIdx p) := by
  induction pre with
  | nil => rfl
  | cons a pre ih =>
    rw [List.cons_append, List.findIdx_cons, h a (List.mem_cons_self _ _)]
    simp only [cond_false, List.eraseIdx_cons_succ]
    rw [ih (fun e he => h e (List.mem_cons_of_mem _ he))]
    rfl

/-- The call `erase` when the bucket of the first probe holds the key: the first entry
with that key is removed from it. -/
theorem erase_of_bucket_one (t : HashMap Nat Nat) (ht : t.hasher_ = oneHasher)
    (hc : 8 ≤ t.capacity_) (hl : t.bucket_.length = t.capacity_) (k v : Nat)
    (pre post : List (Nat × Nat))
    (hb : bucketAt t.bucket_ 1 = pre ++ (k, v) :: post) (hpre : ∀ e ∈ pre, e.1 ≠ k) :
    (t.erase k).hasher_ = oneHasher ∧ 8 ≤ (t.erase k).capacity_ ∧
      bucketAt (t.erase k).bucket_ 1 = pre ++ post := by
  have hf := eraseLoop_frame t k primes_
  refine ⟨by rw [HashMap.erase, hf.2.2]; exact ht, by rw [HashMap.erase, hf.1]; exact hc, ?_⟩
  have hg := GetHash_one t ht k t.capacity_ 1 (by omega) hc
  have hne : Find t k (GetHash t k t.capacity_ 1) ≠ listEnd t.bucket_ (GetHash t k t.capacity_ 1) := by
    apply (Find_ne_end_iff t k _).mpr
    rw [hg, hb]
    exact ⟨(k, v), by simp, rfl⟩
  have he : t.erase k =
      { t with
        size_ := (t.size_ + wordSize - 1) % wordSize
        bucket_ := t.bucket_.set (GetHash t k t.capacity_ 1)
          ((bucketAt t.bucket_ (GetHash t k t.capacity_ 1)).eraseIdx
            (Find t k (GetHash t k t.capacity_ 1)).2) } := by
    unfold HashMap.erase primes_
    simp only [eraseLoop]
    rw [if_pos hne]
  rw [he]
  simp only
  rw [hg, bucketAt_set _ _ _ _ (by rw [hl]; omega), if_pos rfl]
  unfold Find
  simp only
  rw [hb, eraseIdx_findIdx_append _ _ _ (fun e he => by simpa using hpre e he)]
  simp [List.findIdx_cons]

/-- The result of `at` on the copies of a table with hasher `oneHasher` whose bucket 1 ends
with two entries of the same key: the copies hold the bucket in reverse order, so that the
second of the two entries is found first. -/
theorem copy_at_one (self t : HashMap Nat Nat) (default_hasher : Nat → Nat)
    (ht : t.hasher_ = oneHasher) (hc : 8 ≤ t.capacity_)
    (hl : t.bucket_.length = t.capacity_) (k v w : Nat) (pre : List (Nat × Nat))
    (hb : bucketAt t.bucket_ 1 = pre ++ [(k, v), (k, w)]) :
    ((copyConstruct default_hasher t).at_ k).1 = Except.ok w ∧
      ((self.assign t false).at_ k).1 = Except.ok w := by
  have key : ∀ s : HashMap Nat Nat, ((CopyHashMap s t).at_ k).1 = Except.ok w := by
    intro s
    obtain ⟨h1, h2, _, _, _, h6⟩ := CopyHashMap_spec s t hl
    exact at_of_bucket_one _ (by rw [h2]; exact ht) (by rw [h1]; exact hc) k w []
      ((k, v) :: pre.reverse) (by rw [h6, hb]; simp) (fun e he => by cases he)
  exact ⟨key _, key self⟩

/-- C10, as stated, fails beyond the `kInfinity` load: `dupTable` is reached from the empty
table by calls of `insert` with the hasher that sends every key to 1.  The first `dupBase`
insertions leave 10^12 entries in each of the buckets 1, 2, 3, 5 and the others in bucket
0; the next five go to the front of bucket 0 and trip the threshold at `2 ^ 42` entries;
`insert((dupBase, 9))` rehashes, moving bucket 0 first from its front: `(dupBase, 8)` goes
to bucket 1, the three fresh keys to buckets 2, 3, 5, and `(dupBase, 7)` to the front of
bucket 1.  Then `at(dupBase)` returns 7 on `dupTable` and 8 on the table made from it by
the copy constructor and by the copy assignment, whose buckets are in reverse order. -/
theorem C10_counterexample :
    (dupTable.at_ dupBase).1 = Except.ok 7 ∧
      ((copyConstruct oneHasher dupTable).at_ dupBase).1 = Except.ok 8 ∧
      (((construct oneHasher : HashMap Nat Nat).assign dupTable false).at_ dupBase).1 =
        Except.ok 8 := by
  obtain ⟨⟨ht, hc, hl⟩, pre, hb, hpre⟩ := dupTable_scene
  exact ⟨at_of_bucket_one _ ht hc dupBase 7 pre [(dupBase, 8)] hb hpre,
    copy_at_one (construct oneHasher) dupTable oneHasher ht hc hl dupBase 7 8 pre hb⟩

/-- C5, as stated, fails beyond the `kInfinity` load: `dupTable` is reached from the empty
table by calls of `insert` with the hasher that sends every key to 1, and its bucket 1
holds the entries `(dupBase, 7)` and `(dupBase, 8)`; `erase(dupBase)` removes the first of
them only: after it `at(dupBase)` returns 8 and `find(dupBase)` differs from `end()`. -/
theorem C5_counterexample :
    ((dupTable.erase dupBase).at_ dupBase).1 = Except.ok 8 ∧
      ((dupTable.erase dupBase).find dupBase).eq (dupTable.erase dupBase).end_ = false := by
  obtain ⟨⟨ht, hc, hl⟩, pre, hb, hpre⟩ := dupTable_scene
  obtain ⟨h1, h2, h3⟩ := erase_of_bucket_one dupTable ht hc hl dupBase 7 pre [(dupBase, 8)]
    hb hpre
  have hat := at_of_bucket_one _ h1 h2 dupBase 8 pre [] h3 hpre
  exact ⟨hat, (findLoop_of_ok _ dupBase primes_ 8 hat).2⟩

end Theory

end HashMapModel
